import Mathlib

/-!
Verification development for the CoinRun simulation core
(src/coinrun/coinrun.cpp).

The C++ simulation core is shallowly embedded: each C++ function becomes a
Lean definition operating on explicit state records.  `float`/`double`
arithmetic is modelled over `ℚ` with the source's decimal literals taken
exactly (the properties proved here are insensitive to float rounding);
C++ `int(...)` truncation toward zero is modelled by `cInt`; the
`std::mt19937` engine backing `RandGen` is embedded as `mtStream`, and the
generation/stepping code is parametrised over an arbitrary raw 32-bit draw
stream `σ : Nat → Nat` exactly as it is over the engine's output sequence.
Out-of-grid reads return a junk tile `'?'` (the C++ reads raw memory at a
wrapped flat index; on the border-solid mazes arising here the wrapped cell
is a wall, so control flow agrees); out-of-grid writes set an `oobWrite`
flag instead of corrupting memory.
-/

/-! ## Tile alphabet and predicates (coinrun.cpp lines 71-191) -/

def SPACE : Char := '.'
def LADDER : Char := '='
def LAVA_SURFACE : Char := '^'
def LAVA_MIDDLE : Char := '|'
def WALL_SURFACE : Char := 'S'
def WALL_MIDDLE : Char := 'A'
def COIN_OBJ1 : Char := '1'
def COIN_OBJ2 : Char := '2'
def SPIKE_OBJ : Char := 'P'
def FLYING_MONSTER : Char := 'F'
def WALKING_MONSTER : Char := 'M'
def GROUND_MONSTER : Char := 'G'

def is_crat (c : Char) : Bool :=
  c == '#' || c == '$' || c == '&' || c == '%'

/-- `is_wall(c, crate_counts)` from the source. -/
def is_wall (c : Char) (crate_counts : Bool := false) : Bool :=
  let wall := c == 'S' || c == 'A' || c == 'a' || c == 'b' || c == 'a'
  if crate_counts then wall || is_crat c else wall

def is_lethal (c : Char) : Bool :=
  c == LAVA_SURFACE || c == LAVA_MIDDLE || c == SPIKE_OBJ

def is_coin (c : Char) : Bool := c == COIN_OBJ1

def is_gem (c : Char) : Bool := c == COIN_OBJ2

/-! ## Numeric constants (lines 84-115); floats taken as exact rationals -/

def GRAVITY : ℚ := 8/100
def MAX_JUMP : ℚ := 9/10
def MAX_SPEED : ℚ := 2/10
def MIX_RATE : ℚ := 1/10
def LADDER_MIXRATE_Y : ℚ := 4/10
def LADDER_MIXRATE_X : ℚ := 1/10
def LADDER_V : ℚ := 4/10
def MONSTER_SPEED : ℚ := 5/100
def MONSTER_MIXRATE : ℚ := 5/100

def DEATH_ANIM_LENGTH : Int := 30
def FINISHED_LEVEL_ANIM_LENGTH : Int := 20
def MONSTER_DEATH_ANIM_LENGTH : Int := 2
def NUM_ACTIONS : Int := 7

/-- The runtime-configurable globals set by `initialize_args`. -/
structure Config where
  BUMP_HEAD_PENALTY : ℚ := 0
  DIE_PENALTY : ℚ := 0
  KILL_MONSTER_REWARD : ℚ := 5
  JUMP_PENALTY : ℚ := 0
  SQUAT_PENALTY : ℚ := 0
  JITTER_SQUAT_PENALTY : ℚ := 0
  AIR_CONTROL : ℚ := 15/100
deriving Repr

/-- C++ `int(x)` conversion from a floating value: truncation toward zero. -/
def cInt (q : ℚ) : Int := q.num.tdiv (q.den : Int)

/-- `sign` from the source. -/
def qsign (x : ℚ) : ℚ := if x > 0 then 1 else if x = 0 then 0 else -1

/-- `clip_abs` from the source. -/
def clip_abs (x y : ℚ) : ℚ := if x > y then y else if x < -y then -y else x

/-! ## The RNG (`RandGen`, lines 195-222)

`RandGen` wraps `std::mt19937`; its raw 32-bit outputs form a stream
determined by the seed.  The simulation code is embedded over an arbitrary
stream `σ : Nat → Nat` together with a position counter; `mtStream seed`
(defined later) is the concrete stream the program uses. -/

/-- `randint(low, high)`: `low + x % (high - low)` on the raw draw. -/
def randintAt (σ : Nat → Nat) (pos : Nat) (low high : Int) : Int :=
  low + (σ pos : Int) % (high - low)

/-- `rand01()`: the raw 32-bit draw divided by 2^32 (exact in binary fp). -/
def rand01At (σ : Nat → Nat) (pos : Nat) : ℚ :=
  ((σ pos % 2 ^ 32 : Nat) : ℚ) / (2 ^ 32 : ℚ)

/-! ## The maze (`class Maze`, lines 267-342) -/

structure RecPt where
  x : Int
  y : Int
deriving Repr, DecidableEq, Inhabited

structure Monster where
  x : ℚ
  y : ℚ
  prev_x : List ℚ
  prev_y : List ℚ
  vx : ℚ := 1/100
  vy : ℚ := 0
  is_flying : Bool
  is_walking : Bool
  is_dead : Bool := false
  monster_dying_frame_cnt : Int := 0
  theme_n : Nat
  pause : Int := 0
deriving Repr

structure Maze where
  w : Int
  h : Int
  walls : List Char
  coins : Int
  is_terminated : Bool
  is_new_level : Bool := true
  spawnx : Int := 0
  spawny : Int := 0
  monsters : List Monster := []
  /-- set when a write lands outside the `[0,w)×[0,h)` grid (the C++ would
  write out of the logical grid through the flat index). -/
  oobWrite : Bool := false
deriving Repr

def Maze.inGrid (m : Maze) (x y : Int) : Bool :=
  0 ≤ x && x < m.w && 0 ≤ y && y < m.h

/-- `get_elem`: reads the flat array at `w*y + x`.  Out-of-grid reads give a
junk tile (see the header comment). -/
def Maze.get (m : Maze) (x y : Int) : Char :=
  if m.inGrid x y then m.walls.getD (m.w * y + x).toNat '?' else '?'

/-- `set_elem`: writes the flat array at `w*y + x`. -/
def Maze.set (m : Maze) (x y : Int) (c : Char) : Maze :=
  if m.inGrid x y then { m with walls := m.walls.set (m.w * y + x).toNat c }
  else { m with oobWrite := true }

/-- The inner `for (k < dy)` loop of `fill_elem`: set the `k` cells
`(x, y) .. (x, y+k-1)`. -/
def Maze.fillCol (x y : Int) (c : Char) : Nat → Maze → Maze
  | 0, m => m
  | k+1, m => (Maze.fillCol x y c k m).set x (y + (k : Int)) c

/-- The outer `for (j < dx)` loop of `fill_elem`. -/
def Maze.fillGo (x y : Int) (dy : Nat) (c : Char) : Nat → Maze → Maze
  | 0, m => m
  | j+1, m => Maze.fillCol (x + (j : Int)) y c dy (Maze.fillGo x y dy c j m)

/-- `fill_elem(x, y, dx, dy, elem)`: the double loop
`for j < dx, for k < dy, set_elem(x+j, y+k, elem)`. -/
def Maze.fill (m : Maze) (x y dx dy : Int) (c : Char) : Maze :=
  Maze.fillGo x y dy.toNat c dx.toNat m

/-- `has_vertical_space(x, y, crate_counts)` (lines 320-327).  The float
arguments are truncated by `get_elem`'s `int` parameters. -/
def Maze.hasVerticalSpace (m : Maze) (x y : ℚ) (crate_counts : Bool) : Bool :=
  !(is_wall (m.get (cInt (x + 1/10)) (cInt y))
    || is_wall (m.get (cInt (x + 9/10)) (cInt y))
    || (crate_counts && is_crat (m.get (cInt (x + 1/10)) (cInt y)))
    || (crate_counts && is_crat (m.get (cInt (x + 9/10)) (cInt y))))

/-! ## The agent (`struct Agent`, lines 985-1316) -/

structure AgentSt where
  x : ℚ
  y : ℚ
  vx : ℚ := 0
  vy : ℚ := 0
  spring : ℚ := 0
  game_over : Bool := false
  reward : ℚ := 0
  reward_sum : ℚ := 0
  is_facing_right : Bool := true
  ladder_mode : Bool := false
  action_dx : Int := 0
  action_dy : Int := 0
  time_alive : Int := 0
  is_killed : Bool := false
  is_preparing_to_jump : Bool := false
  killed_monster : Bool := false
  bumped_head : Bool := false
  killed_animation_frame_cnt : Int := 0
  finished_level_frame_cnt : Int := 0
  power_up_mode : Bool := false
  collected_coin : Bool := false
  collected_gem : Bool := false
  support : Bool := false
deriving Repr

/-- One simulation instance's mutable simulation state: the maze the agent's
`shared_ptr` points at, plus the agent fields. -/
structure Sim where
  maze : Maze
  ag : AgentSt
deriving Repr

/-- `Agent::eat_coin(x, y)` (lines 1097-1141), minus the csv logging. -/
def eatCoin (s : Sim) (x y : Int) : Sim :=
  let obj := s.maze.get x y
  let s :=
    if is_lethal obj then
      { s with maze := { s.maze with is_terminated := true },
               ag := { s.ag with is_killed := true,
                                 killed_animation_frame_cnt := DEATH_ANIM_LENGTH } }
    else s
  let s :=
    if is_coin obj then
      let m := (s.maze.set x y SPACE)
      let m := { m with coins := m.coins - 1 }
      let a := { s.ag with collected_coin := true,
                           power_up_mode := false }
      if m.coins = 0 then
        { maze := { m with is_terminated := true },
          ag := { a with reward := a.reward + 10,
                         reward_sum := a.reward_sum + 10,
                         finished_level_frame_cnt := FINISHED_LEVEL_ANIM_LENGTH } }
      else
        { maze := m,
          ag := { a with reward := a.reward + 1, reward_sum := a.reward_sum + 1 } }
    else s
  if is_gem obj then
    { s with maze := s.maze.set x y SPACE,
             ag := { s.ag with reward := s.ag.reward + 1,
                               reward_sum := s.ag.reward_sum + 1,
                               power_up_mode := true,
                               collected_gem := true } }
  else s

/-! ## Tile counts and pickup sequences -/

/-- Number of coin tiles on the grid (count over the flat tile array). -/
def coinTiles (m : Maze) : Nat := m.walls.countP (fun c => is_coin c)

/-- Number of gem tiles on the grid. -/
def gemTiles (m : Maze) : Nat := m.walls.countP (fun c => is_gem c)

/-- The quantity `maze->coins - #coin-tiles`, which every pickup preserves. -/
def mazeD (m : Maze) : Int := m.coins - (coinTiles m : Int)

/-- An arbitrary sequence of `eat_coin` pickups (the agent's `sub_step`
issues four such calls per sub-step; any run of the level is a sequence of
them). -/
def eatSeq (s : Sim) (ps : List (Int × Int)) : Sim :=
  ps.foldl (fun s p => eatCoin s p.1 p.2) s

/-- The bump-head descent of `sub_step` (lines 1165-1168): from the
integer row `int(ny)` walk down until there is vertical space; any
negative row reads out of the grid and always has space, so the walk is
fuel-bounded by the starting row. -/
def bumpDown (m : Maze) (x : ℚ) : Nat → ℚ → ℚ
  | 0, y => y
  | f+1, y => if m.hasVerticalSpace x y false then y else bumpDown m x f (y - 1)

/-- The vertical section of `Agent::sub_step` (lines 1145-1175). -/
def subStepV (cfg : Config) (m : Maze) (ag : AgentSt) (dvy : ℚ) : AgentSt :=
  let ny := ag.y + dvy
  if dvy < 0 ∧ m.hasVerticalSpace ag.x ny false = false then
    { ag with y := ((cInt ny + 1 : Int) : ℚ), support := true, vy := 0 }
  else if dvy < 0 ∧ m.hasVerticalSpace ag.x ny true = false then
    if 0 ≤ ag.action_dy ∧ cInt ny ≠ cInt ag.y then
      { ag with y := ((cInt ny + 1 : Int) : ℚ), vy := 0, support := true }
    else
      { ag with support := false, y := ny }
  else if 0 < dvy ∧ m.hasVerticalSpace ag.x (ny + 1) false = false then
    { ag with
        y := bumpDown m ag.x ((cInt ny).toNat + 2) ((cInt ny : Int) : ℚ),
        bumped_head := true, vy := 0,
        reward := ag.reward - cfg.BUMP_HEAD_PENALTY,
        reward_sum := ag.reward_sum - cfg.BUMP_HEAD_PENALTY }
  else { ag with y := ny }

/-- The horizontal section of `Agent::sub_step` (lines 1177-1189): a
single-cell probe in the direction of motion; a wall there zeroes `vx`
and snaps `x` to the boundary of the blocking cell. -/
def subStepH (m : Maze) (ag : AgentSt) (dvx : ℚ) : AgentSt :=
  let nx := ag.x + dvx
  let iy := cInt ag.y
  let inx := cInt nx
  if dvx < 0 ∧ is_wall (m.get inx iy) = true then
    { ag with vx := 0, x := ((inx + 1 : Int) : ℚ) }
  else if 0 < dvx ∧ is_wall (m.get (inx + 1) iy) = true then
    { ag with vx := 0, x := ((inx : Int) : ℚ) }
  else { ag with x := nx }

/-- `Agent::sub_step` (lines 1143-1195): vertical resolution, horizontal
resolution, then the four `eat_coin` probes at the pre-move column. -/
def subStep (cfg : Config) (s : Sim) (dvx dvy : ℚ) : Sim :=
  let a1 := subStepV cfg s.maze s.ag dvy
  let ix := cInt a1.x
  let iy := cInt a1.y
  let a2 := subStepH s.maze a1 dvx
  let s1 : Sim := { maze := s.maze, ag := a2 }
  let s2 := eatCoin s1 ix iy
  let s3 := eatCoin s2 ix (iy + 1)
  let s4 := eatCoin s3 (ix + 1) iy
  eatCoin s4 (ix + 1) (iy + 1)

/-- The agent's unit-wide body at horizontal position `x` overlaps no
wall tile of the row `cInt y`: every column whose cell strictly overlaps
the open interval `(x, x+1)` holds a non-wall tile. -/
def bodySafe (m : Maze) (x y : ℚ) : Prop :=
  ∀ c : Int, (c : ℚ) < x + 1 → x < (c : ℚ) + 1 →
    is_wall (m.get c (cInt y)) = false

/-- A four-column corridor: open cells in columns 1 and 2 of row 1, the
rest solid wall. -/
def c10maze : Maze :=
  { w := 4, h := 3,
    walls := ['A', 'A', 'A', 'A',
              'A', '.', '.', 'A',
              'A', 'A', 'A', 'A'],
    coins := 0, is_terminated := false }

/-- An agent standing in the open cell next to the right wall of the
corridor. -/
def c10agent : AgentSt := { x := 2, y := 1 }

/-- The corridor with the agent in it. -/
def c10sim : Sim := { maze := c10maze, ag := c10agent }

/-! ## Coin placement (`RandomMazeGenerator::place_coins`, lines 551-582) -/

/-- The `good_place` predicate of `place_coins`, in the source's order. -/
def goodPlace (m : Maze) (x y : Int) : Bool :=
  (m.get x y == SPACE || m.get x y == WALKING_MONSTER) &&
  decide (2 < y) &&
  (m.get (x-1) y == SPACE || m.get (x-1) y == WALKING_MONSTER) &&
  (m.get (x+1) y == SPACE || m.get (x+1) y == WALKING_MONSTER) &&
  (m.get x (y+1) == SPACE || m.get x (y+1) == WALKING_MONSTER) &&
  is_wall (m.get (x-1) (y-1)) true &&
  is_wall (m.get x (y-1)) true &&
  is_wall (m.get (x+1) (y-1)) true

/-- One recorded placement: the anchor, the maze state at the moment the
tile was written, the raw RNG draw that chose coin vs gem, and the tile. -/
structure PlaceEv where
  anchor : RecPt
  snap : Maze
  draw : Nat
  tile : Char
deriving Repr

/-- The `while (!rec_stack.empty())` loop of `place_coins`.  The C++ pops
the back of the vector; here the pre-reversed list is consumed from the
head.  `cnt` is the local `coins` counter; the trace records placements. -/
def placeCoinsGo (σ : Nat → Nat) :
    List RecPt → Nat → Maze → Int → List PlaceEv →
    Maze × Nat × Int × List PlaceEv
  | [], pos, m, cnt, tr => (m, pos, cnt, tr)
  | r :: rest, pos, m, cnt, tr =>
    if goodPlace m r.x r.y then
      let d := σ pos
      let tile := if 9 ≤ d % 10 then COIN_OBJ2 else COIN_OBJ1
      placeCoinsGo σ rest (pos+1) (m.set r.x r.y tile) (cnt+1)
        (tr ++ [⟨r, m, d, tile⟩])
    else placeCoinsGo σ rest pos m cnt tr

/-- `place_coins`: pop every anchor once, place coin (draw%10 ≤ 8) or gem
(draw%10 = 9) when `good_place` holds, finally store the count in
`maze->coins`. -/
def placeCoins (σ : Nat → Nat) (pos : Nat) (m : Maze) (stack : List RecPt) :
    Maze × Nat × List PlaceEv :=
  let r := placeCoinsGo σ stack.reverse pos m 0 []
  ({ r.1 with coins := r.2.2.1 }, r.2.1, r.2.2.2)

/-! ## Enemy themes (`load_enemy_themes` / `images_load`, lines 805-976)

Themes are loaded in the order ground (`sawHalf`, `barnacle`), walking
(`slimeBlock`, `slimeBlue`, `mouse`, `snail`, `ladybug`, `wormPink`,
`frog`), flying (`bee`), giving indices 0-9.  `can_be_killed` is true for
`slimeBlock`, `snail` and `wormPink` only. -/

def canBeKilled : Nat → Bool
  | 2 => true
  | 5 => true
  | 7 => true
  | _ => false

def ground_theme_idxs : List Nat := [0, 1]
def walking_theme_idxs : List Nat := [2, 3, 4, 5, 6, 7, 8]
def flying_theme_idxs : List Nat := [9]

/-! ## Exact fraction arithmetic for the generator's float math

The generator's `float` expressions are modelled exactly by integer
fractions with positive denominators.  `Frac` deliberately performs no
gcd normalisation, so the kernel can evaluate concrete generation runs;
the represented value is `num / den`. -/

structure Frac where
  num : Int
  den : Int
deriving Repr, DecidableEq

instance : Add Frac :=
  ⟨fun a b => ⟨a.num * b.den + b.num * a.den, a.den * b.den⟩⟩

instance : Sub Frac :=
  ⟨fun a b => ⟨a.num * b.den - b.num * a.den, a.den * b.den⟩⟩

instance : Mul Frac := ⟨fun a b => ⟨a.num * b.num, a.den * b.den⟩⟩

instance : Div Frac :=
  ⟨fun a b =>
    if b.num < 0 then ⟨-(a.num * b.den), a.den * -b.num⟩
    else ⟨a.num * b.den, a.den * b.num⟩⟩

/-- `a < b` on fractions with positive denominators. -/
def Frac.blt (a b : Frac) : Bool := a.num * b.den < b.num * a.den

/-- C++ `int(...)` conversion of a float value: truncation toward zero. -/
def Frac.trunc (a : Frac) : Int := a.num.tdiv a.den

/-- `int(sqrt(x))` for the integer-valued doubles used by the generator:
⌊√n⌋, computed by fuel-bounded search so the kernel can evaluate it. -/
def isqrtGo (n : Nat) : Nat → Nat → Nat
  | 0, k => k
  | fuel+1, k => if (k+1)*(k+1) ≤ n then isqrtGo n fuel (k+1) else k

def isqrt (n : Nat) : Nat := isqrtGo n n 0

/-! ## Platform generation (`jump_and_build_platform_somewhere`,
lines 425-549) -/

/-- Generator state threaded through `jump_and_build_platform_somewhere`:
the maze, the anchor stack (`rec_stack`; index 0 is the front of the C++
vector), the RNG position, and the log of the grid cells this function
reads (instrumentation for the bounds claim). -/
structure GenSt where
  maze : Maze
  recStack : List RecPt
  pos : Nat
  reads : List (Int × Int)
deriving Repr

def GRAVITY_F : Frac := ⟨8, 100⟩
def MAX_JUMP_F : Frac := ⟨9, 10⟩
def MAX_SPEED_F : Frac := ⟨2, 10⟩

/-- `randn(n)` = `randint(0, n)` = raw 32-bit draw mod `n`. -/
def randn (σ : Nat → Nat) (pos : Nat) (n : Int) : Int :=
  ((σ pos % n.toNat : Nat) : Int)

/-- `rand01()` as the exact fraction `x / 2^32`. -/
def rand01F (σ : Nat → Nat) (pos : Nat) : Frac :=
  ⟨((σ pos % 2 ^ 32 : Nat) : Int), ((2 ^ 32 : Nat) : Int)⟩

/-- The ballistic carving loop (lines 447-465).  A `none` last component
models `return false`; maze writes and the read log persist either way,
because the C++ mutates the maze in place. -/
def arcLoop (vxc : Frac) : Nat → Frac → Frac → Frac → Int → Int → Maze →
    List (Int × Int) → Maze × List (Int × Int) × Option (Int × Int)
  | 0, _, _, _, ix, iy, m, rd => (m, rd, some (ix, iy))
  | s+1, vy, x, y, ix, iy, m, rd =>
    let vy := vy - GRAVITY_F
    let x := x + vxc
    let y := y + vy
    if ix ≠ x.trunc ∨ iy ≠ y.trunc then
      let ix := x.trunc
      let iy := y.trunc
      if ix < 1 ∨ ix ≥ m.w - 1 ∨ iy < 1 ∨ iy ≥ m.h - 2 then (m, rd, none)
      else
        let rd := rd ++ [(ix, iy)]
        let c := m.get ix iy
        if ¬(c = SPACE ∨ c = ' ') then (m, rd, none)
        else arcLoop vxc s vy x y ix iy (m.set ix iy ' ') rd
    else arcLoop vxc s vy x y ix iy m rd

/-- The ladder shaft loop (lines 476-485).  The maze is not written during
the loop; the read log and the collected `future_ladder` cells are. -/
def ladderLoop : Nat → Int → Int → List RecPt → Maze → List (Int × Int) →
    List (Int × Int) × Option (Int × Int × List RecPt)
  | 0, ix, iy, fl, _, rd => (rd, some (ix, iy, fl))
  | s+1, ix, iy, fl, m, rd =>
    let fl := fl ++ [⟨ix, iy⟩]
    let iy := iy + 1
    let rd := rd ++ [(ix, iy), (ix - 1, iy), (ix + 1, iy)]
    if iy ≥ m.h - 3 ∨ m.get ix iy ≠ SPACE ∨ m.get (ix-1) iy = LADDER
        ∨ m.get (ix+1) iy = LADDER then
      (rd, none)
    else ladderLoop s ix iy fl m rd

/-- The launch direction as a step: `vx > 0 ? 1 : -1`. -/
def stepDir (b : Bool) : Int := if b then 1 else -1

/-- The platform-extension loop (lines 498-515): walk `ix` in the launch
direction, turning empty cells into platform tiles, recording anchors,
crate seeds and monster candidates, stopping at the first non-empty cell
(normalising a cliff tile there). -/
def platformLoop : Nat → Int → Int → Int → Bool → Int → Int → Maze →
    List RecPt → List RecPt → List RecPt → List (Int × Int) →
    Maze × List RecPt × List RecPt × List RecPt × List (Int × Int)
  | 0, _, _, _, _, _, _, m, recs, cr, mc, rd => (m, recs, cr, mc, rd)
  | np+1, platform, len, shift, vxPos, ix0, iy, m, recs, cr, mc, rd =>
    let ix := ix0 + stepDir vxPos
    let rd := rd ++ [(ix, iy)]
    let c := m.get ix iy
    if c = ' ' ∨ c = SPACE then
      let m := m.set ix iy (if platform < len - 1 then WALL_SURFACE
        else if vxPos then 'b' else 'a')
      let recs := recs ++ [⟨ix, iy + 1⟩]
      if (Frac.trunc ((⟨ix, 1⟩ : Frac) * ⟨2, 10⟩ + ⟨iy, 1⟩ + ⟨shift, 1⟩)).tmod 4 = 0 then
        platformLoop np (platform+1) len shift vxPos ix iy m recs
          (cr ++ [⟨ix, iy + 1⟩]) mc rd
      else if 0 < platform ∧ platform < len - 1 then
        platformLoop np (platform+1) len shift vxPos ix iy m recs cr
          (mc ++ [⟨ix, iy + 1⟩]) rd
      else platformLoop np (platform+1) len shift vxPos ix iy m recs cr mc rd
    else if c = 'a' ∨ c = 'b' then
      (m.set ix iy WALL_SURFACE, recs, cr, mc, rd)
    else (m, recs, cr, mc, rd)

/-- State of the crate-growing loop (lines 527-546). -/
structure CrateSt where
  pos : Nat
  maze : Maze
  recStack : List RecPt
  crates : List RecPt
  reads : List (Int × Int)
deriving Repr

/-- The `want` count a crate compares its draw against (lines 533-538). -/
def crateWant (m : Maze) (cr : RecPt) : Int :=
  2 + (if is_crat (m.get (cr.x - 1) cr.y) then 1 else 0)
    + (if is_crat (m.get (cr.x + 1) cr.y) then 1 else 0)
    - (if m.get (cr.x + 1) cr.y = LADDER then 1 else 0)
    - (if m.get (cr.x - 1) cr.y = LADDER then 1 else 0)
    - (if is_wall (m.get cr.x (cr.y + 1)) then 1 else 0)

/-- One iteration of the inner `for` over the crate vector: the crate
either grows one cell upward (kept, `c++`) or is erased. -/
def crateStep (σ : Nat → Nat) (cr : RecPt) (st : CrateSt) : CrateSt :=
  let rd := st.reads ++ [(cr.x, cr.y), (cr.x - 1, cr.y), (cr.x + 1, cr.y),
    (cr.x, cr.y + 1)]
  if randn σ st.pos 4 < crateWant st.maze cr ∧ cr.y < st.maze.h - 2 then
    let m := if st.maze.get cr.x cr.y = ' ' ∨ st.maze.get cr.x cr.y = SPACE
      then st.maze.set cr.x cr.y '#' else st.maze
    let ncr : RecPt := ⟨cr.x, cr.y + 1⟩
    ⟨st.pos + 1, m, st.recStack ++ [ncr], st.crates ++ [ncr], rd⟩
  else
    ⟨st.pos + 1, st.maze, st.recStack, st.crates, rd⟩

/-- One pass of the inner `for` over the crate vector. -/
def cratePass (σ : Nat → Nat) : List RecPt → CrateSt → CrateSt
  | [], st => st
  | cr :: rest, st => cratePass σ rest (crateStep σ cr st)

/-- Fuel bound for the crate loop: the crates can grow at most to row
`h-2`, so `Σ (h-1-y)` over the crate list strictly decreases per pass. -/
def crateMeasure (h : Int) (crates : List RecPt) : Nat :=
  (crates.map (fun r => (h - 1 - r.y).toNat)).sum

/-- The outer `while (1)` of the crate loop; `none` = fuel exhausted
(shown impossible for the fuel the caller passes). -/
def crateLoop (σ : Nat → Nat) : Nat → CrateSt → Option CrateSt
  | 0, _ => none
  | fuel+1, st =>
    if st.crates = [] then some st
    else crateLoop σ fuel (cratePass σ st.crates { st with crates := [] })

/-- The monster-marker step (lines 517-522): with more than one
candidate, one is drawn and marked as a ground (draw ≥ 8) or walking
monster. -/
def jbMark (σ : Nat → Nat) (pos : Nat) (mz : Maze) (mc : List RecPt) :
    Maze × Nat :=
  if 1 < mc.length then
    let rm := mc.getD (randn σ pos mc.length).toNat ⟨0, 0⟩
    let ground := 8 ≤ randn σ (pos + 1) 10
    (mz.set rm.x rm.y (if ground then GROUND_MONSTER else WALKING_MONSTER),
     pos + 2)
  else (mz, pos)

/-- The crate loop call closing a successful build (lines 527-548): run
the crate-growing loop (its fuel is the measure bound shown sufficient
below) and package the success result. -/
def jbFinish (σ : Nat → Nat) (pos : Nat) (m : Maze)
    (recs cr : List RecPt) (rd : List (Int × Int)) : Option (Bool × GenSt) :=
  match crateLoop σ (crateMeasure m.h cr + 1) ⟨pos, m, recs, cr, rd⟩ with
  | none => none
  | some cst => some (true, ⟨cst.maze, cst.recStack, cst.pos, cst.reads⟩)

/-- The common tail of `jump_and_build_platform_somewhere` (lines
491-548): read the landing cell, the `iy >= h-3` rejection, the cliff
tile, the platform loop, the optional monster marker, and the crate
loop. -/
def jbTail (σ : Nat → Nat) (pos : Nat) (vxPos : Bool) (ix iy : Int)
    (m : Maze) (recs : List RecPt) (rd : List (Int × Int)) :
    Option (Bool × GenSt) :=
  let rd := rd ++ [(ix, iy)]
  let c := m.get ix iy
  if iy ≥ m.h - 3 then some (false, ⟨m, recs, pos, rd⟩)
  else
    let m := if c = SPACE ∨ c = ' ' then
      m.set ix iy (if vxPos then 'a' else 'b') else m
    let len : Int := 2 + randn σ pos 10
    let shift := randn σ (pos + 1) 20
    let p := platformLoop len.toNat 0 len shift vxPos ix iy m recs [] [] rd
    let pos := pos + 2
    let mz := p.1
    let recs := p.2.1
    let cr := p.2.2.1
    let mc := p.2.2.2.1
    let rd := p.2.2.2.2
    let next : Maze × Nat := jbMark σ pos mz mc
    jbFinish σ next.2 next.1 recs cr rd

/-- `jump_and_build_platform_somewhere`.  `none` marks crate-loop fuel
exhaustion (proved unreachable); `some (success, st)` mirrors the C++
return value with all in-place mutations (including those before a
`return false`) kept in `st`. -/
def jumpAndBuild (σ : Nat → Nat) (st : GenSt) : Option (Bool × GenSt) :=
  if st.recStack.length = 0 then some (false, st)
  else
    let size := st.recStack.length
    let n := isqrt (σ st.pos % (size * size))
    let r := st.recStack.getD n ⟨0, 0⟩
    let vx := (rand01F σ (st.pos + 1) * ⟨2, 1⟩ - ⟨1, 1⟩) * ⟨1, 2⟩ * MAX_SPEED_F
    let vy := ((⟨8, 10⟩ : Frac) + (⟨2, 10⟩ : Frac) * rand01F σ (st.pos + 2))
      * MAX_JUMP_F
    let vxPos := Frac.blt ⟨0, 1⟩ vx
    let top : Int := 1 + (vy / GRAVITY_F).trunc
    if randn σ (st.pos + 3) 2 = 1 then
      let steps := top + randn σ (st.pos + 4) (top.tdiv 2)
      let a := arcLoop vx steps.toNat vy ⟨r.x, 1⟩ ⟨r.y + 1, 1⟩ (-1) (-1)
        st.maze st.reads
      match a.2.2 with
      | none => some (false, ⟨a.1, st.recStack, st.pos + 5, a.2.1⟩)
      | some (ix, iy) => jbTail σ (st.pos + 5) vxPos ix iy a.1 st.recStack a.2.1
    else
      let ix := r.x
      let iy := r.y
      if iy ≥ st.maze.h - 3 then
        some (false, ⟨st.maze, st.recStack, st.pos + 4, st.reads⟩)
      else
        let rd := st.reads ++ [(ix, iy)]
        if is_crat (st.maze.get ix iy) then
          some (false, ⟨st.maze, st.recStack, st.pos + 4, rd⟩)
        else
          let rd := rd ++ [(ix, iy - 1)]
          if is_crat (st.maze.get ix (iy - 1)) then
            some (false, ⟨st.maze, st.recStack, st.pos + 4, rd⟩)
          else
            let recs := st.recStack.eraseIdx n
            let ladder_len := 5 + randn σ (st.pos + 4) 10
            let lr := ladderLoop ladder_len.toNat ix iy [] st.maze rd
            match lr.2 with
            | none => some (false, ⟨st.maze, recs, st.pos + 5, lr.1⟩)
            | some (ixf, iyf, fl) =>
              let m := fl.foldl (fun m f => m.set f.x f.y LADDER) st.maze
              let m := m.set ixf iyf LADDER
              jbTail σ (st.pos + 5) vxPos ixf iyf m recs lr.1

/-! ## The generation pipeline (`generate_coins_on_platforms`,
`remove_traces_add_monsters`, `initial_floor_and_walls`, `state_reset`) -/

/-- Stage 1 of the `remove_traces_add_monsters` cell body (lines
594-598): a blank cell becomes a flying monster or space; the 1-in-20
draw happens whenever the cell is blank (short-circuit order). -/
def rtA (σ : Nat → Nat) (st : Nat × Maze) (x y : Int) (b0 : Char) :
    Nat × Maze :=
  if st.2.get x y = ' ' then
    if randn σ st.1 20 = 0 ∧ is_wall b0 = false ∧ 2 < y then
      (st.1 + 1, st.2.set x y FLYING_MONSTER)
    else (st.1 + 1, st.2.set x y SPACE)
  else st

/-- Stage 2 (lines 599-600): a cliff marker over a wall becomes a wall
surface. -/
def rtB (st : Nat × Maze) (x y : Int) (b0 : Char) : Nat × Maze :=
  let c1 := st.2.get x y
  if (c1 = 'a' ∨ c1 = 'b') ∧ is_wall b0 then (st.1, st.2.set x y WALL_SURFACE)
  else st

/-- Stage 3 (lines 601-602): under a wall cell the row below is
normalised to wall middle (`b` is a reference into the grid). -/
def rtC (st : Nat × Maze) (x y : Int) (b0 : Char) : Nat × Maze :=
  let c2 := st.2.get x y
  if is_wall c2 ∧ is_wall b0 then (st.1, st.2.set x (y - 1) WALL_MIDDLE)
  else st

/-- Stage 4 (lines 603-632): a monster marker turns into space plus a
monster record, kept only under the free-space/platform conditions. -/
def rtD (σ : Nat → Nat) (st : Nat × Maze) (x y : Int) (b0 cl cr : Char) :
    Nat × Maze :=
  let m := st.2
  let pos := st.1
  let c3 := m.get x y
  if c3 = FLYING_MONSTER ∨ c3 = WALKING_MONSTER ∨ c3 = GROUND_MONSTER then
    let isf := c3 = FLYING_MONSTER
    let isw := c3 = WALKING_MONSTER
    let idxs := if isf then flying_theme_idxs
      else if isw then walking_theme_idxs else ground_theme_idxs
    let theme := idxs.getD (randn σ pos idxs.length).toNat 0
    let mon : Monster :=
      { x := (x : ℚ), y := (y : ℚ),
        prev_x := List.replicate 14 ((x : Int) : ℚ),
        prev_y := List.replicate 14 ((y : Int) : ℚ),
        is_flying := isf, is_walking := isw, theme_n := theme }
    let m := m.set x y SPACE
    let keep := (¬isw ∨ (is_wall cl = false ∧ is_wall cr = false)) ∧
      ¬(¬isf ∧ is_wall b0 = false)
    (pos + 1, if keep then { m with monsters := m.monsters ++ [mon] } else m)
  else st

/-- The body of `remove_traces_add_monsters` for one cell (lines 588-633),
with the C++ reference semantics of `c` and `b` made explicit: `c` is
re-read before every stage, `b` is read once (no earlier stage writes to
row `y-1`, and stage 3's own write keeps `is_wall b` unchanged). -/
def rtCell (σ : Nat → Nat) (st : Nat × Maze) (x y : Int) : Nat × Maze :=
  let b0 := st.2.get x (y - 1)
  let cl := st.2.get (x - 1) y
  let cr := st.2.get (x + 1) y
  rtD σ (rtC (rtB (rtA σ st x y b0) x y b0) x y b0) x y b0 cl cr

/-- `remove_traces_add_monsters` (lines 584-636): clear the monster list,
then sweep rows `y = 1..h-1`, columns `x = 1..w-2`. -/
def removeTraces (σ : Nat → Nat) (pos : Nat) (m : Maze) : Nat × Maze :=
  let m := { m with monsters := [] }
  (List.range' 1 (m.h - 1).toNat).foldl
    (fun st (y : Nat) =>
      (List.range' 1 (st.2.w - 2).toNat).foldl
        (fun st2 (x : Nat) => rtCell σ st2 (x : Int) (y : Int)) st)
    (pos, m)

/-- The platform-attempt loop of `generate_coins_on_platforms` (lines
662-667): `for (p=0; p<want_platforms*10; p++)` where `want_platforms`
shrinks with every success and `want_platforms==0` breaks. -/
def attemptLoop (σ : Nat → Nat) : Nat → Int → Int → GenSt →
    Option (GenSt × Int × Int)
  | 0, p, want, st => some (st, p, want)
  | fuel+1, p, want, st =>
    if p < want * 10 then
      match jumpAndBuild σ st with
      | none => none
      | some (succ, st1) =>
        let want1 := if succ then want - 1 else want
        if want1 = 0 then some (st1, p + 1, want1)
        else attemptLoop σ fuel (p + 1) want1 st1
    else some (st, p, want)

/-- The outcome of the generation pipeline. -/
structure GenResult where
  maze : Maze
  pos : Nat
  reads : List (Int × Int)
  attempts : Int
  wantLeft : Int
  placed : List PlaceEv
deriving Repr

/-- `generate_coins_on_platforms` (lines 653-670): random spawn column,
one anchor per column of row 1, the attempt loop (target 11 platforms),
`place_coins`, `remove_traces_add_monsters`. -/
def generateCoinsOnPlatforms (σ : Nat → Nat) (pos : Nat) (m : Maze) :
    Option GenResult :=
  let sx := 1 + randn σ pos (m.w - 2)
  let m := { m with spawnx := sx, spawny := 1 }
  let st : GenSt :=
    ⟨m, (List.range m.w.toNat).map (fun (x : Nat) => ⟨(x : Int), 1⟩), pos + 1, []⟩
  match attemptLoop σ 110 0 11 st with
  | none => none
  | some (st1, att, want) =>
    let pc := placeCoins σ st1.pos st1.maze st1.recStack
    let rt := removeTraces σ pc.2.1 pc.1
    some ⟨rt.2, rt.1, st1.reads, att, want, pc.2.2⟩

/-- `Maze(w, h)`: freshly allocated tiles are junk until
`initial_floor_and_walls` fills them. -/
def mazeNew (w h : Int) : Maze :=
  { w := w, h := h, walls := List.replicate (w * h).toNat '?',
    coins := 0, is_terminated := false }

/-- `initial_floor_and_walls` (lines 401-411); `init_physics` only copies
the global physics constants, which the embedding reads directly. -/
def initialFloorAndWalls (m : Maze) : Maze :=
  let m := m.fill 0 0 m.w m.h SPACE
  let m := m.fill 0 0 m.w 1 WALL_SURFACE
  let m := m.fill 0 0 1 m.h WALL_MIDDLE
  let m := m.fill (m.w - 1) 0 1 m.h WALL_MIDDLE
  m.fill 0 (m.h - 1) m.w 1 WALL_MIDDLE

/-- The tile `initial_floor_and_walls` leaves at flat index `i` of the
64×13 level, written directly over the flat index. -/
def levelTile (i : Nat) : Char :=
  if i / 64 = 12 then WALL_MIDDLE
  else if i % 64 = 0 then WALL_MIDDLE
  else if i % 64 = 63 then WALL_MIDDLE
  else if i / 64 = 0 then WALL_SURFACE
  else SPACE

/-- The tile array of the freshly initialised 64×13 level. -/
def levelStartWalls : List Char := (List.range 832).map levelTile

/-- The freshly initialised 64×13 level in closed form. -/
def levelStart : Maze :=
  { w := 64, h := 13, walls := levelStartWalls, coins := 0,
    is_terminated := false }

/-- Border-solidity: every cell on the outer border of the grid holds a
wall tile. -/
def borderSolid (m : Maze) : Prop :=
  ∀ x y : Int, m.inGrid x y = true →
    (x = 0 ∨ x = m.w - 1 ∨ y = 0 ∨ y = m.h - 1) →
    is_wall (m.get x y) = true

/-- The write-safety invariant of the bounds claim: the border is solid
and no out-of-grid write has happened. -/
def mazeOk (m : Maze) : Prop := borderSolid m ∧ m.oobWrite = false

/-- The generator-state invariant: safe maze plus anchors lying in
columns `0..w-1` at rows `≥ 1`. -/
def genOk (st : GenSt) : Prop :=
  mazeOk st.maze ∧
  ∀ r ∈ st.recStack, 0 ≤ r.x ∧ r.x ≤ st.maze.w - 1 ∧ 1 ≤ r.y

/-- The crate-loop state invariant: safe maze, anchor bounds, and crates
strictly inside the side walls. -/
def crateOk (st : CrateSt) : Prop :=
  mazeOk st.maze ∧
  (∀ r ∈ st.recStack, 0 ≤ r.x ∧ r.x ≤ st.maze.w - 1 ∧ 1 ≤ r.y) ∧
  (∀ r ∈ st.crates, 1 ≤ r.x ∧ r.x ≤ st.maze.w - 2 ∧ 1 ≤ r.y)

/-! ## std::mt19937, the engine behind `RandGen` -/

/-- MT19937 state initialisation from the 32-bit seed. -/
def mtInit (seed : Nat) : List Nat :=
  (List.range 623).foldl
    (fun l i =>
      l ++ [(1812433253 * ((l.getD i 0) ^^^ ((l.getD i 0) >>> 30)) + (i+1))
        % 2 ^ 32])
    [seed % 2 ^ 32]

/-- One twist of the 624-word state (in-place semantics). -/
def mtTwist (l : List Nat) : List Nat :=
  (List.range 624).foldl
    (fun acc i =>
      let y := (acc.getD i 0 &&& 2147483648)
        + (acc.getD ((i+1) % 624) 0 &&& 2147483647)
      let v := (acc.getD ((i + 397) % 624) 0) ^^^ (y >>> 1)
        ^^^ (if y % 2 = 1 then 2567483615 else 0)
      acc.set i v) l

/-- MT19937 output tempering. -/
def mtTemper (y0 : Nat) : Nat :=
  let y1 := y0 ^^^ (y0 >>> 11)
  let y2 := y1 ^^^ ((y1 <<< 7) &&& 2636928640)
  let y3 := y2 ^^^ ((y2 <<< 15) &&& 4022730752)
  y3 ^^^ (y3 >>> 18)

def mtBlock (seed : Nat) : Nat → List Nat
  | 0 => mtTwist (mtInit seed)
  | b+1 => mtTwist (mtBlock seed b)

/-- The raw 32-bit output stream of `std::mt19937` seeded as
`RandGen::seed(int)` does (the int is converted to the 32-bit word). -/
def mtStream (seed : Int) (n : Nat) : Nat :=
  mtTemper ((mtBlock (seed % 2 ^ 32).toNat (n / 624)).getD (n % 624) 0)

/-- `state_reset`'s generation steps for one level seed (lines 1406-1416):
a fresh 64×13 maze, border initialisation, platform/coin generation, with
the generator's `RandGen` seeded with the level seed. -/
def generate (seed : Int) : Option GenResult :=
  generateCoinsOnPlatforms (mtStream seed) 0
    (initialFloorAndWalls (mazeNew 64 13))

/-- The monster/agent interaction inside `stepping_thread` (lines
1964-1978), applied to one live (`!is_dead`) monster right after its own
`step`. -/
def monsterTouch (cfg : Config) (m : Monster) (s : Sim) : Monster × Sim :=
  if |m.x - s.ag.x| < 6/10 ∧ s.ag.y - m.y < 1 ∧ s.ag.y - m.y > 0 ∧
      canBeKilled m.theme_n = true then
    ({ m with is_dead := true,
              monster_dying_frame_cnt := MONSTER_DEATH_ANIM_LENGTH - 1 },
     { s with ag := { s.ag with
         reward := s.ag.reward + cfg.KILL_MONSTER_REWARD,
         reward_sum := s.ag.reward_sum + cfg.KILL_MONSTER_REWARD,
         killed_monster := true } })
  else if |m.x - s.ag.x| + |m.y - s.ag.y| < 1 ∧ s.ag.power_up_mode = false then
    (m, { s with
      maze := { s.maze with is_terminated := true },
      ag := { s.ag with
        is_killed := true,
        killed_animation_frame_cnt := DEATH_ANIM_LENGTH,
        reward := s.ag.reward - cfg.DIE_PENALTY,
        reward_sum := s.ag.reward_sum - cfg.DIE_PENALTY } })
  else (m, s)

/-! ## The batch engine's submit and wait (lines 2146-2212)

One simulation instance's scheduling state (`struct State`): the fields
`vec_step_async_discrete` and `vec_wait` touch.  The shared work queue
holds instance indices (the C++ queues `State` pointers). -/

structure InstSt where
  sim : Sim
  agent_ready : Bool := false
  step_in_progress : Bool := false

/-- `DISCRETE_ACTIONS` (lines 46-54), flattened pairs. -/
def DISCRETE_ACTIONS : List Int :=
  [0, 0, 1, 0, -1, 0, 0, 1, 1, 1, -1, 1, 0, -1]

/-- The loop body of `vec_step_async_discrete`: for each instance, the
assert `(unsigned)actions[e] < NUM_ACTIONS` aborts (`none`) on an
out-of-range action; otherwise the action is decoded, the instance is
marked ready and its index is appended to the work queue.  No check of
`agent_ready`/`step_in_progress` is made. -/
def vsadGo : Nat → List InstSt → List Int → List Nat →
    Option (List InstSt × List Nat)
  | _, [], _, todo => some ([], todo)
  | e, inst :: rest, a :: as, todo =>
    if 0 ≤ a ∧ a < NUM_ACTIONS then
      match vsadGo (e+1) rest as (todo ++ [e]) with
      | none => none
      | some (rest', todo') =>
        some ({ inst with
                  sim := { inst.sim with ag := { inst.sim.ag with
                    action_dx := DISCRETE_ACTIONS.getD (2 * a.toNat) 0,
                    action_dy := DISCRETE_ACTIONS.getD (2 * a.toNat + 1) 0 } },
                  agent_ready := true } :: rest', todo')
    else none
  | _, _ :: _, [], _ => none

/-- `vec_step_async_discrete` over a group's instances and the shared
queue. -/
def vecStepAsyncDiscrete (insts : List InstSt) (actions : List Int)
    (todo : List Nat) : Option (List InstSt × List Nat) :=
  vsadGo 0 insts actions todo

/-- The copy-and-clear loop of `vec_wait` (lines 2192-2212), entered once
every instance has completed (`all_steps_completed`): per instance, in
group order, read `reward`, `game_over`, `is_new_level` into the caller
buffers and clear them. -/
def vecWaitGo : List InstSt → List ℚ × List Bool × List Bool × List InstSt
  | [] => ([], [], [], [])
  | i :: rest =>
    let r := vecWaitGo rest
    (i.sim.ag.reward :: r.1,
     i.sim.ag.game_over :: r.2.1,
     i.sim.maze.is_new_level :: r.2.2.1,
     { i with sim := { i.sim with
         ag := { i.sim.ag with reward := 0, game_over := false },
         maze := { i.sim.maze with is_new_level := false } } } :: r.2.2.2)

def vecWait (insts : List InstSt) : List ℚ × List Bool × List Bool × List InstSt :=
  vecWaitGo insts

/-! ## Concrete fixtures used by counterexamples and witnesses -/

/-- A 3×3 test maze whose single remaining coin sits at (1,1). -/
def c1Maze : Maze :=
  { w := 3, h := 3, walls := ['A','A','A','A','1','A','A','A','A'],
    coins := 1, is_terminated := false }

def c1Sim : Sim := { maze := c1Maze, ag := { x := 1, y := 1 } }

instance : Inhabited AgentSt := ⟨{ x := 0, y := 0 }⟩

instance : Inhabited Maze :=
  ⟨{ w := 0, h := 0, walls := [], coins := 0, is_terminated := false }⟩

instance : Inhabited Sim := ⟨{ maze := default, ag := default }⟩

instance : Inhabited InstSt := ⟨{ sim := default }⟩

/-- A stompable monster (slimeBlock) at the origin. -/
def c5Monster : Monster :=
  { x := 0, y := 0, prev_x := [], prev_y := [], is_flying := false,
    is_walking := true, theme_n := 2 }

/-- Agent overlapping `c5Monster` from above: stomp geometry. -/
def c5SimStomp : Sim := { maze := c1Maze, ag := { x := 1/2, y := 1/2 } }

/-- Agent overlapping `c5Monster` from below: death geometry. -/
def c5SimKill : Sim := { maze := c1Maze, ag := { x := 1/5, y := -3/10 } }

/-- An instance that is still `ready` (enqueued). -/
def c4Inst : InstSt := { sim := c1Sim, agent_ready := true }

/-- An idle instance. -/
def c8Inst : InstSt := { sim := c1Sim }

/-- A 5×5 maze with a solid shelf at y = 2 and an anchor spot above it at
(2,3) where `good_place` holds; no coins or gems yet. -/
def c2Maze : Maze :=
  { w := 5, h := 5,
    walls := ['.','.','.','.','.',
              '.','.','.','.','.',
              '.','S','S','S','.',
              '.','.','.','.','.',
              '.','.','.','.','.'],
    coins := 0, is_terminated := false }

/-! ## Basic lemmas about the maze operations -/

@[simp] theorem Maze.coins_set (m : Maze) (x y : Int) (c : Char) :
    (m.set x y c).coins = m.coins := by
  unfold Maze.set; split <;> rfl

@[simp] theorem Maze.w_set (m : Maze) (x y : Int) (c : Char) :
    (m.set x y c).w = m.w := by
  unfold Maze.set; split <;> rfl

@[simp] theorem Maze.h_set (m : Maze) (x y : Int) (c : Char) :
    (m.set x y c).h = m.h := by
  unfold Maze.set; split <;> rfl

@[simp] theorem Maze.is_terminated_set (m : Maze) (x y : Int) (c : Char) :
    (m.set x y c).is_terminated = m.is_terminated := by
  unfold Maze.set; split <;> rfl

@[simp] theorem Maze.inGrid_set (m : Maze) (x y a b : Int) (c : Char) :
    (m.set a b c).inGrid x y = m.inGrid x y := by
  unfold Maze.set Maze.inGrid; split <;> rfl

@[simp] theorem Maze.walls_length_set (m : Maze) (x y : Int) (c : Char) :
    (m.set x y c).walls.length = m.walls.length := by
  unfold Maze.set; split
  · simp
  · rfl

/-- A cell whose value is not the junk tile is inside the grid and inside
the backing array. -/
theorem Maze.get_range (m : Maze) (x y : Int) (h : m.get x y ≠ '?') :
    m.inGrid x y = true ∧ (m.w * y + x).toNat < m.walls.length := by
  unfold Maze.get at h
  by_cases hin : m.inGrid x y
  · refine ⟨hin, ?_⟩
    by_cases hlen : (m.w * y + x).toNat < m.walls.length
    · exact hlen
    · exfalso
      apply h
      rw [if_pos hin, List.getD_eq_getElem?_getD,
          List.getElem?_eq_none (le_of_not_lt hlen)]
      rfl
  · exfalso; apply h; rw [if_neg hin]

theorem Maze.get_eq_getElem (m : Maze) (x y : Int) (hin : m.inGrid x y = true)
    (hlen : (m.w * y + x).toNat < m.walls.length) :
    m.get x y = m.walls[(m.w * y + x).toNat] := by
  unfold Maze.get
  rw [if_pos hin, List.getD_eq_getElem?_getD, List.getElem?_eq_getElem hlen]
  rfl

/-- Writing a cell that was readable puts the new tile there. -/
theorem Maze.get_set_self (m : Maze) (x y : Int) (c : Char)
    (h : m.get x y ≠ '?') :
    (m.set x y c).get x y = c := by
  obtain ⟨hin, hlen⟩ := m.get_range x y h
  have hset : m.set x y c = { m with walls := m.walls.set (m.w * y + x).toNat c } := by
    unfold Maze.set
    rw [if_pos hin]
  rw [hset]
  show Maze.get _ x y = c
  unfold Maze.get Maze.inGrid
  unfold Maze.inGrid at hin
  simp only [hin, if_pos]
  rw [List.getD_eq_getElem?_getD]
  rw [List.getElem?_eq_getElem (by simpa using hlen)]
  simp [List.getElem_set_self]

/-- Writing one in-grid cell does not change a different cell. -/
theorem Maze.get_set_ne (m : Maze) (x y a b : Int) (c : Char)
    (hne : ¬(a = x ∧ b = y)) :
    (m.set a b c).get x y = m.get x y := by
  unfold Maze.set
  by_cases hab : m.inGrid a b
  · rw [if_pos hab]
    unfold Maze.get Maze.inGrid at *
    by_cases hxy : (0 ≤ x && x < m.w && 0 ≤ y && y < m.h : Bool)
    · have hxy' := hxy
      simp only [Bool.and_eq_true, decide_eq_true_eq] at hxy' hab
      obtain ⟨⟨⟨hx0, hxw⟩, hy0⟩, hyh⟩ := hxy'
      obtain ⟨⟨⟨ha0, haw⟩, hb0⟩, hbh⟩ := hab
      simp only [hxy, if_pos]
      show (m.walls.set (m.w * b + a).toNat c).getD (m.w * y + x).toNat '?' =
        m.walls.getD (m.w * y + x).toNat '?'
      have hidx : (m.w * b + a).toNat ≠ (m.w * y + x).toNat := by
        intro he
        have hw : (0:Int) < m.w := by omega
        have e1 : (0:Int) ≤ m.w * b + a := by
          have := mul_nonneg hw.le hb0
          linarith
        have e2 : (0:Int) ≤ m.w * y + x := by
          have := mul_nonneg hw.le hy0
          linarith
        have h1 : m.w * b + a = m.w * y + x := by
          rw [← Int.toNat_of_nonneg e1, ← Int.toNat_of_nonneg e2, he]
        have hby : b = y := by
          by_contra hneq
          rcases lt_or_gt_of_ne hneq with hlt | hgt
          · have h3 : (1:Int) ≤ y - b := by omega
            have h4 : m.w * 1 ≤ m.w * (y - b) :=
              mul_le_mul_of_nonneg_left h3 hw.le
            nlinarith
          · have h3 : (1:Int) ≤ b - y := by omega
            have h4 : m.w * 1 ≤ m.w * (b - y) :=
              mul_le_mul_of_nonneg_left h3 hw.le
            nlinarith
        refine hne ⟨?_, hby⟩
        rw [hby] at h1
        linarith
      rw [List.getD_eq_getElem?_getD, List.getD_eq_getElem?_getD,
          List.getElem?_set_ne hidx]
    · simp only [Bool.not_eq_true] at hxy
      simp [hxy]
  · rw [if_neg hab]
    unfold Maze.get
    rfl


/-! ## The fill primitive and the freshly initialised level -/

/-- An out-of-grid read gives the junk tile. -/
theorem Maze.get_out (m : Maze) (x y : Int) (h : m.inGrid x y = false) :
    m.get x y = '?' := by
  unfold Maze.get
  rw [h]
  rfl

/-- An out-of-grid write leaves every cell unchanged. -/
theorem Maze.get_set_out (m : Maze) (a b x y : Int) (c : Char)
    (h : m.inGrid a b = false) :
    (m.set a b c).get x y = m.get x y := by
  unfold Maze.set
  rw [h]
  simp only [Bool.false_eq_true, if_false]
  rfl

/-- In a maze whose backing array has the nominal `w*h` length, every
in-grid flat index is in range. -/
theorem Maze.idx_lt (m : Maze) (x y : Int)
    (hwf : m.walls.length = (m.w * m.h).toNat)
    (hin : m.inGrid x y = true) :
    (m.w * y + x).toNat < m.walls.length := by
  unfold Maze.inGrid at hin
  simp only [Bool.and_eq_true, decide_eq_true_eq] at hin
  obtain ⟨⟨⟨hx0, hxw⟩, hy0⟩, hyh⟩ := hin
  have hw : (0:Int) < m.w := by omega
  have h1 : m.w * y + x < m.w * m.h := by
    have h2 : y ≤ m.h - 1 := by omega
    have h3 : m.w * y ≤ m.w * (m.h - 1) :=
      mul_le_mul_of_nonneg_left h2 hw.le
    nlinarith
  have h4 : (0:Int) ≤ m.w * y := mul_nonneg hw.le hy0
  rw [hwf]
  omega

/-- Writing an in-grid cell (array in range) puts the tile there. -/
theorem Maze.get_set_self' (m : Maze) (x y : Int) (c : Char)
    (hin : m.inGrid x y = true)
    (hlen : (m.w * y + x).toNat < m.walls.length) :
    (m.set x y c).get x y = c := by
  have hset : m.set x y c = { m with walls := m.walls.set (m.w * y + x).toNat c } := by
    unfold Maze.set
    rw [hin]
    rfl
  rw [hset]
  show Maze.get _ x y = c
  unfold Maze.get Maze.inGrid
  unfold Maze.inGrid at hin
  simp only [hin, if_pos]
  rw [List.getD_eq_getElem?_getD]
  rw [List.getElem?_eq_getElem (by simpa using hlen)]
  simp [List.getElem_set_self]

@[simp] theorem Maze.is_new_level_set (m : Maze) (x y : Int) (c : Char) :
    (m.set x y c).is_new_level = m.is_new_level := by
  unfold Maze.set; split <;> rfl

@[simp] theorem Maze.spawnx_set (m : Maze) (x y : Int) (c : Char) :
    (m.set x y c).spawnx = m.spawnx := by
  unfold Maze.set; split <;> rfl

@[simp] theorem Maze.spawny_set (m : Maze) (x y : Int) (c : Char) :
    (m.set x y c).spawny = m.spawny := by
  unfold Maze.set; split <;> rfl

@[simp] theorem Maze.monsters_set (m : Maze) (x y : Int) (c : Char) :
    (m.set x y c).monsters = m.monsters := by
  unfold Maze.set; split <;> rfl

/-- Writing an in-grid cell leaves the out-of-bounds flag alone. -/
theorem Maze.oobWrite_set_inGrid (m : Maze) (x y : Int) (c : Char)
    (hin : m.inGrid x y = true) :
    (m.set x y c).oobWrite = m.oobWrite := by
  unfold Maze.set
  rw [hin]
  rfl

@[simp] theorem Maze.w_fillCol (x y : Int) (c : Char) (k : Nat) (m : Maze) :
    (Maze.fillCol x y c k m).w = m.w := by
  induction k with
  | zero => rfl
  | succ k ih => simp [Maze.fillCol, ih]

@[simp] theorem Maze.h_fillCol (x y : Int) (c : Char) (k : Nat) (m : Maze) :
    (Maze.fillCol x y c k m).h = m.h := by
  induction k with
  | zero => rfl
  | succ k ih => simp [Maze.fillCol, ih]

@[simp] theorem Maze.inGrid_fillCol (x y : Int) (c : Char) (k : Nat) (m : Maze)
    (a b : Int) : (Maze.fillCol x y c k m).inGrid a b = m.inGrid a b := by
  induction k with
  | zero => rfl
  | succ k ih => simp [Maze.fillCol, ih]

@[simp] theorem Maze.walls_length_fillCol (x y : Int) (c : Char) (k : Nat)
    (m : Maze) : (Maze.fillCol x y c k m).walls.length = m.walls.length := by
  induction k with
  | zero => rfl
  | succ k ih => simp [Maze.fillCol, ih]

@[simp] theorem Maze.coins_fillCol (x y : Int) (c : Char) (k : Nat) (m : Maze) :
    (Maze.fillCol x y c k m).coins = m.coins := by
  induction k with
  | zero => rfl
  | succ k ih => simp [Maze.fillCol, ih]

@[simp] theorem Maze.is_terminated_fillCol (x y : Int) (c : Char) (k : Nat)
    (m : Maze) :
    (Maze.fillCol x y c k m).is_terminated = m.is_terminated := by
  induction k with
  | zero => rfl
  | succ k ih => simp [Maze.fillCol, ih]

@[simp] theorem Maze.is_new_level_fillCol (x y : Int) (c : Char) (k : Nat)
    (m : Maze) :
    (Maze.fillCol x y c k m).is_new_level = m.is_new_level := by
  induction k with
  | zero => rfl
  | succ k ih => simp [Maze.fillCol, ih]

@[simp] theorem Maze.spawnx_fillCol (x y : Int) (c : Char) (k : Nat)
    (m : Maze) : (Maze.fillCol x y c k m).spawnx = m.spawnx := by
  induction k with
  | zero => rfl
  | succ k ih => simp [Maze.fillCol, ih]

@[simp] theorem Maze.spawny_fillCol (x y : Int) (c : Char) (k : Nat)
    (m : Maze) : (Maze.fillCol x y c k m).spawny = m.spawny := by
  induction k with
  | zero => rfl
  | succ k ih => simp [Maze.fillCol, ih]

@[simp] theorem Maze.monsters_fillCol (x y : Int) (c : Char) (k : Nat)
    (m : Maze) : (Maze.fillCol x y c k m).monsters = m.monsters := by
  induction k with
  | zero => rfl
  | succ k ih => simp [Maze.fillCol, ih]

/-- A column fill whose cells are all in-grid leaves the out-of-bounds
flag alone. -/
theorem Maze.oobWrite_fillCol (x y : Int) (c : Char) (k : Nat) (m : Maze)
    (hins : ∀ j : Nat, j < k → m.inGrid x (y + (j : Int)) = true) :
    (Maze.fillCol x y c k m).oobWrite = m.oobWrite := by
  induction k with
  | zero => rfl
  | succ k ih =>
    show ((Maze.fillCol x y c k m).set x (y + (k : Int)) c).oobWrite = _
    rw [Maze.oobWrite_set_inGrid]
    · exact ih (fun j hj => hins j (by omega))
    · rw [Maze.inGrid_fillCol]
      exact hins k (by omega)

/-- What a column fill leaves at each cell. -/
theorem Maze.get_fillCol (x y : Int) (c : Char) (k : Nat) (m : Maze)
    (hwf : m.walls.length = (m.w * m.h).toNat) (a b : Int) :
    (Maze.fillCol x y c k m).get a b =
      if a = x ∧ y ≤ b ∧ b < y + (k : Int) ∧ m.inGrid a b = true then c
      else m.get a b := by
  induction k with
  | zero =>
    rw [if_neg]
    · rfl
    · rintro ⟨-, h1, h2, -⟩
      push_cast at h2
      omega
  | succ k ih =>
    show ((Maze.fillCol x y c k m).set x (y + (k : Int)) c).get a b = _
    by_cases hin : m.inGrid x (y + (k : Int)) = true
    · by_cases hab : a = x ∧ b = y + (k : Int)
      · obtain ⟨ha, hb⟩ := hab
        subst ha
        subst hb
        rw [Maze.get_set_self']
        · rw [if_pos ⟨rfl, by omega, by push_cast; omega, hin⟩]
        · rw [Maze.inGrid_fillCol]
          exact hin
        · simp only [Maze.walls_length_fillCol, Maze.w_fillCol]
          exact Maze.idx_lt m _ _ hwf hin
      · rw [Maze.get_set_ne]
        · rw [ih]
          by_cases hc : a = x ∧ y ≤ b ∧ b < y + (k : Int) ∧ m.inGrid a b = true
          · rw [if_pos hc, if_pos]
            obtain ⟨h1, h2, h3, h4⟩ := hc
            exact ⟨h1, h2, by push_cast; omega, h4⟩
          · rw [if_neg hc, if_neg]
            rintro ⟨h1, h2, h3, h4⟩
            apply hc
            refine ⟨h1, h2, ?_, h4⟩
            push_cast at h3
            by_cases hb : b = y + (k : Int)
            · exact absurd ⟨h1, hb⟩ hab
            · omega
        · exact fun he => hab ⟨he.1.symm, he.2.symm⟩
    · rw [Maze.get_set_out]
      · rw [ih]
        by_cases hc : a = x ∧ y ≤ b ∧ b < y + (k : Int) ∧ m.inGrid a b = true
        · rw [if_pos hc, if_pos]
          obtain ⟨h1, h2, h3, h4⟩ := hc
          exact ⟨h1, h2, by push_cast; omega, h4⟩
        · rw [if_neg hc, if_neg]
          rintro ⟨h1, h2, h3, h4⟩
          push_cast at h3
          by_cases hb : b = y + (k : Int)
          · subst h1
            subst hb
            exact hin h4
          · exact hc ⟨h1, h2, by omega, h4⟩
      · rw [Maze.inGrid_fillCol]
        simpa using hin

@[simp] theorem Maze.w_fillGo (x y : Int) (dy : Nat) (c : Char) (n : Nat)
    (m : Maze) : (Maze.fillGo x y dy c n m).w = m.w := by
  induction n with
  | zero => rfl
  | succ n ih => simp [Maze.fillGo, ih]

@[simp] theorem Maze.h_fillGo (x y : Int) (dy : Nat) (c : Char) (n : Nat)
    (m : Maze) : (Maze.fillGo x y dy c n m).h = m.h := by
  induction n with
  | zero => rfl
  | succ n ih => simp [Maze.fillGo, ih]

@[simp] theorem Maze.inGrid_fillGo (x y : Int) (dy : Nat) (c : Char) (n : Nat)
    (m : Maze) (a b : Int) :
    (Maze.fillGo x y dy c n m).inGrid a b = m.inGrid a b := by
  induction n with
  | zero => rfl
  | succ n ih => simp [Maze.fillGo, ih]

@[simp] theorem Maze.walls_length_fillGo (x y : Int) (dy : Nat) (c : Char)
    (n : Nat) (m : Maze) :
    (Maze.fillGo x y dy c n m).walls.length = m.walls.length := by
  induction n with
  | zero => rfl
  | succ n ih => simp [Maze.fillGo, ih]

@[simp] theorem Maze.coins_fillGo (x y : Int) (dy : Nat) (c : Char) (n : Nat)
    (m : Maze) : (Maze.fillGo x y dy c n m).coins = m.coins := by
  induction n with
  | zero => rfl
  | succ n ih => simp [Maze.fillGo, ih]

@[simp] theorem Maze.is_terminated_fillGo (x y : Int) (dy : Nat) (c : Char)
    (n : Nat) (m : Maze) :
    (Maze.fillGo x y dy c n m).is_terminated = m.is_terminated := by
  induction n with
  | zero => rfl
  | succ n ih => simp [Maze.fillGo, ih]

@[simp] theorem Maze.is_new_level_fillGo (x y : Int) (dy : Nat) (c : Char)
    (n : Nat) (m : Maze) :
    (Maze.fillGo x y dy c n m).is_new_level = m.is_new_level := by
  induction n with
  | zero => rfl
  | succ n ih => simp [Maze.fillGo, ih]

@[simp] theorem Maze.spawnx_fillGo (x y : Int) (dy : Nat) (c : Char) (n : Nat)
    (m : Maze) : (Maze.fillGo x y dy c n m).spawnx = m.spawnx := by
  induction n with
  | zero => rfl
  | succ n ih => simp [Maze.fillGo, ih]

@[simp] theorem Maze.spawny_fillGo (x y : Int) (dy : Nat) (c : Char) (n : Nat)
    (m : Maze) : (Maze.fillGo x y dy c n m).spawny = m.spawny := by
  induction n with
  | zero => rfl
  | succ n ih => simp [Maze.fillGo, ih]

@[simp] theorem Maze.monsters_fillGo (x y : Int) (dy : Nat) (c : Char)
    (n : Nat) (m : Maze) :
    (Maze.fillGo x y dy c n m).monsters = m.monsters := by
  induction n with
  | zero => rfl
  | succ n ih => simp [Maze.fillGo, ih]

/-- A rectangle fill whose cells are all in-grid leaves the out-of-bounds
flag alone. -/
theorem Maze.oobWrite_fillGo (x y : Int) (dy : Nat) (c : Char) (n : Nat)
    (m : Maze)
    (hins : ∀ j k : Nat, j < n → k < dy →
      m.inGrid (x + (j : Int)) (y + (k : Int)) = true) :
    (Maze.fillGo x y dy c n m).oobWrite = m.oobWrite := by
  induction n with
  | zero => rfl
  | succ n ih =>
    show (Maze.fillCol (x + (n : Int)) y c dy (Maze.fillGo x y dy c n m)).oobWrite = _
    rw [Maze.oobWrite_fillCol]
    · exact ih (fun j k hj hk => hins j k (by omega) hk)
    · intro k hk
      rw [Maze.inGrid_fillGo]
      exact hins n k (by omega) hk

/-- What a rectangle fill leaves at each cell. -/
theorem Maze.get_fillGo (x y : Int) (dy : Nat) (c : Char) (n : Nat) (m : Maze)
    (hwf : m.walls.length = (m.w * m.h).toNat) (a b : Int) :
    (Maze.fillGo x y dy c n m).get a b =
      if x ≤ a ∧ a < x + (n : Int) ∧ y ≤ b ∧ b < y + (dy : Int) ∧
          m.inGrid a b = true then c
      else m.get a b := by
  induction n with
  | zero =>
    rw [if_neg]
    · rfl
    · rintro ⟨h1, h2, -, -, -⟩
      push_cast at h2
      omega
  | succ n ih =>
    show (Maze.fillCol (x + (n : Int)) y c dy (Maze.fillGo x y dy c n m)).get a b = _
    rw [Maze.get_fillCol]
    · rw [Maze.inGrid_fillGo, ih]
      by_cases hcol : a = x + (n : Int) ∧ y ≤ b ∧ b < y + (dy : Int) ∧
          m.inGrid a b = true
      · rw [if_pos hcol, if_pos]
        obtain ⟨h1, h2, h3, h4⟩ := hcol
        exact ⟨by omega, by push_cast; omega, h2, h3, h4⟩
      · rw [if_neg hcol]
        by_cases hrec : x ≤ a ∧ a < x + (n : Int) ∧ y ≤ b ∧ b < y + (dy : Int) ∧
            m.inGrid a b = true
        · rw [if_pos hrec, if_pos]
          obtain ⟨h1, h2, h3, h4, h5⟩ := hrec
          exact ⟨h1, by push_cast; omega, h3, h4, h5⟩
        · rw [if_neg hrec, if_neg]
          rintro ⟨h1, h2, h3, h4, h5⟩
          push_cast at h2
          by_cases ha : a = x + (n : Int)
          · exact hcol ⟨ha, h3, h4, h5⟩
          · exact hrec ⟨h1, by omega, h3, h4, h5⟩
    · simp only [Maze.walls_length_fillGo, Maze.w_fillGo, Maze.h_fillGo]
      exact hwf

/-- What `fill_elem` leaves at each cell: the fill rectangle clipped to
the grid gets the new tile, everything else keeps its old value. -/
theorem Maze.get_fill (m : Maze) (x y dx dy : Int) (c : Char)
    (hdx : 0 ≤ dx) (hdy : 0 ≤ dy)
    (hwf : m.walls.length = (m.w * m.h).toNat) (a b : Int) :
    (m.fill x y dx dy c).get a b =
      if x ≤ a ∧ a < x + dx ∧ y ≤ b ∧ b < y + dy ∧ m.inGrid a b = true then c
      else m.get a b := by
  unfold Maze.fill
  rw [Maze.get_fillGo x y dy.toNat c dx.toNat m hwf a b]
  rw [Int.toNat_of_nonneg hdx, Int.toNat_of_nonneg hdy]

@[simp] theorem Maze.w_fill (m : Maze) (x y dx dy : Int) (c : Char) :
    (m.fill x y dx dy c).w = m.w := Maze.w_fillGo ..

@[simp] theorem Maze.h_fill (m : Maze) (x y dx dy : Int) (c : Char) :
    (m.fill x y dx dy c).h = m.h := Maze.h_fillGo ..

@[simp] theorem Maze.inGrid_fill (m : Maze) (x y dx dy : Int) (c : Char)
    (a b : Int) : (m.fill x y dx dy c).inGrid a b = m.inGrid a b :=
  Maze.inGrid_fillGo ..

@[simp] theorem Maze.walls_length_fill (m : Maze) (x y dx dy : Int)
    (c : Char) : (m.fill x y dx dy c).walls.length = m.walls.length :=
  Maze.walls_length_fillGo ..

@[simp] theorem Maze.coins_fill (m : Maze) (x y dx dy : Int) (c : Char) :
    (m.fill x y dx dy c).coins = m.coins := Maze.coins_fillGo ..

@[simp] theorem Maze.is_terminated_fill (m : Maze) (x y dx dy : Int)
    (c : Char) : (m.fill x y dx dy c).is_terminated = m.is_terminated :=
  Maze.is_terminated_fillGo ..

@[simp] theorem Maze.is_new_level_fill (m : Maze) (x y dx dy : Int)
    (c : Char) : (m.fill x y dx dy c).is_new_level = m.is_new_level :=
  Maze.is_new_level_fillGo ..

@[simp] theorem Maze.spawnx_fill (m : Maze) (x y dx dy : Int) (c : Char) :
    (m.fill x y dx dy c).spawnx = m.spawnx := Maze.spawnx_fillGo ..

@[simp] theorem Maze.spawny_fill (m : Maze) (x y dx dy : Int) (c : Char) :
    (m.fill x y dx dy c).spawny = m.spawny := Maze.spawny_fillGo ..

@[simp] theorem Maze.monsters_fill (m : Maze) (x y dx dy : Int) (c : Char) :
    (m.fill x y dx dy c).monsters = m.monsters := Maze.monsters_fillGo ..

/-- A fill over a rectangle inside the grid leaves the out-of-bounds flag
alone. -/
theorem Maze.oobWrite_fill (m : Maze) (x y dx dy : Int) (c : Char)
    (hins : ∀ a b : Int, x ≤ a → a < x + dx → y ≤ b → b < y + dy →
      m.inGrid a b = true) :
    (m.fill x y dx dy c).oobWrite = m.oobWrite := by
  unfold Maze.fill
  apply Maze.oobWrite_fillGo
  intro j k hj hk
  apply hins
  · omega
  · have : (j : Int) < dx.toNat := by exact_mod_cast hj
    omega
  · omega
  · have : (k : Int) < dy.toNat := by exact_mod_cast hk
    omega

/-- Every cell of a freshly allocated maze is junk. -/
theorem Maze.get_mazeNew (w h a b : Int) : (mazeNew w h).get a b = '?' := by
  unfold Maze.get
  split
  · simp only [mazeNew, List.getD_eq_getElem?_getD, List.getElem?_replicate]
    split <;> rfl
  · rfl

theorem mazeNew_wf (w h : Int) :
    (mazeNew w h).walls.length = ((mazeNew w h).w * (mazeNew w h).h).toNat := by
  simp [mazeNew]


/-- Stage 1 of `initial_floor_and_walls`: all space. -/
theorem get_ifw_stage1 (a b : Int) :
    ((mazeNew 64 13).fill 0 0 (mazeNew 64 13).w (mazeNew 64 13).h SPACE).get a b =
      if 0 ≤ a ∧ a < 64 ∧ 0 ≤ b ∧ b < 13 then SPACE else '?' := by
  have hg : ∀ x y : Int, (mazeNew 64 13).inGrid x y =
      ((0 ≤ x ∧ x < 64 ∧ 0 ≤ y ∧ y < 13 : Prop) : Bool) := by
    intro x y
    show ((0 ≤ x && x < (64:Int)) && 0 ≤ y && y < (13:Int)) = _
    simp [Bool.and_assoc, decide_eq_true_eq, and_assoc]
  have hw : (mazeNew 64 13).w = 64 := rfl
  have hh : (mazeNew 64 13).h = 13 := rfl
  rw [Maze.get_fill _ _ _ _ _ _
      (by decide) (by decide) (mazeNew_wf 64 13), Maze.get_mazeNew]
  simp only [Maze.inGrid_fill, Maze.w_fill, Maze.h_fill, hg, hw, hh,
    decide_eq_true_eq]
  split_ifs <;> first | rfl | omega

/-- Stage 2: the floor row. -/
theorem get_ifw_stage2 (a b : Int) :
    (((mazeNew 64 13).fill 0 0 (mazeNew 64 13).w (mazeNew 64 13).h SPACE).fill 0 0 ((mazeNew 64 13).fill 0 0 (mazeNew 64 13).w (mazeNew 64 13).h SPACE).w 1 WALL_SURFACE).get a b =
      if 0 ≤ a ∧ a < 64 ∧ 0 ≤ b ∧ b < 13 then
        (if b = 0 then WALL_SURFACE else SPACE)
      else '?' := by
  have hg : ∀ x y : Int, (mazeNew 64 13).inGrid x y =
      ((0 ≤ x ∧ x < 64 ∧ 0 ≤ y ∧ y < 13 : Prop) : Bool) := by
    intro x y
    show ((0 ≤ x && x < (64:Int)) && 0 ≤ y && y < (13:Int)) = _
    simp [Bool.and_assoc, decide_eq_true_eq, and_assoc]
  have hw : (mazeNew 64 13).w = 64 := rfl
  have hh : (mazeNew 64 13).h = 13 := rfl
  rw [Maze.get_fill _ _ _ _ _ _
      (by norm_num [Maze.w_fill, Maze.h_fill, mazeNew])
      (by norm_num [Maze.w_fill, Maze.h_fill, mazeNew])
      (by simp only [Maze.walls_length_fill, Maze.w_fill, Maze.h_fill]
          exact mazeNew_wf 64 13), get_ifw_stage1]
  simp only [Maze.inGrid_fill, Maze.w_fill, Maze.h_fill, hg, hw, hh,
    decide_eq_true_eq]
  split_ifs <;> first | rfl | omega

/-- Stage 3: the left wall column. -/
theorem get_ifw_stage3 (a b : Int) :
    ((((mazeNew 64 13).fill 0 0 (mazeNew 64 13).w (mazeNew 64 13).h SPACE).fill 0 0 ((mazeNew 64 13).fill 0 0 (mazeNew 64 13).w (mazeNew 64 13).h SPACE).w 1 WALL_SURFACE).fill 0 0 1 (((mazeNew 64 13).fill 0 0 (mazeNew 64 13).w (mazeNew 64 13).h SPACE).fill 0 0 ((mazeNew 64 13).fill 0 0 (mazeNew 64 13).w (mazeNew 64 13).h SPACE).w 1 WALL_SURFACE).h WALL_MIDDLE).get a b =
      if 0 ≤ a ∧ a < 64 ∧ 0 ≤ b ∧ b < 13 then
        (if a = 0 then WALL_MIDDLE else if b = 0 then WALL_SURFACE else SPACE)
      else '?' := by
  have hg : ∀ x y : Int, (mazeNew 64 13).inGrid x y =
      ((0 ≤ x ∧ x < 64 ∧ 0 ≤ y ∧ y < 13 : Prop) : Bool) := by
    intro x y
    show ((0 ≤ x && x < (64:Int)) && 0 ≤ y && y < (13:Int)) = _
    simp [Bool.and_assoc, decide_eq_true_eq, and_assoc]
  have hw : (mazeNew 64 13).w = 64 := rfl
  have hh : (mazeNew 64 13).h = 13 := rfl
  rw [Maze.get_fill _ _ _ _ _ _
      (by norm_num [Maze.w_fill, Maze.h_fill, mazeNew])
      (by norm_num [Maze.w_fill, Maze.h_fill, mazeNew])
      (by simp only [Maze.walls_length_fill, Maze.w_fill, Maze.h_fill]
          exact mazeNew_wf 64 13), get_ifw_stage2]
  simp only [Maze.inGrid_fill, Maze.w_fill, Maze.h_fill, hg, hw, hh,
    decide_eq_true_eq]
  split_ifs <;> first | rfl | omega

/-- Stage 4: the right wall column. -/
theorem get_ifw_stage4 (a b : Int) :
    (((((mazeNew 64 13).fill 0 0 (mazeNew 64 13).w (mazeNew 64 13).h SPACE).fill 0 0 ((mazeNew 64 13).fill 0 0 (mazeNew 64 13).w (mazeNew 64 13).h SPACE).w 1 WALL_SURFACE).fill 0 0 1 (((mazeNew 64 13).fill 0 0 (mazeNew 64 13).w (mazeNew 64 13).h SPACE).fill 0 0 ((mazeNew 64 13).fill 0 0 (mazeNew 64 13).w (mazeNew 64 13).h SPACE).w 1 WALL_SURFACE).h WALL_MIDDLE).fill (((((mazeNew 64 13).fill 0 0 (mazeNew 64 13).w (mazeNew 64 13).h SPACE).fill 0 0 ((mazeNew 64 13).fill 0 0 (mazeNew 64 13).w (mazeNew 64 13).h SPACE).w 1 WALL_SURFACE).fill 0 0 1 (((mazeNew 64 13).fill 0 0 (mazeNew 64 13).w (mazeNew 64 13).h SPACE).fill 0 0 ((mazeNew 64 13).fill 0 0 (mazeNew 64 13).w (mazeNew 64 13).h SPACE).w 1 WALL_SURFACE).h WALL_MIDDLE).w - 1) 0 1 ((((mazeNew 64 13).fill 0 0 (mazeNew 64 13).w (mazeNew 64 13).h SPACE).fill 0 0 ((mazeNew 64 13).fill 0 0 (mazeNew 64 13).w (mazeNew 64 13).h SPACE).w 1 WALL_SURFACE).fill 0 0 1 (((mazeNew 64 13).fill 0 0 (mazeNew 64 13).w (mazeNew 64 13).h SPACE).fill 0 0 ((mazeNew 64 13).fill 0 0 (mazeNew 64 13).w (mazeNew 64 13).h SPACE).w 1 WALL_SURFACE).h WALL_MIDDLE).h WALL_MIDDLE).get a b =
      if 0 ≤ a ∧ a < 64 ∧ 0 ≤ b ∧ b < 13 then
        (if a = 0 then WALL_MIDDLE else if a = 63 then WALL_MIDDLE
         else if b = 0 then WALL_SURFACE else SPACE)
      else '?' := by
  have hg : ∀ x y : Int, (mazeNew 64 13).inGrid x y =
      ((0 ≤ x ∧ x < 64 ∧ 0 ≤ y ∧ y < 13 : Prop) : Bool) := by
    intro x y
    show ((0 ≤ x && x < (64:Int)) && 0 ≤ y && y < (13:Int)) = _
    simp [Bool.and_assoc, decide_eq_true_eq, and_assoc]
  have hw : (mazeNew 64 13).w = 64 := rfl
  have hh : (mazeNew 64 13).h = 13 := rfl
  rw [Maze.get_fill _ _ _ _ _ _
      (by norm_num [Maze.w_fill, Maze.h_fill, mazeNew])
      (by norm_num [Maze.w_fill, Maze.h_fill, mazeNew])
      (by simp only [Maze.walls_length_fill, Maze.w_fill, Maze.h_fill]
          exact mazeNew_wf 64 13), get_ifw_stage3]
  simp only [Maze.inGrid_fill, Maze.w_fill, Maze.h_fill, hg, hw, hh,
    decide_eq_true_eq]
  split_ifs <;> first | rfl | omega

/-- The exact tile the border initialisation leaves at each cell of the
64×13 level. -/
theorem get_initialFloorAndWalls (a b : Int) :
    (initialFloorAndWalls (mazeNew 64 13)).get a b =
      if 0 ≤ a ∧ a < 64 ∧ 0 ≤ b ∧ b < 13 then
        (if b = 12 then WALL_MIDDLE else if a = 0 then WALL_MIDDLE
         else if a = 63 then WALL_MIDDLE else if b = 0 then WALL_SURFACE
         else SPACE)
      else '?' := by
  show ((((((mazeNew 64 13).fill 0 0 (mazeNew 64 13).w (mazeNew 64 13).h SPACE).fill 0 0 ((mazeNew 64 13).fill 0 0 (mazeNew 64 13).w (mazeNew 64 13).h SPACE).w 1 WALL_SURFACE).fill 0 0 1 (((mazeNew 64 13).fill 0 0 (mazeNew 64 13).w (mazeNew 64 13).h SPACE).fill 0 0 ((mazeNew 64 13).fill 0 0 (mazeNew 64 13).w (mazeNew 64 13).h SPACE).w 1 WALL_SURFACE).h WALL_MIDDLE).fill (((((mazeNew 64 13).fill 0 0 (mazeNew 64 13).w (mazeNew 64 13).h SPACE).fill 0 0 ((mazeNew 64 13).fill 0 0 (mazeNew 64 13).w (mazeNew 64 13).h SPACE).w 1 WALL_SURFACE).fill 0 0 1 (((mazeNew 64 13).fill 0 0 (mazeNew 64 13).w (mazeNew 64 13).h SPACE).fill 0 0 ((mazeNew 64 13).fill 0 0 (mazeNew 64 13).w (mazeNew 64 13).h SPACE).w 1 WALL_SURFACE).h WALL_MIDDLE).w - 1) 0 1 ((((mazeNew 64 13).fill 0 0 (mazeNew 64 13).w (mazeNew 64 13).h SPACE).fill 0 0 ((mazeNew 64 13).fill 0 0 (mazeNew 64 13).w (mazeNew 64 13).h SPACE).w 1 WALL_SURFACE).fill 0 0 1 (((mazeNew 64 13).fill 0 0 (mazeNew 64 13).w (mazeNew 64 13).h SPACE).fill 0 0 ((mazeNew 64 13).fill 0 0 (mazeNew 64 13).w (mazeNew 64 13).h SPACE).w 1 WALL_SURFACE).h WALL_MIDDLE).h WALL_MIDDLE).fill 0 ((((((mazeNew 64 13).fill 0 0 (mazeNew 64 13).w (mazeNew 64 13).h SPACE).fill 0 0 ((mazeNew 64 13).fill 0 0 (mazeNew 64 13).w (mazeNew 64 13).h SPACE).w 1 WALL_SURFACE).fill 0 0 1 (((mazeNew 64 13).fill 0 0 (mazeNew 64 13).w (mazeNew 64 13).h SPACE).fill 0 0 ((mazeNew 64 13).fill 0 0 (mazeNew 64 13).w (mazeNew 64 13).h SPACE).w 1 WALL_SURFACE).h WALL_MIDDLE).fill (((((mazeNew 64 13).fill 0 0 (mazeNew 64 13).w (mazeNew 64 13).h SPACE).fill 0 0 ((mazeNew 64 13).fill 0 0 (mazeNew 64 13).w (mazeNew 64 13).h SPACE).w 1 WALL_SURFACE).fill 0 0 1 (((mazeNew 64 13).fill 0 0 (mazeNew 64 13).w (mazeNew 64 13).h SPACE).fill 0 0 ((mazeNew 64 13).fill 0 0 (mazeNew 64 13).w (mazeNew 64 13).h SPACE).w 1 WALL_SURFACE).h WALL_MIDDLE).w - 1) 0 1 ((((mazeNew 64 13).fill 0 0 (mazeNew 64 13).w (mazeNew 64 13).h SPACE).fill 0 0 ((mazeNew 64 13).fill 0 0 (mazeNew 64 13).w (mazeNew 64 13).h SPACE).w 1 WALL_SURFACE).fill 0 0 1 (((mazeNew 64 13).fill 0 0 (mazeNew 64 13).w (mazeNew 64 13).h SPACE).fill 0 0 ((mazeNew 64 13).fill 0 0 (mazeNew 64 13).w (mazeNew 64 13).h SPACE).w 1 WALL_SURFACE).h WALL_MIDDLE).h WALL_MIDDLE).h - 1) (((((mazeNew 64 13).fill 0 0 (mazeNew 64 13).w (mazeNew 64 13).h SPACE).fill 0 0 ((mazeNew 64 13).fill 0 0 (mazeNew 64 13).w (mazeNew 64 13).h SPACE).w 1 WALL_SURFACE).fill 0 0 1 (((mazeNew 64 13).fill 0 0 (mazeNew 64 13).w (mazeNew 64 13).h SPACE).fill 0 0 ((mazeNew 64 13).fill 0 0 (mazeNew 64 13).w (mazeNew 64 13).h SPACE).w 1 WALL_SURFACE).h WALL_MIDDLE).fill (((((mazeNew 64 13).fill 0 0 (mazeNew 64 13).w (mazeNew 64 13).h SPACE).fill 0 0 ((mazeNew 64 13).fill 0 0 (mazeNew 64 13).w (mazeNew 64 13).h SPACE).w 1 WALL_SURFACE).fill 0 0 1 (((mazeNew 64 13).fill 0 0 (mazeNew 64 13).w (mazeNew 64 13).h SPACE).fill 0 0 ((mazeNew 64 13).fill 0 0 (mazeNew 64 13).w (mazeNew 64 13).h SPACE).w 1 WALL_SURFACE).h WALL_MIDDLE).w - 1) 0 1 ((((mazeNew 64 13).fill 0 0 (mazeNew 64 13).w (mazeNew 64 13).h SPACE).fill 0 0 ((mazeNew 64 13).fill 0 0 (mazeNew 64 13).w (mazeNew 64 13).h SPACE).w 1 WALL_SURFACE).fill 0 0 1 (((mazeNew 64 13).fill 0 0 (mazeNew 64 13).w (mazeNew 64 13).h SPACE).fill 0 0 ((mazeNew 64 13).fill 0 0 (mazeNew 64 13).w (mazeNew 64 13).h SPACE).w 1 WALL_SURFACE).h WALL_MIDDLE).h WALL_MIDDLE).w 1 WALL_MIDDLE).get a b = _
  have hg : ∀ x y : Int, (mazeNew 64 13).inGrid x y =
      ((0 ≤ x ∧ x < 64 ∧ 0 ≤ y ∧ y < 13 : Prop) : Bool) := by
    intro x y
    show ((0 ≤ x && x < (64:Int)) && 0 ≤ y && y < (13:Int)) = _
    simp [Bool.and_assoc, decide_eq_true_eq, and_assoc]
  have hw : (mazeNew 64 13).w = 64 := rfl
  have hh : (mazeNew 64 13).h = 13 := rfl
  rw [Maze.get_fill _ _ _ _ _ _
      (by norm_num [Maze.w_fill, Maze.h_fill, mazeNew])
      (by norm_num [Maze.w_fill, Maze.h_fill, mazeNew])
      (by simp only [Maze.walls_length_fill, Maze.w_fill, Maze.h_fill]
          exact mazeNew_wf 64 13), get_ifw_stage4]
  simp only [Maze.inGrid_fill, Maze.w_fill, Maze.h_fill, hg, hw, hh,
    decide_eq_true_eq]
  split_ifs <;> first | rfl | omega

/-- Reading the backing array directly is reading the grid at the
corresponding coordinates. -/
theorem Maze.getElem_walls (m : Maze)
    (hwf : m.walls.length = (m.w * m.h).toNat) (hw : 0 < m.w) (i : Nat)
    (hi : i < m.walls.length) :
    m.walls[i] = m.get ((i : Int) % m.w) ((i : Int) / m.w) := by
  have hx0 : (0:Int) ≤ (i : Int) % m.w := Int.emod_nonneg _ (by omega)
  have hxw : (i : Int) % m.w < m.w := Int.emod_lt_of_pos _ hw
  have hy0 : (0:Int) ≤ (i : Int) / m.w := Int.ediv_nonneg (by omega) hw.le
  have hiwh : (i : Int) < m.w * m.h := by
    have h1 : ((i:Nat) : Int) < (((m.w * m.h).toNat : Nat) : Int) := by
      exact_mod_cast hwf ▸ hi
    omega
  have hyh : (i : Int) / m.w < m.h := by
    rw [Int.ediv_lt_iff_lt_mul hw]
    calc (i : Int) < m.w * m.h := hiwh
    _ = m.h * m.w := mul_comm _ _
  have hin : m.inGrid ((i:Int) % m.w) ((i:Int) / m.w) = true := by
    unfold Maze.inGrid
    simp only [Bool.and_eq_true, decide_eq_true_eq]
    exact ⟨⟨⟨hx0, hxw⟩, hy0⟩, hyh⟩
  have hidx : m.w * ((i:Int) / m.w) + (i:Int) % m.w = (i : Int) :=
    Int.ediv_add_emod i m.w
  rw [Maze.get_eq_getElem _ _ _ hin (Maze.idx_lt m _ _ hwf hin)]
  congr 1
  rw [hidx]
  exact (Int.toNat_natCast i).symm

/-- The array the border initialisation produces, in closed form. -/
theorem walls_initialFloorAndWalls :
    (initialFloorAndWalls (mazeNew 64 13)).walls = levelStartWalls := by
  have hwfL : (initialFloorAndWalls (mazeNew 64 13)).walls.length =
      ((initialFloorAndWalls (mazeNew 64 13)).w *
        (initialFloorAndWalls (mazeNew 64 13)).h).toNat := by
    simp only [initialFloorAndWalls, Maze.walls_length_fill, Maze.w_fill,
      Maze.h_fill]
    exact mazeNew_wf 64 13
  have hw64 : (initialFloorAndWalls (mazeNew 64 13)).w = 64 := by
    simp only [initialFloorAndWalls, Maze.w_fill]
    rfl
  have hlen : (initialFloorAndWalls (mazeNew 64 13)).walls.length = 832 := by
    simp only [initialFloorAndWalls, Maze.walls_length_fill, mazeNew,
      List.length_replicate]
    decide
  apply List.ext_getElem
  · rw [hlen]
    simp [levelStartWalls]
  · intro i h1 h2
    rw [Maze.getElem_walls _ hwfL (by rw [hw64]; decide) i h1, hw64,
      get_initialFloorAndWalls]
    simp only [levelStartWalls, List.getElem_map, List.getElem_range]
    have hi832 : i < 832 := by rw [hlen] at h1; exact h1
    unfold levelTile
    split_ifs <;> first | rfl | omega

attribute [ext] Maze

set_option maxRecDepth 4000 in
/-- `initial_floor_and_walls` on a fresh 64×13 maze gives exactly the
closed-form level. -/
theorem initialFloorAndWalls_eq_levelStart :
    initialFloorAndWalls (mazeNew 64 13) = levelStart := by
  have hoob : (initialFloorAndWalls (mazeNew 64 13)).oobWrite = false := by
    simp only [initialFloorAndWalls]
    rw [Maze.oobWrite_fill, Maze.oobWrite_fill, Maze.oobWrite_fill,
      Maze.oobWrite_fill, Maze.oobWrite_fill]
    · rfl
    all_goals
      intro a b h1 h2 h3 h4
      simp only [Maze.w_fill, Maze.h_fill, Maze.inGrid_fill, Maze.inGrid,
        mazeNew] at *
      simp only [Bool.and_eq_true, decide_eq_true_eq]
      refine ⟨⟨⟨?_, ?_⟩, ?_⟩, ?_⟩ <;> omega
  refine Maze.ext ?_ ?_ walls_initialFloorAndWalls ?_ ?_ ?_ ?_ ?_ ?_ hoob
  all_goals
    simp only [initialFloorAndWalls, Maze.w_fill, Maze.h_fill,
      Maze.coins_fill, Maze.is_terminated_fill, Maze.is_new_level_fill,
      Maze.spawnx_fill, Maze.spawny_fill, Maze.monsters_fill]
  all_goals rfl

/-- `countP` over the tile array after writing a tile the predicate
rejects: the count drops by one exactly when the old cell matched. -/
theorem countP_maze_set_drop (p : Char → Bool) (m : Maze) (x y : Int)
    (c : Char) (hpc : p c = false) (hpj : p '?' = false) :
    ((m.set x y c).walls.countP p : Int) =
      m.walls.countP p - (if p (m.get x y) then 1 else 0) := by
  by_cases hg : m.get x y = '?'
  · rw [hg, hpj]
    unfold Maze.set
    by_cases hin : m.inGrid x y
    · rw [if_pos hin]
      by_cases hlen : (m.w * y + x).toNat < m.walls.length
      · -- the stored cell is literally the junk character
        have hcell : m.walls[(m.w * y + x).toNat] = '?' := by
          rw [← Maze.get_eq_getElem m x y hin hlen, hg]
        show ((m.walls.set (m.w * y + x).toNat c).countP p : Int) = _
        rw [List.countP_set p m.walls _ c hlen, hcell, hpj, hpc]
        simp
      · simp [List.set_eq_of_length_le (le_of_not_lt hlen)]
    · rw [if_neg hin]; simp
  · obtain ⟨hin, hlen⟩ := m.get_range x y hg
    unfold Maze.set
    rw [if_pos hin]
    show ((m.walls.set (m.w * y + x).toNat c).countP p : Int) = _
    rw [List.countP_set p m.walls _ c hlen]
    rw [Maze.get_eq_getElem m x y hin hlen]
    have hb := List.boole_getElem_le_countP p m.walls (m.w * y + x).toNat hlen
    simp only [hpc, Bool.false_eq_true, if_false, Nat.add_zero]
    by_cases hcell : p m.walls[(m.w * y + x).toNat]
    · rw [if_pos hcell] at hb ⊢
      rw [Nat.cast_sub hb]
      simp [hcell]
    · rw [if_neg hcell]
      simp [hcell]

/-- `countP` after writing a tile the predicate accepts over a cell it
rejects: the count grows by one. -/
theorem countP_maze_set_add (p : Char → Bool) (m : Maze) (x y : Int)
    (c : Char) (hpc : p c = true) (hold : p (m.get x y) = false)
    (hne : m.get x y ≠ '?') :
    (m.set x y c).walls.countP p = m.walls.countP p + 1 := by
  obtain ⟨hin, hlen⟩ := m.get_range x y hne
  have hset : m.set x y c = { m with walls := m.walls.set (m.w * y + x).toNat c } := by
    unfold Maze.set
    rw [if_pos hin]
  rw [hset]
  show (m.walls.set (m.w * y + x).toNat c).countP p = _
  rw [List.countP_set p m.walls _ c hlen]
  rw [Maze.get_eq_getElem m x y hin hlen] at hold
  simp [hold, hpc]

/-- Every `eat_coin` call preserves `maze->coins - #coin-tiles`: a coin
pickup decrements both, a gem pickup touches neither, lethal tiles touch
neither. -/
theorem mazeD_eatCoin (s : Sim) (x y : Int) :
    mazeD (eatCoin s x y).maze = mazeD s.maze := by
  unfold eatCoin
  by_cases hco : is_coin (s.maze.get x y)
  · have hobj : s.maze.get x y = '1' := by
      have h := hco
      unfold is_coin COIN_OBJ1 at h
      exact beq_iff_eq.mp h
    have hlethal : is_lethal (s.maze.get x y) = false := by rw [hobj]; decide
    have hgem : is_gem (s.maze.get x y) = false := by rw [hobj]; decide
    simp only [hco, hlethal, hgem, Bool.false_eq_true, if_false, if_true]
    have hdrop := countP_maze_set_drop (fun c => is_coin c) s.maze x y SPACE
      (by decide) (by decide)
    simp only [hco, if_true, if_pos] at hdrop
    unfold mazeD coinTiles
    split <;>
    · simp only [Maze.coins_set]
      omega
  · have hco' : is_coin (s.maze.get x y) = false := by
      simpa using hco
    simp only [hco', Bool.false_eq_true, if_false]
    by_cases hgem : is_gem (s.maze.get x y)
    · have hobj : s.maze.get x y = '2' := by
        have h := hgem
        unfold is_gem COIN_OBJ2 at h
        exact beq_iff_eq.mp h
      have hlethal : is_lethal (s.maze.get x y) = false := by rw [hobj]; decide
      simp only [hgem, hlethal, Bool.false_eq_true, if_false, if_true]
      have hdrop := countP_maze_set_drop (fun c => is_coin c) s.maze x y SPACE
        (by decide) (by decide)
      simp only [hco', Bool.false_eq_true, if_false] at hdrop
      unfold mazeD coinTiles
      simp only [Maze.coins_set]
      omega
    · have hgem' : is_gem (s.maze.get x y) = false := by
        simpa using hgem
      simp only [hgem', Bool.false_eq_true, if_false]
      split <;> rfl

/-- The invariant extends to any pickup sequence. -/
theorem mazeD_eatSeq (s : Sim) (ps : List (Int × Int)) :
    mazeD (eatSeq s ps).maze = mazeD s.maze := by
  induction ps generalizing s with
  | nil => rfl
  | cons p rest ih =>
    show mazeD (eatSeq (eatCoin s p.1 p.2) rest).maze = _
    rw [ih, mazeD_eatCoin]

/-- `coinTiles` never increases under a pickup, so it stays a `Nat`; more
precisely, a pickup changes the tile array only by writing `SPACE`. -/
theorem placeTile_cg (m : Maze) (x y : Int) (tile : Char)
    (hgood : goodPlace m x y = true)
    (ht : tile = COIN_OBJ1 ∨ tile = COIN_OBJ2) :
    coinTiles (m.set x y tile) + gemTiles (m.set x y tile)
      = coinTiles m + gemTiles m + 1 := by
  have hcell : m.get x y = SPACE ∨ m.get x y = WALKING_MONSTER := by
    unfold goodPlace at hgood
    simp only [Bool.and_eq_true, Bool.or_eq_true, beq_iff_eq] at hgood
    exact hgood.1.1.1.1.1.1.1
  have hnc : is_coin (m.get x y) = false := by
    rcases hcell with h | h <;> rw [h] <;> decide
  have hng : is_gem (m.get x y) = false := by
    rcases hcell with h | h <;> rw [h] <;> decide
  have hne : m.get x y ≠ '?' := by
    rcases hcell with h | h <;> rw [h] <;> decide
  unfold coinTiles gemTiles
  rcases ht with h | h <;> subst h
  · have h1 := countP_maze_set_add (fun c => is_coin c) m x y COIN_OBJ1
      (by decide) hnc hne
    have h2 := countP_maze_set_drop (fun c => is_gem c) m x y COIN_OBJ1
      (by decide) (by decide)
    simp only [hng, Bool.false_eq_true, if_false] at h2
    omega
  · have h1 := countP_maze_set_add (fun c => is_gem c) m x y COIN_OBJ2
      (by decide) hng hne
    have h2 := countP_maze_set_drop (fun c => is_coin c) m x y COIN_OBJ2
      (by decide) (by decide)
    simp only [hnc, Bool.false_eq_true, if_false] at h2
    omega

/-- The main induction over the `place_coins` loop: the trace collects one
entry per successful placement; the counter equals the number of entries;
every entry satisfied `good_place` against its snapshot; the coin+gem tile
count grows by exactly the number of entries; untouched cells keep their
old tile; placed cells keep their tile to the end. -/
theorem placeCoinsGo_run (σ : Nat → Nat) (stack : List RecPt) :
    ∀ (pos : Nat) (m : Maze) (cnt : Int) (tr : List PlaceEv),
    ∃ new : List PlaceEv,
      (placeCoinsGo σ stack pos m cnt tr).2.2.2 = tr ++ new ∧
      (placeCoinsGo σ stack pos m cnt tr).2.2.1 = cnt + new.length ∧
      (∀ e ∈ new, goodPlace e.snap e.anchor.x e.anchor.y = true ∧
        e.tile = (if 9 ≤ e.draw % 10 then COIN_OBJ2 else COIN_OBJ1)) ∧
      coinTiles (placeCoinsGo σ stack pos m cnt tr).1
          + gemTiles (placeCoinsGo σ stack pos m cnt tr).1
        = coinTiles m + gemTiles m + new.length ∧
      (∀ x y, (∀ e ∈ new, ¬(e.anchor.x = x ∧ e.anchor.y = y)) →
        (placeCoinsGo σ stack pos m cnt tr).1.get x y = m.get x y) ∧
      ((∀ e ∈ tr, m.get e.anchor.x e.anchor.y = e.tile ∧
           (e.tile = COIN_OBJ1 ∨ e.tile = COIN_OBJ2)) →
       ∀ e ∈ (placeCoinsGo σ stack pos m cnt tr).2.2.2,
         (placeCoinsGo σ stack pos m cnt tr).1.get e.anchor.x e.anchor.y
             = e.tile ∧
         (e.tile = COIN_OBJ1 ∨ e.tile = COIN_OBJ2)) := by
  induction stack with
  | nil =>
    intro pos m cnt tr
    refine ⟨[], by simp [placeCoinsGo], by simp [placeCoinsGo], by simp, ?_, ?_, ?_⟩
    · simp [placeCoinsGo]
    · intro x y _
      simp [placeCoinsGo]
    · intro h e he
      simp only [placeCoinsGo] at he ⊢
      exact h e he
  | cons r rest ih =>
    intro pos m cnt tr
    by_cases hgood : goodPlace m r.x r.y
    · -- a placement happens at `r`
      set tile := if 9 ≤ σ pos % 10 then COIN_OBJ2 else COIN_OBJ1 with htile
      have hti : tile = COIN_OBJ1 ∨ tile = COIN_OBJ2 := by
        rw [htile]
        split
        · right; rfl
        · left; rfl
      have hcell : m.get r.x r.y = SPACE ∨ m.get r.x r.y = WALKING_MONSTER := by
        unfold goodPlace at hgood
        simp only [Bool.and_eq_true, Bool.or_eq_true, beq_iff_eq] at hgood
        exact hgood.1.1.1.1.1.1.1
      have hne : m.get r.x r.y ≠ '?' := by
        rcases hcell with h | h <;> rw [h] <;> decide
      have hstep : placeCoinsGo σ (r :: rest) pos m cnt tr =
          placeCoinsGo σ rest (pos+1) (m.set r.x r.y tile) (cnt+1)
            (tr ++ [⟨r, m, σ pos, tile⟩]) := by
        show (if goodPlace m r.x r.y then _ else _) = _
        rw [if_pos hgood]
      obtain ⟨new, h1, h2, h3, h4, h5, h6⟩ :=
        ih (pos+1) (m.set r.x r.y tile) (cnt+1) (tr ++ [⟨r, m, σ pos, tile⟩])
      refine ⟨⟨r, m, σ pos, tile⟩ :: new, ?_, ?_, ?_, ?_, ?_, ?_⟩
      · rw [hstep, h1]
        simp
      · rw [hstep, h2]
        simp
        omega
      · intro e he
        rcases List.mem_cons.mp he with he | he
        · subst he
          exact ⟨hgood, htile⟩
        · exact h3 e he
      · rw [hstep]
        rw [h4, placeTile_cg m r.x r.y tile hgood hti]
        simp
        omega
      · intro x y hxy
        rw [hstep, h5 x y (fun e he => hxy e (List.mem_cons_of_mem _ he))]
        exact Maze.get_set_ne m x y r.x r.y tile
          (hxy ⟨r, m, σ pos, tile⟩ (List.mem_cons_self _ _))
      · intro hpre e he
        rw [hstep] at he ⊢
        apply h6 _ e he
        intro e' he'
        rcases List.mem_append.mp he' with he' | he'
        · obtain ⟨hold, holdt⟩ := hpre e' he'
          have hner : ¬(r.x = e'.anchor.x ∧ r.y = e'.anchor.y) := by
            intro hxy
            obtain ⟨hx, hy⟩ := hxy
            rw [← hx, ← hy] at hold
            rcases hcell with h | h <;> rcases holdt with h' | h' <;>
              rw [h, h'] at hold <;> exact absurd hold (by decide)
          refine ⟨?_, holdt⟩
          rw [Maze.get_set_ne m e'.anchor.x e'.anchor.y r.x r.y tile hner]
          exact hold
        · have he'' : e' = ⟨r, m, σ pos, tile⟩ := by simpa using he'
          subst he''
          exact ⟨Maze.get_set_self m r.x r.y tile hne, hti⟩
    · -- the anchor is discarded
      have hstep : placeCoinsGo σ (r :: rest) pos m cnt tr =
          placeCoinsGo σ rest pos m cnt tr := by
        show (if goodPlace m r.x r.y then _ else _) = _
        rw [if_neg hgood]
      obtain ⟨new, h1, h2, h3, h4, h5, h6⟩ := ih pos m cnt tr
      rw [hstep]
      exact ⟨new, h1, h2, h3, h4, h5, h6⟩

/-! ## Theorems for the claims -/

/-- C1 counterexample: eating the coin that brings the counter to zero
awards exactly +10 that tick, not `1 + 10`.  A 3×3 maze holds its single
remaining coin at (1,1); the agent starts with reward 0 and eating the
coin yields reward 10, which is not 11. -/
theorem C1_counterexample :
    (eatCoin c1Sim 1 1).ag.reward = 10 ∧
    ¬ (eatCoin c1Sim 1 1).ag.reward = 1 + 10 := by
  constructor
  · show (0 : ℚ) + 10 = 10
    norm_num
  · intro h
    have h2 : (0 : ℚ) + 10 = 1 + 10 := h
    norm_num at h2

/-- C1 (amended): eating a coin tile when the counter is 1 (so it drops to
zero) awards a reward of exactly +10 that tick — the completion bonus
replaces the per-coin +1 — sets the maze's terminated flag, and sets the
finished-level countdown to `FINISHED_LEVEL_ANIM_LENGTH` (= 20). -/
theorem C1_last_coin_awards_ten (s : Sim) (x y : Int)
    (hc : is_coin (s.maze.get x y) = true)
    (h1 : s.maze.coins = 1) :
    (eatCoin s x y).ag.reward = s.ag.reward + 10 ∧
    (eatCoin s x y).maze.is_terminated = true ∧
    (eatCoin s x y).ag.finished_level_frame_cnt = FINISHED_LEVEL_ANIM_LENGTH := by
  have hobj : s.maze.get x y = '1' := by
    have : (s.maze.get x y == COIN_OBJ1) = true := hc
    simpa [COIN_OBJ1] using this
  simp only [eatCoin, hobj]
  simp +decide [is_lethal, is_coin, is_gem, LAVA_SURFACE, LAVA_MIDDLE, SPIKE_OBJ,
                COIN_OBJ1, COIN_OBJ2, Maze.coins_set, h1]

/-- Placed tiles are coins or gems, and those two counts sum to the trace
length. -/
theorem countP_coin_gem_length (l : List PlaceEv)
    (h : ∀ e ∈ l, e.tile = COIN_OBJ1 ∨ e.tile = COIN_OBJ2) :
    l.countP (fun e => is_coin e.tile) + l.countP (fun e => is_gem e.tile)
      = l.length := by
  induction l with
  | nil => rfl
  | cons e rest ih =>
    have he := h e (List.mem_cons_self _ _)
    have hr := ih (fun e' he' => h e' (List.mem_cons_of_mem _ he'))
    rcases he with h' | h' <;>
      simp +decide [List.countP_cons, List.length_cons, h', is_coin,
        is_gem, COIN_OBJ1, COIN_OBJ2] at hr ⊢ <;> omega

/-- C2: during placement the counter counts both coins and gems; a gem
pickup removes the tile without touching the counter; consequently a
generated maze that contains a gem can never have its counter reach zero
under any pickup sequence. -/
theorem C2_gem_blocks_completion (σ : Nat → Nat) (pos : Nat) (m0 : Maze)
    (stack : List RecPt) (hc0 : coinTiles m0 = 0) (hg0 : gemTiles m0 = 0) :
    ((placeCoins σ pos m0 stack).1.coins : Int)
        = ((placeCoins σ pos m0 stack).2.2.countP (fun e => is_coin e.tile) : Int)
          + ((placeCoins σ pos m0 stack).2.2.countP (fun e => is_gem e.tile) : Int) ∧
    (∀ s x y, is_gem (s.maze.get x y) = true →
      (eatCoin s x y).maze.coins = s.maze.coins ∧
      (eatCoin s x y).maze.get x y = SPACE) ∧
    (∀ (s : Sim) (ps : List (Int × Int)),
      s.maze = (placeCoins σ pos m0 stack).1 →
      1 ≤ gemTiles (placeCoins σ pos m0 stack).1 →
      1 ≤ (eatSeq s ps).maze.coins) := by
  obtain ⟨new, h1, h2, h3, h4, h5, h6⟩ :=
    placeCoinsGo_run σ stack.reverse pos m0 0 []
  have hpc : placeCoins σ pos m0 stack =
      ({ (placeCoinsGo σ stack.reverse pos m0 0 []).1 with
          coins := (placeCoinsGo σ stack.reverse pos m0 0 []).2.2.1 },
       (placeCoinsGo σ stack.reverse pos m0 0 []).2.1,
       (placeCoinsGo σ stack.reverse pos m0 0 []).2.2.2) := rfl
  have htiles : ∀ e ∈ new, e.tile = COIN_OBJ1 ∨ e.tile = COIN_OBJ2 := by
    intro e he
    rw [(h3 e he).2]
    split
    · right; rfl
    · left; rfl
  have hcgsum : coinTiles (placeCoins σ pos m0 stack).1
      + gemTiles (placeCoins σ pos m0 stack).1 = new.length := by
    rw [hpc]
    show coinTiles (placeCoinsGo σ stack.reverse pos m0 0 []).1
        + gemTiles (placeCoinsGo σ stack.reverse pos m0 0 []).1 = _
    rw [h4, hc0, hg0]
    omega
  have hcoins : (placeCoins σ pos m0 stack).1.coins = (new.length : Int) := by
    rw [hpc]
    show (placeCoinsGo σ stack.reverse pos m0 0 []).2.2.1 = _
    rw [h2]
    simp
  have htr : (placeCoins σ pos m0 stack).2.2 = new := by
    rw [hpc]
    show (placeCoinsGo σ stack.reverse pos m0 0 []).2.2.2 = new
    rw [h1]
    rfl
  refine ⟨?_, ?_, ?_⟩
  · rw [hcoins, htr]
    have := countP_coin_gem_length new htiles
    omega
  · intro s x y hg
    have hobj : s.maze.get x y = '2' := by
      have h := hg
      unfold is_gem COIN_OBJ2 at h
      exact beq_iff_eq.mp h
    have hlethal : is_lethal (s.maze.get x y) = false := by rw [hobj]; decide
    have hcoin : is_coin (s.maze.get x y) = false := by rw [hobj]; decide
    have hne : s.maze.get x y ≠ '?' := by rw [hobj]; decide
    unfold eatCoin
    simp only [hlethal, hcoin, hg, Bool.false_eq_true, if_false, if_true]
    exact ⟨Maze.coins_set _ _ _ _, Maze.get_set_self _ _ _ _ hne⟩
  · intro s ps hs hgem
    have hD : mazeD (eatSeq s ps).maze = mazeD s.maze := mazeD_eatSeq s ps
    have hDs : mazeD s.maze = (gemTiles (placeCoins σ pos m0 stack).1 : Int) := by
      rw [hs]
      unfold mazeD
      rw [hcoins]
      omega
    have hend : (0 : Int) ≤ coinTiles (eatSeq s ps).maze := by positivity
    unfold mazeD at hD hDs
    omega

/-- Witness for `C2_gem_blocks_completion`: the concrete shelf maze with a
single anchor; the constant-9 stream places a gem there. -/
theorem C2_gem_blocks_completion_witness :
    ((placeCoins (fun _ => 9) 0 c2Maze [⟨2,3⟩]).1.coins : Int)
        = ((placeCoins (fun _ => 9) 0 c2Maze [⟨2,3⟩]).2.2.countP
            (fun e => is_coin e.tile) : Int)
          + ((placeCoins (fun _ => 9) 0 c2Maze [⟨2,3⟩]).2.2.countP
            (fun e => is_gem e.tile) : Int) ∧
    (∀ s x y, is_gem (s.maze.get x y) = true →
      (eatCoin s x y).maze.coins = s.maze.coins ∧
      (eatCoin s x y).maze.get x y = SPACE) ∧
    (∀ (s : Sim) (ps : List (Int × Int)),
      s.maze = (placeCoins (fun _ => 9) 0 c2Maze [⟨2,3⟩]).1 →
      1 ≤ gemTiles (placeCoins (fun _ => 9) 0 c2Maze [⟨2,3⟩]).1 →
      1 ≤ (eatSeq s ps).maze.coins) :=
  C2_gem_blocks_completion (fun _ => 9) 0 c2Maze [⟨2,3⟩] (by decide) (by decide)

/-- C6: every tile written by `place_coins` satisfied `good_place` against
the maze at the moment of placement (anchor cell and its left, right and
above neighbours open — `SPACE` or the walking-monster marker — and the
three cells beneath solid with crates counting); anchors are processed
once, rejected anchors leave the maze untouched; and the placed tile is a
gem for exactly one of the ten residues of the draw (9) and a coin for the
other nine. -/
theorem C6_placement_predicate (σ : Nat → Nat) (pos : Nat) (m0 : Maze)
    (stack : List RecPt) :
    (∀ e ∈ (placeCoins σ pos m0 stack).2.2,
        goodPlace e.snap e.anchor.x e.anchor.y = true ∧
        (placeCoins σ pos m0 stack).1.get e.anchor.x e.anchor.y = e.tile ∧
        (e.tile = COIN_OBJ2 ↔ e.draw % 10 = 9) ∧
        (e.tile = COIN_OBJ1 ↔ e.draw % 10 ≤ 8)) ∧
    (∀ x y, (∀ e ∈ (placeCoins σ pos m0 stack).2.2,
        ¬(e.anchor.x = x ∧ e.anchor.y = y)) →
      (placeCoins σ pos m0 stack).1.get x y = m0.get x y) ∧
    ((List.range 10).filter (fun d => 9 ≤ d % 10)).length = 1 ∧
    ((List.range 10).filter (fun d => d % 10 ≤ 8)).length = 9 := by
  obtain ⟨new, h1, h2, h3, h4, h5, h6⟩ :=
    placeCoinsGo_run σ stack.reverse pos m0 0 []
  have hpc : placeCoins σ pos m0 stack =
      ({ (placeCoinsGo σ stack.reverse pos m0 0 []).1 with
          coins := (placeCoinsGo σ stack.reverse pos m0 0 []).2.2.1 },
       (placeCoinsGo σ stack.reverse pos m0 0 []).2.1,
       (placeCoinsGo σ stack.reverse pos m0 0 []).2.2.2) := rfl
  have htr : (placeCoins σ pos m0 stack).2.2 = new := by
    rw [hpc]
    show (placeCoinsGo σ stack.reverse pos m0 0 []).2.2.2 = new
    rw [h1]
    rfl
  have hget : ∀ x y, (placeCoins σ pos m0 stack).1.get x y
      = (placeCoinsGo σ stack.reverse pos m0 0 []).1.get x y := by
    intro x y
    rw [hpc]
    rfl
  refine ⟨?_, ?_, by decide, by decide⟩
  · intro e he
    rw [htr] at he
    have h3e := h3 e he
    have h6e := h6 (by intro e' he'; cases he') e (by rw [h1]; simpa using he)
    refine ⟨h3e.1, ?_, ?_, ?_⟩
    · rw [hget]
      exact h6e.1
    · rw [h3e.2]
      constructor
      · intro ht
        by_contra hne
        rw [if_neg ?_] at ht
        · exact absurd ht (by decide)
        · omega
      · intro hd
        rw [if_pos (by omega)]
    · rw [h3e.2]
      constructor
      · intro ht
        by_contra hne
        rw [if_pos ?_] at ht
        · exact absurd ht (by decide)
        · omega
      · intro hd
        rw [if_neg (by omega)]
  · intro x y hxy
    rw [htr] at hxy
    rw [hget]
    exact h5 x y hxy

/-- Witness for `C1_last_coin_awards_ten` at the concrete 3×3 maze. -/
theorem C1_last_coin_awards_ten_witness :
    (eatCoin c1Sim 1 1).ag.reward = c1Sim.ag.reward + 10 ∧
    (eatCoin c1Sim 1 1).maze.is_terminated = true ∧
    (eatCoin c1Sim 1 1).ag.finished_level_frame_cnt = FINISHED_LEVEL_ANIM_LENGTH :=
  C1_last_coin_awards_ten c1Sim 1 1 (by decide) (by decide)

/-- C5: the stomp/death tie-break.  If the horizontal distance is below
0.6, the vertical offset lies strictly in (0,1) and the archetype is
stompable, the monster dies (death flag, fixed countdown) and the agent
earns the kill reward; otherwise an overlap with Manhattan distance below
1.0 against a non-power-up agent kills the agent and terminates the
episode, leaving the monster unchanged. -/
theorem C5_stomp_vs_death (cfg : Config) (m : Monster) (s : Sim) :
    ((|m.x - s.ag.x| < 6/10 ∧ s.ag.y - m.y < 1 ∧ s.ag.y - m.y > 0 ∧
        canBeKilled m.theme_n = true) →
      (monsterTouch cfg m s).1.is_dead = true ∧
      (monsterTouch cfg m s).1.monster_dying_frame_cnt
          = MONSTER_DEATH_ANIM_LENGTH - 1 ∧
      (monsterTouch cfg m s).2.ag.reward
          = s.ag.reward + cfg.KILL_MONSTER_REWARD ∧
      (monsterTouch cfg m s).2.ag.killed_monster = true) ∧
    (¬(|m.x - s.ag.x| < 6/10 ∧ s.ag.y - m.y < 1 ∧ s.ag.y - m.y > 0 ∧
        canBeKilled m.theme_n = true) →
      (|m.x - s.ag.x| + |m.y - s.ag.y| < 1 ∧ s.ag.power_up_mode = false) →
      (monsterTouch cfg m s).2.ag.is_killed = true ∧
      (monsterTouch cfg m s).2.maze.is_terminated = true ∧
      (monsterTouch cfg m s).2.ag.killed_animation_frame_cnt
          = DEATH_ANIM_LENGTH ∧
      (monsterTouch cfg m s).1 = m) := by
  constructor
  · intro h
    unfold monsterTouch
    rw [if_pos h]
    exact ⟨rfl, rfl, rfl, rfl⟩
  · intro h1 h2
    unfold monsterTouch
    rw [if_neg h1, if_pos h2]
    exact ⟨rfl, rfl, rfl, rfl⟩

/-- Witness for `C5_stomp_vs_death`: both branches at concrete geometry.
The stomp case uses agent (1/2, 1/2) over a slimeBlock at the origin; the
death case uses agent (1/5, -3/10) below it. -/
theorem C5_stomp_vs_death_witness :
    ((|c5Monster.x - c5SimStomp.ag.x| < 6/10 ∧
      c5SimStomp.ag.y - c5Monster.y < 1 ∧
      c5SimStomp.ag.y - c5Monster.y > 0 ∧
      canBeKilled c5Monster.theme_n = true) ∧
     (monsterTouch {} c5Monster c5SimStomp).1.is_dead = true) ∧
    ((¬(|c5Monster.x - c5SimKill.ag.x| < 6/10 ∧
        c5SimKill.ag.y - c5Monster.y < 1 ∧
        c5SimKill.ag.y - c5Monster.y > 0 ∧
        canBeKilled c5Monster.theme_n = true) ∧
      (|c5Monster.x - c5SimKill.ag.x| + |c5Monster.y - c5SimKill.ag.y| < 1 ∧
        c5SimKill.ag.power_up_mode = false)) ∧
     (monsterTouch {} c5Monster c5SimKill).2.ag.is_killed = true) := by
  have hstomp : |c5Monster.x - c5SimStomp.ag.x| < 6/10 ∧
      c5SimStomp.ag.y - c5Monster.y < 1 ∧
      c5SimStomp.ag.y - c5Monster.y > 0 ∧
      canBeKilled c5Monster.theme_n = true := by
    refine ⟨?_, ?_, ?_, rfl⟩ <;> norm_num [c5Monster, c5SimStomp, abs]
  have hnostomp : ¬(|c5Monster.x - c5SimKill.ag.x| < 6/10 ∧
      c5SimKill.ag.y - c5Monster.y < 1 ∧
      c5SimKill.ag.y - c5Monster.y > 0 ∧
      canBeKilled c5Monster.theme_n = true) := by
    intro h
    have := h.2.2.1
    norm_num [c5Monster, c5SimKill] at this
  have hkill : |c5Monster.x - c5SimKill.ag.x| + |c5Monster.y - c5SimKill.ag.y| < 1 ∧
      c5SimKill.ag.power_up_mode = false := by
    refine ⟨?_, rfl⟩
    norm_num [c5Monster, c5SimKill, abs]
  exact ⟨⟨hstomp, ((C5_stomp_vs_death {} c5Monster c5SimStomp).1 hstomp).1⟩,
         ⟨⟨hnostomp, hkill⟩,
          ((C5_stomp_vs_death {} c5Monster c5SimKill).2 hnostomp hkill).1⟩⟩

/-- C4 counterexample: submitting a batch while an instance is still
`ready` is not fatal — `vec_step_async_discrete` contains no check of
`agent_ready`/`step_in_progress`, so the call succeeds (the only assert is
the action-range one). -/
theorem C4_counterexample :
    (vecStepAsyncDiscrete [c4Inst] [1] []).isSome = true := by decide

/-- The inner induction for `vec_step_async_discrete`: the call aborts iff
some action index is out of range, and on success every instance is
marked ready and the instance indices are appended to the queue in group
order — regardless of the prior `agent_ready`/`step_in_progress` flags. -/
theorem vsadGo_spec (insts : List InstSt) :
    ∀ (e : Nat) (actions : List Int) (todo : List Nat),
    insts.length = actions.length →
    ((vsadGo e insts actions todo).isSome ↔
      ∀ a ∈ actions, 0 ≤ a ∧ a < NUM_ACTIONS) ∧
    (∀ r, vsadGo e insts actions todo = some r →
      r.1.length = insts.length ∧
      (∀ i ∈ r.1, i.agent_ready = true) ∧
      r.2 = todo ++ List.range' e insts.length) := by
  induction insts with
  | nil =>
    intro e actions todo hlen
    have ha : actions = [] := by
      cases actions with
      | nil => rfl
      | cons a as => simp at hlen
    subst ha
    constructor
    · simp [vsadGo]
    · intro r hr
      simp only [vsadGo] at hr
      cases hr
      simp [List.range']
  | cons inst rest ih =>
    intro e actions todo hlen
    cases actions with
    | nil => simp at hlen
    | cons a as =>
      have hlen' : rest.length = as.length := by simpa using hlen
      by_cases hok : 0 ≤ a ∧ a < NUM_ACTIONS
      · have hstep : vsadGo e (inst :: rest) (a :: as) todo =
            match vsadGo (e+1) rest as (todo ++ [e]) with
            | none => none
            | some (rest', todo') =>
              some ({ inst with
                        sim := { inst.sim with ag := { inst.sim.ag with
                          action_dx := DISCRETE_ACTIONS.getD (2 * a.toNat) 0,
                          action_dy := DISCRETE_ACTIONS.getD (2 * a.toNat + 1) 0 } },
                        agent_ready := true } :: rest', todo') := by
          show (if 0 ≤ a ∧ a < NUM_ACTIONS then _ else _) = _
          rw [if_pos hok]
        obtain ⟨ih1, ih2⟩ := ih (e+1) as (todo ++ [e]) hlen'
        rw [hstep]
        cases hrec : vsadGo (e+1) rest as (todo ++ [e]) with
        | none =>
          simp only [hrec] at ih1
          constructor
          · constructor
            · intro hs
              simp at hs
            · intro hall
              have hne : ∀ a' ∈ as, 0 ≤ a' ∧ a' < NUM_ACTIONS :=
                fun a' ha' => hall a' (List.mem_cons_of_mem _ ha')
              have hcontra := ih1.mpr hne
              simp at hcontra
          · intro r hr
            cases hr
        | some r' =>
          simp only [hrec] at ih1
          obtain ⟨rest', todo'⟩ := r'
          obtain ⟨g1, g2, g3⟩ := ih2 (rest', todo') hrec
          simp only at g1 g2 g3
          constructor
          · constructor
            · intro _ a' ha'
              rcases List.mem_cons.mp ha' with h | h
              · subst h; exact hok
              · exact (ih1.mp (by simp)) a' h
            · intro _
              simp
          · intro r hr
            cases hr
            refine ⟨by simp [g1], ?_, ?_⟩
            · intro i hi
              rcases List.mem_cons.mp hi with h | h
              · subst h; rfl
              · exact g2 i h
            · show todo' = todo ++ List.range' e (rest.length + 1)
              rw [g3, List.range'_succ]
              simp
      · have hstep : vsadGo e (inst :: rest) (a :: as) todo = none := by
          show (if 0 ≤ a ∧ a < NUM_ACTIONS then _ else _) = _
          rw [if_neg hok]
        rw [hstep]
        constructor
        · constructor
          · intro hs
            simp at hs
          · intro hall
            exact absurd (hall a (List.mem_cons_self _ _)) hok
        · intro r hr
          cases hr

/-- C4 (amended): `vec_step_async_discrete` aborts exactly when an action
index is out of `[0, NUM_ACTIONS)`; it never inspects `agent_ready` or
`step_in_progress`, so re-submitting a group whose instances are still
ready or in-progress is silently accepted: all instances are re-marked
ready and re-enqueued. -/
theorem C4_submit_aborts_only_on_bad_action (insts : List InstSt)
    (actions : List Int) (todo : List Nat)
    (hlen : insts.length = actions.length) :
    ((vecStepAsyncDiscrete insts actions todo).isSome ↔
      ∀ a ∈ actions, 0 ≤ a ∧ a < NUM_ACTIONS) ∧
    (∀ r, vecStepAsyncDiscrete insts actions todo = some r →
      r.1.length = insts.length ∧
      (∀ i ∈ r.1, i.agent_ready = true) ∧
      r.2 = todo ++ List.range insts.length) := by
  obtain ⟨h1, h2⟩ := vsadGo_spec insts 0 actions todo hlen
  refine ⟨h1, ?_⟩
  intro r hr
  obtain ⟨g1, g2, g3⟩ := h2 r hr
  refine ⟨g1, g2, ?_⟩
  rw [g3, List.range_eq_range']

/-- Witness for `C4_submit_aborts_only_on_bad_action` on a single-instance
group whose instance is still ready, with valid action 1. -/
theorem C4_submit_aborts_only_on_bad_action_witness :
    ([c4Inst].length = [(1 : Int)].length) ∧
    (((vecStepAsyncDiscrete [c4Inst] [1] []).isSome ↔
      ∀ a ∈ [(1 : Int)], 0 ≤ a ∧ a < NUM_ACTIONS) ∧
    (∀ r, vecStepAsyncDiscrete [c4Inst] [1] [] = some r →
      r.1.length = [c4Inst].length ∧
      (∀ i ∈ r.1, i.agent_ready = true) ∧
      r.2 = [] ++ List.range [c4Inst].length)) :=
  ⟨by decide,
   C4_submit_aborts_only_on_bad_action [c4Inst] [1] [] (by decide)⟩

/-- C8: once all instances of the group are idle (the barrier's
`all_steps_completed` condition), `vec_wait` produces per-instance
reward/done/new-level values index-aligned to the group's instance order,
and clears each instance's reward to 0 and its flags to false. -/
theorem C8_wait_copy_clear (insts : List InstSt)
    (hidle : ∀ i ∈ insts, i.agent_ready = false) :
    (vecWait insts).1.length = insts.length ∧
    (vecWait insts).2.1.length = insts.length ∧
    (vecWait insts).2.2.1.length = insts.length ∧
    (vecWait insts).2.2.2.length = insts.length ∧
    (∀ e, e < insts.length →
      (vecWait insts).1.getD e 0 = (insts.getD e default).sim.ag.reward ∧
      (vecWait insts).2.1.getD e false
          = (insts.getD e default).sim.ag.game_over ∧
      (vecWait insts).2.2.1.getD e false
          = (insts.getD e default).sim.maze.is_new_level ∧
      ((vecWait insts).2.2.2.getD e default).sim.ag.reward = 0 ∧
      ((vecWait insts).2.2.2.getD e default).sim.ag.game_over = false ∧
      ((vecWait insts).2.2.2.getD e default).sim.maze.is_new_level = false) := by
  clear hidle
  induction insts with
  | nil =>
    refine ⟨rfl, rfl, rfl, rfl, ?_⟩
    intro e he
    simp at he
  | cons i rest ih =>
    obtain ⟨l1, l2, l3, l4, helem⟩ := ih
    refine ⟨?_, ?_, ?_, ?_, ?_⟩
    · show (vecWaitGo rest).1.length + 1 = rest.length + 1
      rw [show (vecWaitGo rest).1.length = rest.length from l1]
    · show (vecWaitGo rest).2.1.length + 1 = rest.length + 1
      rw [show (vecWaitGo rest).2.1.length = rest.length from l2]
    · show (vecWaitGo rest).2.2.1.length + 1 = rest.length + 1
      rw [show (vecWaitGo rest).2.2.1.length = rest.length from l3]
    · show (vecWaitGo rest).2.2.2.length + 1 = rest.length + 1
      rw [show (vecWaitGo rest).2.2.2.length = rest.length from l4]
    · intro e he
      cases e with
      | zero => exact ⟨rfl, rfl, rfl, rfl, rfl, rfl⟩
      | succ e' =>
        have he' : e' < rest.length := by
          simpa using Nat.lt_of_succ_lt_succ he
        exact helem e' he'

/-- Witness for `C8_wait_copy_clear` on a one-instance idle group. -/
theorem C8_wait_copy_clear_witness :
    (∀ i ∈ [c8Inst], i.agent_ready = false) ∧
    (vecWait [c8Inst]).1.length = [c8Inst].length ∧
    (∀ e, e < [c8Inst].length →
      (vecWait [c8Inst]).1.getD e 0
          = ([c8Inst].getD e default).sim.ag.reward) :=
  ⟨by decide,
   (C8_wait_copy_clear [c8Inst] (by decide)).1,
   fun e he => ((C8_wait_copy_clear [c8Inst] (by decide)).2.2.2.2 e he).1⟩

/-- C3: generation is a pure function of the seed.  Any two runs whose raw
draw streams both equal the freshly seeded engine stream `mtStream seed`
produce the same result, that result is `generate seed`, and the tile
grids and coin counts of the two runs are bit-identical. -/
theorem C3_generation_deterministic (seed : Int) (σ1 σ2 : Nat → Nat)
    (h1 : ∀ n, σ1 n = mtStream seed n) (h2 : ∀ n, σ2 n = mtStream seed n) :
    generateCoinsOnPlatforms σ1 0 (initialFloorAndWalls (mazeNew 64 13)) =
      generateCoinsOnPlatforms σ2 0 (initialFloorAndWalls (mazeNew 64 13)) ∧
    generateCoinsOnPlatforms σ1 0 (initialFloorAndWalls (mazeNew 64 13)) =
      generate seed ∧
    (∀ g1 g2,
      generateCoinsOnPlatforms σ1 0 (initialFloorAndWalls (mazeNew 64 13)) =
        some g1 →
      generateCoinsOnPlatforms σ2 0 (initialFloorAndWalls (mazeNew 64 13)) =
        some g2 →
      g1.maze.walls = g2.maze.walls ∧ g1.maze.coins = g2.maze.coins) := by
  have e1 : σ1 = mtStream seed := funext h1
  have e2 : σ2 = mtStream seed := funext h2
  subst e1
  subst e2
  refine ⟨rfl, rfl, ?_⟩
  intro g1 g2 hg1 hg2
  rw [hg1] at hg2
  obtain rfl := Option.some.inj hg2
  exact ⟨rfl, rfl⟩

/-- Witness for `C3_generation_deterministic` at seed 7. -/
theorem C3_generation_deterministic_witness :
    generateCoinsOnPlatforms (mtStream 7) 0
        (initialFloorAndWalls (mazeNew 64 13)) = generate 7 :=
  (C3_generation_deterministic 7 (mtStream 7) (mtStream 7)
    (fun _ => rfl) (fun _ => rfl)).2.1

/-- The dimensions, growth guard and crate bookkeeping of one crate
iteration. -/
theorem h_crateStep (σ : Nat → Nat) (cr : RecPt) (st : CrateSt) :
    (crateStep σ cr st).maze.h = st.maze.h := by
  unfold crateStep
  split_ifs <;> simp

theorem crates_crateStep (σ : Nat → Nat) (cr : RecPt) (st : CrateSt) :
    (crateStep σ cr st).crates = st.crates ∨
      (cr.y < st.maze.h - 2 ∧
        (crateStep σ cr st).crates = st.crates ++ [⟨cr.x, cr.y + 1⟩]) := by
  unfold crateStep
  split_ifs with hg hw
  · exact Or.inr ⟨hg.2, rfl⟩
  · exact Or.inr ⟨hg.2, rfl⟩
  · exact Or.inl rfl

/-- The crate pass never changes the maze dimensions. -/
theorem h_cratePass (σ : Nat → Nat) (crs : List RecPt) (st : CrateSt) :
    (cratePass σ crs st).maze.h = st.maze.h := by
  induction crs generalizing st with
  | nil => rfl
  | cons cr rest ih =>
    show (cratePass σ rest (crateStep σ cr st)).maze.h = _
    rw [ih, h_crateStep]

/-- Crates only ever sit at rows `≤ h - 2` (the growth guard). -/
theorem cratePass_y_le (σ : Nat → Nat) (crs : List RecPt) (st : CrateSt)
    (h : Int) (hh : st.maze.h = h)
    (hacc : ∀ r ∈ st.crates, r.y ≤ h - 2) :
    ∀ r ∈ (cratePass σ crs st).crates, r.y ≤ h - 2 := by
  induction crs generalizing st with
  | nil => exact hacc
  | cons cr rest ih =>
    show ∀ r ∈ (cratePass σ rest (crateStep σ cr st)).crates, r.y ≤ h - 2
    refine ih _ (by rw [h_crateStep]; exact hh) ?_
    rcases crates_crateStep σ cr st with hc | ⟨hy, hc⟩
    · rw [hc]
      exact hacc
    · rw [hc]
      intro r hr
      simp only [List.mem_append, List.mem_singleton] at hr
      rcases hr with hr | hr
      · exact hacc r hr
      · subst hr
        rw [hh] at hy
        show cr.y + 1 ≤ h - 2
        omega

/-- Each surviving crate of a pass contributes one row less to the
measure than its parent did. -/
theorem cratePass_measure (σ : Nat → Nat) (crs : List RecPt) (st : CrateSt)
    (h : Int) (hh : st.maze.h = h) :
    crateMeasure h (cratePass σ crs st).crates ≤
      crateMeasure h st.crates +
      (crs.map (fun r => (h - 1 - r.y).toNat - 1)).sum := by
  induction crs generalizing st with
  | nil => simp [cratePass]
  | cons cr rest ih =>
    show crateMeasure h (cratePass σ rest (crateStep σ cr st)).crates ≤ _
    refine le_trans (ih _ (by rw [h_crateStep]; exact hh)) ?_
    simp only [List.map_cons, List.sum_cons]
    rcases crates_crateStep σ cr st with hc | ⟨hy, hc⟩
    · rw [hc]
      omega
    · rw [hc]
      simp only [crateMeasure, List.map_append, List.sum_append,
        List.map_cons, List.sum_cons, List.map_nil, List.sum_nil]
      rw [hh] at hy
      have : (h - 1 - (cr.y + 1)).toNat = (h - 1 - cr.y).toNat - 1 := by omega
      omega

/-- On a non-empty crate list at legal rows the pass strictly shrinks the
measure budget. -/
theorem crate_budget_lt (h : Int) (crs : List RecPt) (hne : crs ≠ [])
    (hy : ∀ r ∈ crs, r.y ≤ h - 2) :
    (crs.map (fun r => (h - 1 - r.y).toNat - 1)).sum + 1 ≤
      crateMeasure h crs := by
  induction crs with
  | nil => exact absurd rfl hne
  | cons cr rest ih =>
    simp only [crateMeasure, List.map_cons, List.sum_cons] at *
    have hcr : cr.y ≤ h - 2 := hy cr (by simp)
    have h1 : 1 ≤ (h - 1 - cr.y).toNat := by omega
    rcases rest with - | ⟨r2, rest2⟩
    · simp
      omega
    · have := ih (by simp) (fun r hr => hy r (by simp [hr]))
      simp only [crateMeasure] at this
      omega

/-- More fuel never changes a crate loop that already finished. -/
theorem crateLoop_mono (σ : Nat → Nat) (f f' : Nat) (st c : CrateSt)
    (hle : f ≤ f') (hc : crateLoop σ f st = some c) :
    crateLoop σ f' st = some c := by
  induction f generalizing f' st with
  | zero => simp [crateLoop] at hc
  | succ f ih =>
    obtain ⟨f2, rfl⟩ : ∃ f2, f' = f2 + 1 := ⟨f' - 1, by omega⟩
    unfold crateLoop at hc ⊢
    split at hc
    · rename_i hemp
      rw [if_pos hemp]
      exact hc
    · rename_i hemp
      rw [if_neg hemp]
      exact ih _ _ (by omega) hc

/-- The crate loop always finishes within `measure + 1` rounds. -/
theorem crateLoop_some (σ : Nat → Nat) (st : CrateSt) (h : Int)
    (hh : st.maze.h = h) (hy : ∀ r ∈ st.crates, r.y ≤ h - 2) :
    ∃ c, crateLoop σ (crateMeasure h st.crates + 1) st = some c := by
  generalize hM : crateMeasure h st.crates = M
  induction M using Nat.strong_induction_on generalizing st with
  | _ M ih =>
    by_cases hemp : st.crates = []
    · exact ⟨st, by unfold crateLoop; rw [if_pos hemp]⟩
    · have hstep : crateLoop σ (M + 1) st =
          crateLoop σ M (cratePass σ st.crates { st with crates := [] }) := by
        conv_lhs => unfold crateLoop
        rw [if_neg hemp]
      set st' := cratePass σ st.crates { st with crates := [] } with hst'
      have hh' : st'.maze.h = h := by rw [hst', h_cratePass]; exact hh
      have hy' : ∀ r ∈ st'.crates, r.y ≤ h - 2 :=
        cratePass_y_le σ st.crates _ h hh (by simp)
      have hm' : crateMeasure h st'.crates + 1 ≤ M := by
        have b1 := cratePass_measure σ st.crates
          { st with crates := [] } h hh
        rw [← hst'] at b1
        have b0 : crateMeasure h ({ st with crates := [] } : CrateSt).crates
            = 0 := rfl
        rw [b0] at b1
        have b2 := crate_budget_lt h st.crates hemp hy
        rw [hM] at b2
        omega
      obtain ⟨c, hc⟩ := ih (crateMeasure h st'.crates) (by omega) st' hh' hy' rfl
      exact ⟨c, by rw [hstep]; exact crateLoop_mono σ _ _ _ _ (by omega) hc⟩

/-- The platform loop never changes the maze dimensions. -/
theorem h_platformLoop (np : Nat) (platform len shift : Int) (vxPos : Bool)
    (ix0 iy : Int) (m : Maze) (recs cr mc : List RecPt)
    (rd : List (Int × Int)) :
    (platformLoop np platform len shift vxPos ix0 iy m recs cr mc rd).1.h
      = m.h := by
  induction np generalizing platform ix0 m recs cr mc rd with
  | zero => rfl
  | succ np ih =>
    simp only [platformLoop]
    split_ifs <;>
      first
        | (rw [ih]; simp)
        | simp
        | rfl

/-- Every crate seed the platform loop emits sits one row under the
platform row `iy`. -/
theorem cr_platformLoop (np : Nat) (platform len shift : Int) (vxPos : Bool)
    (ix0 iy : Int) (m : Maze) (recs cr mc : List RecPt)
    (rd : List (Int × Int)) :
    ∀ r ∈ (platformLoop np platform len shift vxPos ix0 iy m recs cr mc
      rd).2.2.1, r ∈ cr ∨ r.y = iy + 1 := by
  induction np generalizing platform ix0 m recs cr mc rd with
  | zero => exact fun r hr => Or.inl hr
  | succ np ih =>
    simp only [platformLoop]
    split_ifs <;> intro r hr <;>
      first
        | exact Or.inl hr
        | (rcases ih _ _ _ _ _ _ _ r hr with hin | hy
           · simp only [List.mem_append, List.mem_singleton] at hin
             rcases hin with hin | hin
             · exact Or.inl hin
             · subst hin
               exact Or.inr rfl
           · exact Or.inr hy)
        | (rcases ih _ _ _ _ _ _ _ r hr with hin | hy
           · exact Or.inl hin
           · exact Or.inr hy)

/-- The closing crate call always returns a success when the crates sit
at legal rows. -/
theorem jbFinish_some (σ : Nat → Nat) (pos : Nat) (m : Maze)
    (recs cr : List RecPt) (rd : List (Int × Int))
    (hy : ∀ r ∈ cr, r.y ≤ m.h - 2) :
    ∃ r, jbFinish σ pos m recs cr rd = some r := by
  unfold jbFinish
  obtain ⟨c, hc⟩ := crateLoop_some σ ⟨pos, m, recs, cr, rd⟩ m.h rfl hy
  have hc' : crateLoop σ (crateMeasure m.h cr + 1) ⟨pos, m, recs, cr, rd⟩
      = some c := hc
  rw [hc']
  exact ⟨_, rfl⟩

@[simp] theorem w_jbMark (σ : Nat → Nat) (p : Nat) (mz : Maze)
    (mc : List RecPt) : (jbMark σ p mz mc).1.w = mz.w := by
  unfold jbMark
  split_ifs <;> simp

@[simp] theorem h_jbMark (σ : Nat → Nat) (p : Nat) (mz : Maze)
    (mc : List RecPt) : (jbMark σ p mz mc).1.h = mz.h := by
  unfold jbMark
  split_ifs <;> simp

/-- The build tail never fails. -/
theorem jbTail_some (σ : Nat → Nat) (pos : Nat) (vxPos : Bool) (ix iy : Int)
    (m : Maze) (recs : List RecPt) (rd : List (Int × Int)) :
    ∃ r, jbTail σ pos vxPos ix iy m recs rd = some r := by
  unfold jbTail
  split_ifs with hiy <;>
    first
      | exact ⟨_, rfl⟩
      | (apply jbFinish_some
         intro r hr
         rcases cr_platformLoop _ _ _ _ _ _ _ _ _ _ _ _ r hr with hin | hyy
         · exact absurd hin (List.not_mem_nil r)
         · simp only [h_jbMark, h_platformLoop, apply_ite Maze.h,
             Maze.h_set, ite_self]
           omega)

/-- One placement attempt never fails (its inner crate loop always has
enough fuel). -/
theorem jumpAndBuild_some (σ : Nat → Nat) (st : GenSt) :
    ∃ r, jumpAndBuild σ st = some r := by
  unfold jumpAndBuild
  split_ifs <;> (try dsimp only) <;> (try split_ifs) <;>
    first
      | exact ⟨_, rfl⟩
      | (split <;>
          first
            | exact ⟨_, rfl⟩
            | apply jbTail_some)

/-- The attempt loop always returns; the final attempt counter stays
within the (re-evaluated, shrinking) `10 * want` bound, and on exit
either the target was reached or that bound was hit. -/
theorem attemptLoop_spec (σ : Nat → Nat) (fuel : Nat) (p want : Int)
    (st : GenSt) (hf : want * 10 - p ≤ (fuel : Int)) :
    ∃ st' p' want', attemptLoop σ fuel p want st = some (st', p', want') ∧
      (p' ≤ p ∨ p' ≤ want * 10) ∧ (want' = 0 ∨ want' * 10 ≤ p') := by
  induction fuel generalizing p want st with
  | zero =>
    refine ⟨st, p, want, rfl, Or.inl le_rfl, Or.inr ?_⟩
    simp only [Nat.cast_zero] at hf
    omega
  | succ fuel ih =>
    unfold attemptLoop
    by_cases hp : p < want * 10
    · rw [if_pos hp]
      obtain ⟨⟨succ, st1⟩, hj⟩ := jumpAndBuild_some σ st
      rw [hj]
      dsimp only
      by_cases hw : (if succ then want - 1 else want) = 0
      · rw [if_pos hw]
        exact ⟨st1, p + 1, _, rfl, Or.inr (by omega), Or.inl hw⟩
      · rw [if_neg hw]
        have hw' : (if succ then want - 1 else want) * 10 - (p + 1)
            ≤ (fuel : Int) := by
          push_cast at hf ⊢
          split_ifs <;> omega
        obtain ⟨st', p', want', ha, hb, hc⟩ := ih (p + 1) _ st1 hw'
        refine ⟨st', p', want', ha, ?_, hc⟩
        have hle : (if succ then want - 1 else want) * 10 ≤ want * 10 := by
          split_ifs <;> omega
        omega
    · rw [if_neg hp]
      exact ⟨st, p, want, rfl, Or.inl le_rfl, Or.inr (by omega)⟩

/-- The whole generation pipeline always returns, within 110 attempts,
stopping only at target reached or bound hit. -/
theorem generation_total (σ : Nat → Nat) (pos : Nat) (m : Maze) :
    ∃ g : GenResult, generateCoinsOnPlatforms σ pos m = some g ∧
      g.attempts ≤ 110 ∧ (g.wantLeft = 0 ∨ g.wantLeft * 10 ≤ g.attempts) := by
  unfold generateCoinsOnPlatforms
  obtain ⟨st', p', want', ha, hb, hc⟩ :=
    attemptLoop_spec σ 110 0 11
      ⟨{ m with spawnx := 1 + randn σ pos (m.w - 2), spawny := 1 },
        (List.range m.w.toNat).map (fun (x : Nat) => ⟨(x : Int), 1⟩), pos + 1, []⟩
      (show (11 : Int) * 10 - 0 ≤ ((110 : Nat) : Int) by norm_num)
  simp only [ha]
  exact ⟨_, rfl, show p' ≤ 110 by omega, hc⟩

/-- C7 (amended): the generator's attempt loop always terminates without
error: on any maze and draw stream the pipeline returns a result, the
attempt counter never exceeds 110 (= 10 × the initial target of 11), and
the loop stops only because the target was reached (`wantLeft = 0`) or
because the attempt counter reached ten times the *remaining* target —
the bound `p < want_platforms*10` is re-evaluated against the shrinking
`want_platforms`, not against the initial target.  The seeded `generate`
never fails either (the stacked-crate loop inside an attempt always
terminates within its measure bound). -/
theorem C7_attempts_bounded_terminating :
    (∀ (σ : Nat → Nat) (pos : Nat) (m : Maze),
      ∃ g : GenResult, generateCoinsOnPlatforms σ pos m = some g ∧
        g.attempts ≤ 110 ∧
        (g.wantLeft = 0 ∨ g.wantLeft * 10 ≤ g.attempts)) ∧
    ∀ seed : Int, ∃ g : GenResult, generate seed = some g :=
  ⟨generation_total, fun seed => by
    obtain ⟨g, hg, -, -⟩ := generation_total (mtStream seed) 0
      (initialFloorAndWalls (mazeNew 64 13))
    exact ⟨g, hg⟩⟩

set_option maxRecDepth 40000 in
/-- C7 counterexample: with the all-zeros draw stream the attempt loop
stops after 20 attempts with one platform of the target 11 still
missing — neither 110 (= 10 × the target) attempts were made nor the
target reached, because the loop bound shrinks with every success. -/
theorem C7_counterexample :
    (generateCoinsOnPlatforms (fun _ => 0) 0
        (initialFloorAndWalls (mazeNew 64 13))).map
      (fun g => (g.attempts, g.wantLeft)) = some (20, 1) := by
  rw [initialFloorAndWalls_eq_levelStart]
  decide

/-- Writing a wall tile, or writing anywhere that is not an in-grid
border cell, keeps the border solid. -/
theorem borderSolid_set (m : Maze) (x y : Int) (c : Char)
    (hb : borderSolid m)
    (hc : is_wall c = true ∨
      ¬((x = 0 ∨ x = m.w - 1 ∨ y = 0 ∨ y = m.h - 1) ∧
        m.inGrid x y = true)) :
    borderSolid (m.set x y c) := by
  by_cases hin0 : m.inGrid x y = true
  · by_cases hlen : (m.w * y + x).toNat < m.walls.length
    · intro a b hin hedge
      rw [Maze.inGrid_set] at hin
      have hedge' : a = 0 ∨ a = m.w - 1 ∨ b = 0 ∨ b = m.h - 1 := by
        simpa [Maze.w_set, Maze.h_set] using hedge
      by_cases hab : x = a ∧ y = b
      · obtain ⟨rfl, rfl⟩ := hab
        rcases hc with hc | hc
        · rw [Maze.get_set_self' m x y c hin0 hlen, hc]
        · exact absurd ⟨hedge', hin⟩ hc
      · rw [Maze.get_set_ne m a b x y c hab]
        exact hb a b hin hedge'
    · have hmm : m.set x y c = m := by
        unfold Maze.set
        rw [if_pos hin0, List.set_eq_of_length_le (le_of_not_lt hlen)]
      rw [hmm]
      exact hb
  · intro a b hin hedge
    rw [Maze.inGrid_set] at hin
    rw [Maze.get_set_out m x y a b c (by simpa using hin0)]
    refine hb a b hin ?_
    simpa [Maze.w_set, Maze.h_set] using hedge

/-- Overwriting a cell whose current tile is not a wall keeps the border
solid (border cells always hold walls, so the write is off the border). -/
theorem borderSolid_set_nonwall (m : Maze) (x y : Int) (c : Char)
    (hb : borderSolid m) (hold : is_wall (m.get x y) = false) :
    borderSolid (m.set x y c) := by
  refine borderSolid_set m x y c hb (Or.inr ?_)
  rintro ⟨hedge, hin⟩
  rw [hb x y hin hedge] at hold
  cases hold

/-- Overwriting a cell that currently holds a readable (non-junk) tile
cannot set the out-of-bounds write flag. -/
theorem oobWrite_set_of_get (m : Maze) (x y : Int) (c : Char)
    (hg : m.get x y ≠ '?') :
    (m.set x y c).oobWrite = m.oobWrite :=
  Maze.oobWrite_set_inGrid m x y c (m.get_range x y hg).1

/-- Overwriting a readable non-wall cell preserves the write-safety
invariant. -/
theorem mazeOk_set_nonwall (m : Maze) (x y : Int) (c : Char)
    (hok : mazeOk m) (hv : is_wall (m.get x y) = false)
    (hq : m.get x y ≠ '?') : mazeOk (m.set x y c) :=
  ⟨borderSolid_set_nonwall m x y c hok.1 hv,
   by rw [oobWrite_set_of_get m x y c hq]; exact hok.2⟩

/-- Writing a wall tile over a readable cell preserves the write-safety
invariant. -/
theorem mazeOk_set_wall_read (m : Maze) (x y : Int) (c : Char)
    (hok : mazeOk m) (hv : is_wall c = true) (hq : m.get x y ≠ '?') :
    mazeOk (m.set x y c) :=
  ⟨borderSolid_set m x y c hok.1 (Or.inl hv),
   by rw [oobWrite_set_of_get m x y c hq]; exact hok.2⟩

/-- Writing anywhere strictly inside the grid preserves the write-safety
invariant. -/
theorem mazeOk_set_interior (m : Maze) (x y : Int) (c : Char)
    (hok : mazeOk m) (hx1 : 1 ≤ x) (hx2 : x ≤ m.w - 2)
    (hy1 : 1 ≤ y) (hy2 : y ≤ m.h - 2) : mazeOk (m.set x y c) := by
  have hin : m.inGrid x y = true := by
    unfold Maze.inGrid
    simp only [Bool.and_eq_true, decide_eq_true_eq]
    omega
  refine ⟨borderSolid_set m x y c hok.1 (Or.inr ?_), ?_⟩
  · rintro ⟨hedge, -⟩
    omega
  · rw [Maze.oobWrite_set_inGrid m x y c hin]
    exact hok.2

/-- On a border-solid maze an open (space/blank) cell is strictly
interior. -/
theorem open_interior (m : Maze) (x y : Int) (hb : borderSolid m)
    (hv : is_wall (m.get x y) = false) (hq : m.get x y ≠ '?') :
    1 ≤ x ∧ x ≤ m.w - 2 ∧ 1 ≤ y ∧ y ≤ m.h - 2 := by
  obtain ⟨hin, -⟩ := m.get_range x y hq
  have hr := hin
  unfold Maze.inGrid at hr
  simp only [Bool.and_eq_true, decide_eq_true_eq] at hr
  by_cases hedge : x = 0 ∨ x = m.w - 1 ∨ y = 0 ∨ y = m.h - 1
  · rw [hb x y hin hedge] at hv
    cases hv
  · push_neg at hedge
    omega

/-- The ballistic carving loop preserves the write-safety invariant (its
writes are bounds-checked and land on open cells). -/
theorem mazeOk_arcLoop (vxc : Frac) (s : Nat) (vy x y : Frac) (ix iy : Int)
    (m : Maze) (rd : List (Int × Int)) (hok : mazeOk m) :
    mazeOk (arcLoop vxc s vy x y ix iy m rd).1 := by
  induction s generalizing vy x y ix iy m rd with
  | zero => exact hok
  | succ s ih =>
    simp only [arcLoop]
    split_ifs <;>
      first
        | exact hok
        | exact ih _ _ _ _ _ _ _ hok
        | (rename_i hno
           push_neg at hno
           refine ih _ _ _ _ _ _ _ (mazeOk_set_nonwall _ _ _ _ hok ?_ ?_) <;>
             rcases hno with h | h <;> rw [h] <;> decide)

/-- The platform loop preserves the write-safety invariant: every tile it
writes goes over an open or cliff-marker cell. -/
theorem mazeOk_platformLoop (np : Nat) (platform len shift : Int)
    (vxPos : Bool) (ix0 iy : Int) (m : Maze) (recs cr mc : List RecPt)
    (rd : List (Int × Int)) (hok : mazeOk m) :
    mazeOk (platformLoop np platform len shift vxPos ix0 iy m recs cr mc
      rd).1 := by
  induction np generalizing platform ix0 m recs cr mc rd with
  | zero => exact hok
  | succ np ih =>
    simp only [platformLoop]
    by_cases hg : m.get (ix0 + stepDir vxPos) iy = ' ' ∨
        m.get (ix0 + stepDir vxPos) iy = SPACE
    · rw [if_pos hg]
      have hok' : ∀ c : Char, mazeOk (m.set (ix0 + stepDir vxPos) iy c) :=
        fun c => mazeOk_set_nonwall _ _ _ _ hok
          (by rcases hg with h | h <;> rw [h] <;> decide)
          (by rcases hg with h | h <;> rw [h] <;> decide)
      split_ifs <;> exact ih _ _ _ _ _ _ _ (hok' _)
    · rw [if_neg hg]
      split_ifs with hcliff
      · exact mazeOk_set_wall_read _ _ _ _ hok (by decide)
          (by rcases hcliff with h | h <;> rw [h] <;> decide)
      · exact hok

/-- Every anchor, crate seed and monster candidate the platform loop adds
lies strictly inside the grid, one row under the platform row. -/
theorem platformLoop_entries (np : Nat) (platform len shift : Int)
    (vxPos : Bool) (ix0 iy : Int) (m : Maze) (recs cr mc : List RecPt)
    (rd : List (Int × Int)) (hok : mazeOk m) :
    (∀ r ∈ (platformLoop np platform len shift vxPos ix0 iy m recs cr mc
        rd).2.1, r ∈ recs ∨ (1 ≤ r.x ∧ r.x ≤ m.w - 2 ∧ r.y = iy + 1 ∧
        1 ≤ iy ∧ iy ≤ m.h - 2)) ∧
    (∀ r ∈ (platformLoop np platform len shift vxPos ix0 iy m recs cr mc
        rd).2.2.1, r ∈ cr ∨ (1 ≤ r.x ∧ r.x ≤ m.w - 2 ∧ r.y = iy + 1 ∧
        1 ≤ iy ∧ iy ≤ m.h - 2)) ∧
    (∀ r ∈ (platformLoop np platform len shift vxPos ix0 iy m recs cr mc
        rd).2.2.2.1, r ∈ mc ∨ (1 ≤ r.x ∧ r.x ≤ m.w - 2 ∧ r.y = iy + 1 ∧
        1 ≤ iy ∧ iy ≤ m.h - 2)) := by
  induction np generalizing platform ix0 m recs cr mc rd with
  | zero =>
    exact ⟨fun r hr => Or.inl hr, fun r hr => Or.inl hr,
      fun r hr => Or.inl hr⟩
  | succ np ih =>
    simp only [platformLoop]
    by_cases hg : m.get (ix0 + stepDir vxPos) iy = ' ' ∨
        m.get (ix0 + stepDir vxPos) iy = SPACE
    · rw [if_pos hg]
      have hok' : ∀ c : Char, mazeOk (m.set (ix0 + stepDir vxPos) iy c) :=
        fun c => mazeOk_set_nonwall _ _ _ _ hok
          (by rcases hg with h | h <;> rw [h] <;> decide)
          (by rcases hg with h | h <;> rw [h] <;> decide)
      have hopen := open_interior m (ix0 + stepDir vxPos) iy hok.1
        (by rcases hg with h | h <;> rw [h] <;> decide)
        (by rcases hg with h | h <;> rw [h] <;> decide)
      have hmem : ∀ (l : List RecPt) (r : RecPt),
          r ∈ l ++ [⟨ix0 + stepDir vxPos, iy + 1⟩] → r ∈ l ∨
          (1 ≤ r.x ∧ r.x ≤ m.w - 2 ∧ r.y = iy + 1 ∧ 1 ≤ iy ∧
            iy ≤ m.h - 2) := by
        intro l r hr
        simp only [List.mem_append, List.mem_singleton] at hr
        rcases hr with hr | hr
        · exact Or.inl hr
        · subst hr
          exact Or.inr ⟨hopen.1, hopen.2.1, rfl, hopen.2.2.1, hopen.2.2.2⟩
      generalize (if platform < len - 1 then WALL_SURFACE
        else if vxPos then 'b' else 'a') = V
      split_ifs with h1 h2
      · obtain ⟨ih1, ih2, ih3⟩ := ih _ _ _ _ _ _ _ (hok' _)
        refine ⟨?_, ?_, ?_⟩ <;> intro r hr
        · rcases ih1 r hr with h | h
          · exact hmem _ r h
          · exact Or.inr (by simpa only [Maze.w_set, Maze.h_set] using h)
        · rcases ih2 r hr with h | h
          · exact hmem _ r h
          · exact Or.inr (by simpa only [Maze.w_set, Maze.h_set] using h)
        · rcases ih3 r hr with h | h
          · exact Or.inl h
          · exact Or.inr (by simpa only [Maze.w_set, Maze.h_set] using h)
      · obtain ⟨ih1, ih2, ih3⟩ := ih _ _ _ _ _ _ _ (hok' _)
        refine ⟨?_, ?_, ?_⟩ <;> intro r hr
        · rcases ih1 r hr with h | h
          · exact hmem _ r h
          · exact Or.inr (by simpa only [Maze.w_set, Maze.h_set] using h)
        · rcases ih2 r hr with h | h
          · exact Or.inl h
          · exact Or.inr (by simpa only [Maze.w_set, Maze.h_set] using h)
        · rcases ih3 r hr with h | h
          · exact hmem _ r h
          · exact Or.inr (by simpa only [Maze.w_set, Maze.h_set] using h)
      · obtain ⟨ih1, ih2, ih3⟩ := ih _ _ _ _ _ _ _ (hok' _)
        refine ⟨?_, ?_, ?_⟩ <;> intro r hr
        · rcases ih1 r hr with h | h
          · exact hmem _ r h
          · exact Or.inr (by simpa only [Maze.w_set, Maze.h_set] using h)
        · rcases ih2 r hr with h | h
          · exact Or.inl h
          · exact Or.inr (by simpa only [Maze.w_set, Maze.h_set] using h)
        · rcases ih3 r hr with h | h
          · exact Or.inl h
          · exact Or.inr (by simpa only [Maze.w_set, Maze.h_set] using h)
    · rw [if_neg hg]
      split_ifs with hcliff
      · exact ⟨fun r hr => Or.inl hr, fun r hr => Or.inl hr,
          fun r hr => Or.inl hr⟩
      · exact ⟨fun r hr => Or.inl hr, fun r hr => Or.inl hr,
          fun r hr => Or.inl hr⟩

/-- The monster list does not interact with the tile invariant. -/
theorem mazeOk_monsters (m : Maze) (l : List Monster) (hok : mazeOk m) :
    mazeOk { m with monsters := l } :=
  ⟨fun a b hin hedge => hok.1 a b hin hedge, hok.2⟩

theorem rtA_ok (σ : Nat → Nat) (st : Nat × Maze) (x y : Int) (b0 : Char)
    (hok : mazeOk st.2) : mazeOk (rtA σ st x y b0).2 := by
  unfold rtA
  split_ifs with h1 h2 <;>
    first
      | exact hok
      | exact mazeOk_set_nonwall _ _ _ _ hok (by rw [h1]; decide)
          (by rw [h1]; decide)

theorem rtA_get_ne (σ : Nat → Nat) (st : Nat × Maze) (x y a b : Int)
    (b0 : Char) (hne : ¬(x = a ∧ y = b)) :
    (rtA σ st x y b0).2.get a b = st.2.get a b := by
  unfold rtA
  split_ifs <;> first | rfl | exact Maze.get_set_ne _ a b x y _ hne

theorem rtB_ok (st : Nat × Maze) (x y : Int) (b0 : Char)
    (hok : mazeOk st.2) : mazeOk (rtB st x y b0).2 := by
  unfold rtB
  dsimp only
  split_ifs with h1
  · exact mazeOk_set_wall_read _ _ _ _ hok (by decide)
      (by rcases h1.1 with h | h <;> rw [h] <;> decide)
  · exact hok

theorem rtB_get_ne (st : Nat × Maze) (x y a b : Int) (b0 : Char)
    (hne : ¬(x = a ∧ y = b)) :
    (rtB st x y b0).2.get a b = st.2.get a b := by
  unfold rtB
  dsimp only
  split_ifs <;> first | rfl | exact Maze.get_set_ne _ a b x y _ hne

theorem rtC_ok (st : Nat × Maze) (x y : Int) (b0 : Char)
    (hok : mazeOk st.2) (hb0 : st.2.get x (y - 1) = b0) :
    mazeOk (rtC st x y b0).2 := by
  unfold rtC
  dsimp only
  split_ifs with h1
  · refine mazeOk_set_wall_read _ _ _ _ hok (by decide) ?_
    rw [hb0]
    intro hq
    rw [hq] at h1
    exact absurd h1.2 (by decide)
  · exact hok

theorem rtD_ok (σ : Nat → Nat) (st : Nat × Maze) (x y : Int)
    (b0 cl cr : Char) (hok : mazeOk st.2) : mazeOk (rtD σ st x y b0 cl cr).2 := by
  unfold rtD
  dsimp only
  split_ifs with h1 h2 <;>
    first
      | exact hok
      | exact mazeOk_monsters _ _ (mazeOk_set_nonwall _ _ _ _ hok
          (by rcases h1 with h | h | h <;> rw [h] <;> decide)
          (by rcases h1 with h | h | h <;> rw [h] <;> decide))
      | exact mazeOk_set_nonwall _ _ _ _ hok
          (by rcases h1 with h | h | h <;> rw [h] <;> decide)
          (by rcases h1 with h | h | h <;> rw [h] <;> decide)

/-- One `remove_traces_add_monsters` cell keeps the write-safety
invariant. -/
theorem rtCell_ok (σ : Nat → Nat) (st : Nat × Maze) (x y : Int)
    (hok : mazeOk st.2) : mazeOk (rtCell σ st x y).2 := by
  unfold rtCell
  have h1 := rtA_ok σ st x y (st.2.get x (y - 1)) hok
  have h2 := rtB_ok (rtA σ st x y (st.2.get x (y - 1))) x y
    (st.2.get x (y - 1)) h1
  have hb : (rtB (rtA σ st x y (st.2.get x (y - 1))) x y
      (st.2.get x (y - 1))).2.get x (y - 1) = st.2.get x (y - 1) := by
    rw [rtB_get_ne _ _ _ _ _ _ (by intro h; omega),
      rtA_get_ne _ _ _ _ _ _ _ (by intro h; omega)]
  exact rtD_ok _ _ _ _ _ _ _ (rtC_ok _ _ _ _ h2 hb)

/-- `remove_traces_add_monsters` keeps the write-safety invariant. -/
theorem removeTraces_ok (σ : Nat → Nat) (pos : Nat) (m : Maze)
    (hok : mazeOk m) : mazeOk (removeTraces σ pos m).2 := by
  unfold removeTraces
  have inner : ∀ (l : List Nat) (y : Nat) (st : Nat × Maze), mazeOk st.2 →
      mazeOk (l.foldl
        (fun st2 (x : Nat) => rtCell σ st2 (x : Int) (y : Int)) st).2 := by
    intro l y
    induction l with
    | nil => exact fun st h => h
    | cons a t ih =>
      intro st h
      simp only [List.foldl_cons]
      exact ih _ (rtCell_ok σ st _ _ h)
  have outer : ∀ (l : List Nat) (st : Nat × Maze), mazeOk st.2 →
      mazeOk (l.foldl (fun st (y : Nat) =>
        (List.range' 1 (st.2.w - 2).toNat).foldl
          (fun st2 (x : Nat) => rtCell σ st2 (x : Int) (y : Int)) st) st).2 := by
    intro l
    induction l with
    | nil => exact fun st h => h
    | cons a t ih =>
      intro st h
      simp only [List.foldl_cons]
      exact ih _ (inner _ _ _ h)
  dsimp only
  exact outer _ _ (mazeOk_monsters m [] hok)

/-- The coin-placement loop keeps the write-safety invariant (tiles go
only over space or walking-monster marks). -/
theorem placeCoinsGo_ok (σ : Nat → Nat) (stack : List RecPt) (pos : Nat)
    (m : Maze) (cnt : Int) (tr : List PlaceEv) (hok : mazeOk m) :
    mazeOk (placeCoinsGo σ stack pos m cnt tr).1 := by
  induction stack generalizing pos m cnt tr with
  | nil => exact hok
  | cons r rest ih =>
    simp only [placeCoinsGo]
    generalize (if 9 ≤ σ pos % 10 then COIN_OBJ2 else COIN_OBJ1) = T
    split_ifs with hg
    · refine ih _ _ _ _ (mazeOk_set_nonwall _ _ _ _ hok ?_ ?_) <;>
        (have h1 : m.get r.x r.y = SPACE ∨ m.get r.x r.y = WALKING_MONSTER := by
           have := hg
           unfold goodPlace at this
           simp only [Bool.and_eq_true, Bool.or_eq_true, beq_iff_eq] at this
           exact this.1.1.1.1.1.1.1
         rcases h1 with h | h <;> rw [h] <;> decide)
    · exact ih _ _ _ _ hok

/-- `place_coins` keeps the write-safety invariant (the final coin-count
store touches no tiles). -/
theorem placeCoins_ok (σ : Nat → Nat) (pos : Nat) (m : Maze)
    (stack : List RecPt) (hok : mazeOk m) :
    mazeOk (placeCoins σ pos m stack).1 := by
  unfold placeCoins
  have h := placeCoinsGo_ok σ stack.reverse pos m 0 [] hok
  exact ⟨fun a b hin hedge => h.1 a b hin hedge, h.2⟩

@[simp] theorem w_crateStep (σ : Nat → Nat) (cr : RecPt) (st : CrateSt) :
    (crateStep σ cr st).maze.w = st.maze.w := by
  unfold crateStep
  split_ifs <;> simp

/-- One crate iteration keeps the state invariant, provided the iterated
crate itself sits inside the side walls at a row `≥ 1`. -/
theorem crateStep_ok (σ : Nat → Nat) (cr : RecPt) (st : CrateSt)
    (hok : crateOk st) (hcr : 1 ≤ cr.x ∧ cr.x ≤ st.maze.w - 2 ∧ 1 ≤ cr.y) :
    crateOk (crateStep σ cr st) := by
  obtain ⟨hm, hrec, hcrs⟩ := hok
  unfold crateStep
  split_ifs with hg hw
  · refine ⟨mazeOk_set_nonwall _ _ _ _ hm
      (by rcases hw with h | h <;> rw [h] <;> decide)
      (by rcases hw with h | h <;> rw [h] <;> decide), ?_, ?_⟩
    · intro r hr
      simp only [List.mem_append, List.mem_singleton] at hr
      simp only [Maze.w_set]
      rcases hr with hr | hr
      · exact hrec r hr
      · subst hr
        exact ⟨show (0:Int) ≤ cr.x by omega,
          show cr.x ≤ st.maze.w - 1 by omega,
          show (1:Int) ≤ cr.y + 1 by omega⟩
    · intro r hr
      simp only [List.mem_append, List.mem_singleton] at hr
      simp only [Maze.w_set]
      rcases hr with hr | hr
      · exact hcrs r hr
      · subst hr
        exact ⟨show (1:Int) ≤ cr.x by omega,
          show cr.x ≤ st.maze.w - 2 by omega,
          show (1:Int) ≤ cr.y + 1 by omega⟩
  · refine ⟨hm, ?_, ?_⟩
    · intro r hr
      simp only [List.mem_append, List.mem_singleton] at hr
      rcases hr with hr | hr
      · exact hrec r hr
      · subst hr
        exact ⟨show (0:Int) ≤ cr.x by omega,
          show cr.x ≤ st.maze.w - 1 by omega,
          show (1:Int) ≤ cr.y + 1 by omega⟩
    · intro r hr
      simp only [List.mem_append, List.mem_singleton] at hr
      rcases hr with hr | hr
      · exact hcrs r hr
      · subst hr
        exact ⟨show (1:Int) ≤ cr.x by omega,
          show cr.x ≤ st.maze.w - 2 by omega,
          show (1:Int) ≤ cr.y + 1 by omega⟩
  · exact ⟨hm, hrec, hcrs⟩

@[simp] theorem w_cratePass (σ : Nat → Nat) (crs : List RecPt)
    (st : CrateSt) : (cratePass σ crs st).maze.w = st.maze.w := by
  induction crs generalizing st with
  | nil => rfl
  | cons cr rest ih =>
    show (cratePass σ rest (crateStep σ cr st)).maze.w = _
    rw [ih, w_crateStep]

/-- A crate pass keeps the state invariant when the pass list sits inside
the side walls. -/
theorem cratePass_ok (σ : Nat → Nat) (crs : List RecPt) (st : CrateSt)
    (hok : crateOk st)
    (hcrs : ∀ r ∈ crs, 1 ≤ r.x ∧ r.x ≤ st.maze.w - 2 ∧ 1 ≤ r.y) :
    crateOk (cratePass σ crs st) := by
  induction crs generalizing st with
  | nil => exact hok
  | cons cr rest ih =>
    show crateOk (cratePass σ rest (crateStep σ cr st))
    refine ih _ (crateStep_ok σ cr st hok (hcrs cr (by simp))) ?_
    intro r hr
    rw [w_crateStep]
    exact hcrs r (by simp [hr])

/-- The crate loop keeps the state invariant. -/
theorem crateLoop_ok (σ : Nat → Nat) (f : Nat) (st c : CrateSt)
    (hok : crateOk st) (hc : crateLoop σ f st = some c) : crateOk c := by
  induction f generalizing st with
  | zero => simp [crateLoop] at hc
  | succ f ih =>
    unfold crateLoop at hc
    split at hc
    · obtain rfl := Option.some.inj hc
      exact hok
    · refine ih _ ?_ hc
      refine cratePass_ok σ st.crates _ ⟨hok.1, hok.2.1, by simp⟩ ?_
      exact fun r hr => hok.2.2 r hr

@[simp] theorem w_platformLoop (np : Nat) (platform len shift : Int)
    (vxPos : Bool) (ix0 iy : Int) (m : Maze) (recs cr mc : List RecPt)
    (rd : List (Int × Int)) :
    (platformLoop np platform len shift vxPos ix0 iy m recs cr mc rd).1.w
      = m.w := by
  induction np generalizing platform ix0 m recs cr mc rd with
  | zero => rfl
  | succ np ih =>
    simp only [platformLoop]
    split_ifs <;>
      first
        | (rw [ih]; simp)
        | simp
        | rfl

/-- The closing crate call preserves the generator invariant. -/
theorem jbFinish_ok (σ : Nat → Nat) (pos : Nat) (m : Maze)
    (recs cr : List RecPt) (rd : List (Int × Int)) (res : Bool × GenSt)
    (hok : mazeOk m)
    (hrec : ∀ r ∈ recs, 0 ≤ r.x ∧ r.x ≤ m.w - 1 ∧ 1 ≤ r.y)
    (hcr : ∀ r ∈ cr, 1 ≤ r.x ∧ r.x ≤ m.w - 2 ∧ 1 ≤ r.y)
    (hres : jbFinish σ pos m recs cr rd = some res) : genOk res.2 := by
  unfold jbFinish at hres
  split at hres
  · cases hres
  · obtain rfl := Option.some.inj hres
    rename_i cst heq
    have hco : crateOk cst := crateLoop_ok σ _ _ cst ⟨hok, hrec, hcr⟩ heq
    exact ⟨hco.1, hco.2.1⟩

/-- `getD` at an in-range index is a member. -/
theorem getD_mem_of_lt (l : List RecPt) (i : Nat) (d : RecPt)
    (h : i < l.length) : l.getD i d ∈ l := by
  rw [List.getD_eq_getElem?_getD, List.getElem?_eq_getElem h]
  exact List.getElem_mem h

/-- A raw draw reduced modulo a positive list length indexes the list. -/
theorem randn_toNat_lt (σ : Nat → Nat) (p : Nat) (n : Nat) (h : 0 < n) :
    (randn σ p (n : Int)).toNat < n := by
  unfold randn
  rw [Int.toNat_natCast, Int.toNat_natCast]
  exact Nat.mod_lt _ h

/-- The monster marker, drawn from the candidate list, is written
strictly inside the grid. -/
theorem jbMark_ok (σ : Nat → Nat) (p : Nat) (mz : Maze) (mc : List RecPt)
    (hokz : mazeOk mz)
    (hmcB : ∀ r ∈ mc, 1 ≤ r.x ∧ r.x ≤ mz.w - 2 ∧ 2 ≤ r.y ∧ r.y ≤ mz.h - 2) :
    mazeOk (jbMark σ p mz mc).1 := by
  unfold jbMark
  split_ifs with hlen
  · dsimp only
    have hidx : (randn σ p (mc.length : Int)).toNat < mc.length :=
      randn_toNat_lt σ p mc.length (by omega)
    have hb := hmcB _ (getD_mem_of_lt mc _ ⟨0, 0⟩ hidx)
    exact mazeOk_set_interior _ _ _ _ hokz hb.1 hb.2.1 (by omega) (by omega)
  · exact hokz
/-- Core of the build tail after the landing-cell write: the platform
loop, the monster marker and the crate loop together preserve the
generator invariant. -/
theorem jbTail_core (σ : Nat → Nat) (p : Nat) (vxPos : Bool) (ix iy : Int)
    (mz : Maze) (recs : List RecPt) (rd : List (Int × Int)) (len shift : Int)
    (res : Bool × GenSt) (hok : mazeOk mz)
    (hrec : ∀ r ∈ recs, 0 ≤ r.x ∧ r.x ≤ mz.w - 1 ∧ 1 ≤ r.y)
    (hiy : iy ≤ mz.h - 4)
    (hres : jbFinish σ
        (jbMark σ p
          (platformLoop len.toNat 0 len shift vxPos ix iy mz recs [] [] rd).1
          (platformLoop len.toNat 0 len shift vxPos ix iy mz recs [] []
            rd).2.2.2.1).2
        (jbMark σ p
          (platformLoop len.toNat 0 len shift vxPos ix iy mz recs [] [] rd).1
          (platformLoop len.toNat 0 len shift vxPos ix iy mz recs [] []
            rd).2.2.2.1).1
        (platformLoop len.toNat 0 len shift vxPos ix iy mz recs [] [] rd).2.1
        (platformLoop len.toNat 0 len shift vxPos ix iy mz recs [] []
          rd).2.2.1
        (platformLoop len.toNat 0 len shift vxPos ix iy mz recs [] []
          rd).2.2.2.2 = some res) :
    genOk res.2 := by
  have E := platformLoop_entries len.toNat 0 len shift vxPos ix iy mz recs
    [] [] rd hok
  refine jbFinish_ok σ _ _ _ _ _ res ?_ ?_ ?_ hres
  · refine jbMark_ok σ _ _ _
      (mazeOk_platformLoop _ _ _ _ _ _ _ _ _ _ _ _ hok) ?_
    intro r hr
    rcases E.2.2 r hr with h | h
    · cases h
    · simp only [w_platformLoop, h_platformLoop]
      obtain ⟨a1, a2, a3, a4, a5⟩ := h
      exact ⟨by omega, by omega, by omega, by omega⟩
  · intro r hr
    rcases E.1 r hr with h | h
    · have h2 := hrec r h
      simp only [w_jbMark, w_platformLoop]
      exact h2
    · simp only [w_jbMark, w_platformLoop]
      obtain ⟨a1, a2, a3, a4, a5⟩ := h
      exact ⟨by omega, by omega, by omega⟩
  · intro r hr
    rcases E.2.1 r hr with h | h
    · cases h
    · simp only [w_jbMark, w_platformLoop]
      obtain ⟨a1, a2, a3, a4, a5⟩ := h
      exact ⟨by omega, by omega, by omega⟩

/-- The build tail preserves the generator invariant. -/
theorem jbTail_ok (σ : Nat → Nat) (pos : Nat) (vxPos : Bool) (ix iy : Int)
    (m : Maze) (recs : List RecPt) (rd : List (Int × Int))
    (res : Bool × GenSt) (hok : mazeOk m)
    (hrec : ∀ r ∈ recs, 0 ≤ r.x ∧ r.x ≤ m.w - 1 ∧ 1 ≤ r.y)
    (hres : jbTail σ pos vxPos ix iy m recs rd = some res) : genOk res.2 := by
  unfold jbTail at hres
  dsimp only at hres
  split_ifs at hres with hiy hg
  · obtain rfl := Option.some.inj hres
    exact ⟨hok, hrec⟩
  · have hg2 : m.get ix iy = SPACE ∨ m.get ix iy = ' ' := by assumption
    have hiy2 : ¬iy ≥ m.h - 3 := by assumption
    refine jbTail_core σ (pos + 2) vxPos ix iy _ recs (rd ++ [(ix, iy)])
        (2 + randn σ pos 10) (randn σ (pos + 1) 20) res ?_ ?_ ?_ hres
    · exact mazeOk_set_nonwall _ _ _ _ hok
        (by rcases hg2 with h | h <;> rw [h] <;> decide)
        (by rcases hg2 with h | h <;> rw [h] <;> decide)
    · intro r hr
      have h2 := hrec r hr
      simp only [Maze.w_set]
      exact h2
    · simp only [Maze.h_set]
      omega
  · have hg2 : m.get ix iy = SPACE ∨ m.get ix iy = ' ' := by assumption
    have hiy2 : ¬iy ≥ m.h - 3 := by assumption
    refine jbTail_core σ (pos + 2) vxPos ix iy _ recs (rd ++ [(ix, iy)])
        (2 + randn σ pos 10) (randn σ (pos + 1) 20) res ?_ ?_ ?_ hres
    · exact mazeOk_set_nonwall _ _ _ _ hok
        (by rcases hg2 with h | h <;> rw [h] <;> decide)
        (by rcases hg2 with h | h <;> rw [h] <;> decide)
    · intro r hr
      have h2 := hrec r hr
      simp only [Maze.w_set]
      exact h2
    · simp only [Maze.h_set]
      omega
  · have hiy2 : ¬iy ≥ m.h - 3 := by assumption
    exact jbTail_core σ (pos + 2) vxPos ix iy m recs (rd ++ [(ix, iy)])
      (2 + randn σ pos 10) (randn σ (pos + 1) 20) res hok hrec (by omega) hres

@[simp] theorem w_arcLoop (vxc : Frac) (s : Nat) (vy x y : Frac) (ix iy : Int)
    (m : Maze) (rd : List (Int × Int)) :
    (arcLoop vxc s vy x y ix iy m rd).1.w = m.w := by
  induction s generalizing vy x y ix iy m rd with
  | zero => rfl
  | succ s ih =>
    simp only [arcLoop]
    split_ifs <;>
      first
        | (rw [ih]; simp)
        | rw [ih]
        | simp
        | rfl

/-- The square-root search never overshoots: its result squared stays
below the argument. -/
theorem isqrtGo_sq_le (n : Nat) : ∀ (fuel k : Nat), k * k ≤ n →
    isqrtGo n fuel k * isqrtGo n fuel k ≤ n := by
  intro fuel
  induction fuel with
  | zero => exact fun k hk => hk
  | succ fuel ih =>
    intro k hk
    simp only [isqrtGo]
    split_ifs with h
    · exact ih _ h
    · exact hk

/-- `int(sqrt(m))` with `m < size²` indexes a vector of length `size`. -/
theorem isqrt_lt_of_lt_sq (m size : Nat) (h : m < size * size) :
    isqrt m < size := by
  by_contra hge
  push_neg at hge
  have h1 : isqrt m * isqrt m ≤ m := isqrtGo_sq_le m m 0 (Nat.zero_le m)
  have h2 : size * size ≤ isqrt m * isqrt m := Nat.mul_le_mul hge hge
  exact absurd h (not_lt.2 (h2.trans h1))

/-- One unfolding of the ladder walk. -/
theorem ladderLoop_succ_eq (s : Nat) (ix iy : Int) (fl : List RecPt)
    (m : Maze) (rd : List (Int × Int)) :
    ladderLoop (s+1) ix iy fl m rd =
      (if iy + 1 ≥ m.h - 3 ∨ m.get ix (iy+1) ≠ SPACE
          ∨ m.get (ix-1) (iy+1) = LADDER ∨ m.get (ix+1) (iy+1) = LADDER then
        (rd ++ [(ix, iy+1), (ix - 1, iy+1), (ix + 1, iy+1)], none)
      else ladderLoop s ix (iy+1) (fl ++ [⟨ix, iy⟩]) m
        (rd ++ [(ix, iy+1), (ix - 1, iy+1), (ix + 1, iy+1)])) := rfl

/-- A successful ladder walk stays strictly inside the grid: the first
probed space cell pins the column interior, and every collected shaft
cell and the final cell lie at interior rows. -/
theorem ladderLoop_ok (s : Nat) : ∀ (ix iy : Int) (fl : List RecPt)
    (m : Maze) (rd : List (Int × Int)) (ixf iyf : Int) (flf : List RecPt),
    borderSolid m →
    (∀ f ∈ fl, 1 ≤ f.x ∧ f.x ≤ m.w - 2 ∧ 1 ≤ f.y ∧ f.y ≤ m.h - 2) →
    1 ≤ iy →
    (ladderLoop (s+1) ix iy fl m rd).2 = some (ixf, iyf, flf) →
    (∀ f ∈ flf, 1 ≤ f.x ∧ f.x ≤ m.w - 2 ∧ 1 ≤ f.y ∧ f.y ≤ m.h - 2) ∧
    1 ≤ ixf ∧ ixf ≤ m.w - 2 ∧ 1 ≤ iyf ∧ iyf ≤ m.h - 2 := by
  induction s with
  | zero =>
    intro ix iy fl m rd ixf iyf flf hb hfl hy hres
    rw [ladderLoop_succ_eq] at hres
    split_ifs at hres with hc
    simp only [ladderLoop, Option.some.injEq, Prod.mk.injEq] at hres
    push_neg at hc
    obtain ⟨hc1, hc2, hc3, hc4⟩ := hc
    have hint := open_interior m ix (iy + 1) hb
      (by rw [hc2]; decide) (by rw [hc2]; decide)
    obtain ⟨rfl, rfl, rfl⟩ := hres
    refine ⟨?_, hint.1, hint.2.1, by omega, by omega⟩
    intro f hf
    rcases List.mem_append.1 hf with h | h
    · exact hfl f h
    · rcases List.mem_singleton.1 h with rfl
      exact ⟨hint.1, hint.2.1, hy, show iy ≤ m.h - 2 by omega⟩
  | succ s ih =>
    intro ix iy fl m rd ixf iyf flf hb hfl hy hres
    rw [ladderLoop_succ_eq] at hres
    split_ifs at hres with hc
    push_neg at hc
    obtain ⟨hc1, hc2, hc3, hc4⟩ := hc
    have hint := open_interior m ix (iy + 1) hb
      (by rw [hc2]; decide) (by rw [hc2]; decide)
    refine ih ix (iy + 1) (fl ++ [⟨ix, iy⟩]) m _ ixf iyf flf hb ?_
      (by omega) hres
    intro f hf
    rcases List.mem_append.1 hf with h | h
    · exact hfl f h
    · rcases List.mem_singleton.1 h with rfl
      exact ⟨hint.1, hint.2.1, hy, show iy ≤ m.h - 2 by omega⟩

@[simp] theorem w_foldl_ladder (fl : List RecPt) (m : Maze) :
    (fl.foldl (fun mm f => mm.set f.x f.y LADDER) m).w = m.w := by
  induction fl generalizing m with
  | nil => rfl
  | cons a t ih =>
    simp only [List.foldl_cons]
    rw [ih]
    simp

@[simp] theorem h_foldl_ladder (fl : List RecPt) (m : Maze) :
    (fl.foldl (fun mm f => mm.set f.x f.y LADDER) m).h = m.h := by
  induction fl generalizing m with
  | nil => rfl
  | cons a t ih =>
    simp only [List.foldl_cons]
    rw [ih]
    simp

/-- The ladder writes, all at interior cells, keep the write-safety
invariant. -/
theorem mazeOk_foldl_ladder (fl : List RecPt) (m : Maze) (hok : mazeOk m)
    (hfl : ∀ f ∈ fl, 1 ≤ f.x ∧ f.x ≤ m.w - 2 ∧ 1 ≤ f.y ∧ f.y ≤ m.h - 2) :
    mazeOk (fl.foldl (fun mm f => mm.set f.x f.y LADDER) m) := by
  induction fl generalizing m with
  | nil => exact hok
  | cons a t ih =>
    simp only [List.foldl_cons]
    have ha := hfl a (List.mem_cons_self a t)
    refine ih _ (mazeOk_set_interior _ _ _ _ hok ha.1 ha.2.1 ha.2.2.1
      ha.2.2.2) ?_
    intro f hf
    have h2 := hfl f (List.mem_cons_of_mem a hf)
    simpa only [Maze.w_set, Maze.h_set] using h2

/-- Setting the spawn point touches no tiles. -/
theorem mazeOk_spawn (m : Maze) (sx sy : Int) (hok : mazeOk m) :
    mazeOk { m with spawnx := sx, spawny := sy } :=
  ⟨fun a b hin he => hok.1 a b hin he, hok.2⟩

/-- `jump_and_build_platform_somewhere` preserves the generator
invariant: both the ballistic branch and the ladder branch write only
over open cells or strictly inside the grid. -/
theorem jumpAndBuild_ok (σ : Nat → Nat) (st : GenSt) (res : Bool × GenSt)
    (hok : genOk st) (hres : jumpAndBuild σ st = some res) :
    genOk res.2 := by
  obtain ⟨hm, hrec⟩ := hok
  unfold jumpAndBuild at hres
  dsimp only at hres
  split_ifs at hres with h0 hbr hiy hc1 hc2
  · obtain rfl := Option.some.inj hres
    exact ⟨hm, hrec⟩
  · -- ballistic branch
    split at hres
    · obtain rfl := Option.some.inj hres
      refine ⟨mazeOk_arcLoop _ _ _ _ _ _ _ _ _ hm, ?_⟩
      intro r hr
      simpa only [w_arcLoop] using hrec r hr
    · rename_i ix iy heq
      refine jbTail_ok σ _ _ _ _ _ _ _ res
        (mazeOk_arcLoop _ _ _ _ _ _ _ _ _ hm) ?_ hres
      intro r hr
      simpa only [w_arcLoop] using hrec r hr
  · obtain rfl := Option.some.inj hres
    exact ⟨hm, hrec⟩
  · obtain rfl := Option.some.inj hres
    exact ⟨hm, hrec⟩
  · obtain rfl := Option.some.inj hres
    exact ⟨hm, hrec⟩
  · -- ladder branch
    split at hres
    · obtain rfl := Option.some.inj hres
      exact ⟨hm, fun q hq => hrec q (List.mem_of_mem_eraseIdx hq)⟩
    · rename_i ixf iyf fl heq
      have hsz : 0 < st.recStack.length := Nat.pos_of_ne_zero h0
      have hmem := getD_mem_of_lt st.recStack
        (isqrt (σ st.pos % (st.recStack.length * st.recStack.length)))
        ⟨0, 0⟩ (isqrt_lt_of_lt_sq _ _ (Nat.mod_lt _ (Nat.mul_pos hsz hsz)))
      have hr0 := hrec _ hmem
      obtain ⟨s, hs⟩ : ∃ s, (5 + randn σ (st.pos + 4) 10).toNat = s + 1 :=
        ⟨(5 + randn σ (st.pos + 4) 10).toNat - 1, by unfold randn; omega⟩
      rw [hs] at heq
      obtain ⟨hflB, hx1, hx2, hy1, hy2⟩ := ladderLoop_ok s _ _ _ _ _ _ _ _
        hm.1 (by intro f hf; cases hf) hr0.2.2 heq
      refine jbTail_ok σ _ _ _ _ _ _ _ res ?_ ?_ hres
      · refine mazeOk_set_interior _ _ _ _
          (mazeOk_foldl_ladder fl st.maze hm hflB) ?_ ?_ ?_ ?_ <;>
          first
            | omega
            | (simp only [w_foldl_ladder, h_foldl_ladder]; omega)
      · intro q hq
        simpa only [Maze.w_set, w_foldl_ladder] using
          hrec q (List.mem_of_mem_eraseIdx hq)

/-- The attempt loop preserves the generator invariant. -/
theorem attemptLoop_ok (σ : Nat → Nat) (fuel : Nat) (p want : Int)
    (st : GenSt) (out : GenSt × Int × Int) (hok : genOk st)
    (hres : attemptLoop σ fuel p want st = some out) : genOk out.1 := by
  induction fuel generalizing p want st with
  | zero =>
    obtain rfl := Option.some.inj hres
    exact hok
  | succ fuel ih =>
    simp only [attemptLoop] at hres
    split_ifs at hres with hp
    · split at hres
      · cases hres
      · rename_i succ1 st1 heq
        have hok1 : genOk st1 := jumpAndBuild_ok σ st (succ1, st1) hok heq
        split_ifs at hres <;>
          first
            | (obtain rfl := Option.some.inj hres; exact hok1)
            | exact ih _ _ _ hok1 hres
    · obtain rfl := Option.some.inj hres
      exact hok

/-- The freshly initialised 64×13 level is write-safe: its border is
solid and no out-of-grid write has happened. -/
theorem mazeOk_levelStart : mazeOk levelStart := by
  constructor
  · intro x y hin hedge
    have hg := get_initialFloorAndWalls x y
    rw [initialFloorAndWalls_eq_levelStart] at hg
    have hw : levelStart.w = (64 : Int) := rfl
    have hh : levelStart.h = (13 : Int) := rfl
    rw [hw, hh] at hedge
    unfold Maze.inGrid at hin
    rw [hw, hh] at hin
    simp only [Bool.and_eq_true, decide_eq_true_eq] at hin
    have hin' : 0 ≤ x ∧ x < 64 ∧ 0 ≤ y ∧ y < 13 := by omega
    rw [hg, if_pos hin']
    split_ifs <;> first | decide | omega
  · rfl

/-- The whole generation pipeline preserves write-safety: border solid
in, border solid out, and no out-of-grid write ever happens. -/
theorem generateCoins_ok (σ : Nat → Nat) (pos : Nat) (m : Maze)
    (g : GenResult) (hok : mazeOk m)
    (hres : generateCoinsOnPlatforms σ pos m = some g) :
    borderSolid g.maze ∧ g.maze.oobWrite = false := by
  unfold generateCoinsOnPlatforms at hres
  dsimp only at hres
  split at hres
  · cases hres
  · rename_i st1 att want heq
    obtain rfl := Option.some.inj hres
    have hok1 : genOk st1 := attemptLoop_ok σ 110 0 11 _ (st1, att, want)
      (by
        refine ⟨mazeOk_spawn m _ _ hok, ?_⟩
        intro r hr
        simp only [List.mem_map, List.mem_range] at hr
        obtain ⟨xx, hxx, rfl⟩ := hr
        exact ⟨Int.natCast_nonneg xx, by show (xx : Int) ≤ m.w - 1; omega,
          le_refl 1⟩)
      heq
    have hok2 := placeCoins_ok σ st1.pos st1.maze st1.recStack hok1.1
    have hok3 := removeTraces_ok σ
      (placeCoins σ st1.pos st1.maze st1.recStack).2.1
      (placeCoins σ st1.pos st1.maze st1.recStack).1 hok2
    exact ⟨hok3.1, hok3.2⟩

/-- `eat_coin` changes the grid only by writing space over a coin or gem
tile — both readable non-wall tiles — so it keeps the border solid and
never writes out of grid. -/
theorem mazeOk_eatCoin (s : Sim) (x y : Int) (hok : mazeOk s.maze) :
    mazeOk (eatCoin s x y).maze := by
  unfold eatCoin
  dsimp only
  split_ifs <;>
    first
      | exact ⟨fun a b hin he => hok.1 a b hin he, hok.2⟩
      | (exfalso
         have hc : is_coin (s.maze.get x y) = true := by assumption
         have hg2 : is_gem (s.maze.get x y) = true := by assumption
         unfold is_coin at hc
         unfold is_gem at hg2
         simp only [beq_iff_eq] at hc hg2
         rw [hc] at hg2
         exact absurd hg2 (by decide))
      | (have hcg : s.maze.get x y = COIN_OBJ1 ∨ s.maze.get x y = COIN_OBJ2 := by
           first
             | (have hc : is_coin (s.maze.get x y) = true := by assumption
                unfold is_coin at hc
                simp only [beq_iff_eq] at hc
                exact Or.inl hc)
             | (have hg2 : is_gem (s.maze.get x y) = true := by assumption
                unfold is_gem at hg2
                simp only [beq_iff_eq] at hg2
                exact Or.inr hg2)
         have hv : is_wall (s.maze.get x y) = false := by
           rcases hcg with h | h <;> rw [h] <;> decide
         have hq : s.maze.get x y ≠ '?' := by
           rcases hcg with h | h <;> rw [h] <;> decide
         first
           | (have hset : mazeOk (s.maze.set x y SPACE) :=
                mazeOk_set_nonwall _ x y SPACE hok hv hq
              exact ⟨fun a b hin he => hset.1 a b hin he, hset.2⟩)
           | (have hok2 :
                  mazeOk ({ s.maze with is_terminated := true } : Maze) :=
                ⟨fun a b hin he => hok.1 a b hin he, hok.2⟩
              have hset : mazeOk
                  (({ s.maze with is_terminated := true } : Maze).set
                    x y SPACE) :=
                mazeOk_set_nonwall _ x y SPACE hok2 hv hq
              exact ⟨fun a b hin he => hset.1 a b hin he, hset.2⟩))

/-- A simulation sub-step touches the grid only through its four
`eat_coin` probes, so it keeps the border solid and never writes out of
grid. -/
theorem mazeOk_subStep (cfg : Config) (s : Sim) (dvx dvy : ℚ)
    (hok : mazeOk s.maze) : mazeOk (subStep cfg s dvx dvy).maze := by
  unfold subStep
  dsimp only
  exact mazeOk_eatCoin _ _ _ (mazeOk_eatCoin _ _ _ (mazeOk_eatCoin _ _ _
    (mazeOk_eatCoin _ _ _ hok)))

/-- C9 (amended): generation always succeeds on the freshly initialised
64×13 level and returns a grid whose outer border is solid, having
performed no out-of-grid *write*; and every simulation sub-step — whose
only grid writes are its four `eat_coin` probes, each over a readable
coin or gem tile — again keeps the border solid and writes nothing out
of grid, so the border stays solid after every simulation step.  The
claim's no-out-of-bounds *read* part is false — see the counterexample,
which exhibits an out-of-grid generation read at `(-1, 2)`. -/
theorem C9_border_solid_no_oob_writes (σ : Nat → Nat) (pos : Nat) :
    (∃ g, generateCoinsOnPlatforms σ pos
        (initialFloorAndWalls (mazeNew 64 13))
      = some g ∧ borderSolid g.maze ∧ g.maze.oobWrite = false) ∧
    (∀ (cfg : Config) (s : Sim) (dvx dvy : ℚ),
      borderSolid s.maze → s.maze.oobWrite = false →
      borderSolid (subStep cfg s dvx dvy).maze ∧
        (subStep cfg s dvx dvy).maze.oobWrite = false) := by
  constructor
  · obtain ⟨g, hg, -, -⟩ :=
      generation_total σ pos (initialFloorAndWalls (mazeNew 64 13))
    refine ⟨g, hg, generateCoins_ok σ pos _ g ?_ hg⟩
    rw [initialFloorAndWalls_eq_levelStart]
    exact mazeOk_levelStart
  · intro cfg s dvx dvy hb ho
    exact mazeOk_subStep cfg s dvx dvy ⟨hb, ho⟩

set_option maxRecDepth 40000 in
/-- C9 counterexample: with the all-zeros draw stream the generator's
ladder branch reads the cell `(-1, 2)`, which lies outside the 64×13
grid, so generation code does index outside `[0,w)×[0,h)` on reads. -/
theorem C9_counterexample :
    (generateCoinsOnPlatforms (fun _ => 0) 0
        (initialFloorAndWalls (mazeNew 64 13))).map
      (fun g => decide ((-1, 2) ∈ g.reads)) = some true ∧
    (mazeNew 64 13).inGrid (-1) 2 = false := by
  constructor
  · rw [initialFloorAndWalls_eq_levelStart]
    decide
  · decide

/-- For a nonnegative rational, C truncation toward zero is the floor. -/
theorem cInt_eq_floor (q : ℚ) (h : 0 ≤ q) : cInt q = ⌊q⌋ := by
  unfold cInt
  rw [Rat.floor_def]
  exact Int.tdiv_eq_ediv (Rat.num_nonneg.mpr h) (by positivity)

theorem cInt_le_self (q : ℚ) (h : 0 ≤ q) : ((cInt q : Int) : ℚ) ≤ q := by
  rw [cInt_eq_floor q h]
  exact Int.floor_le q

theorem lt_cInt_add_one (q : ℚ) (h : 0 ≤ q) : q < ((cInt q : Int) : ℚ) + 1 := by
  rw [cInt_eq_floor q h]
  exact Int.lt_floor_add_one q

/-- Core safety of the single-cell horizontal probe: if every wall
column `W` misses the agent body `(x, x+1)` and the sub-step speed is at
most `1/10`, the resolved position (snap on a probed wall, free move
otherwise) again has a wall-free body. -/
theorem probe_body_safe (W : Int → Bool) (x dvx x' : ℚ)
    (hnx : 0 ≤ x + dvx)
    (hs1 : -(1/10 : ℚ) ≤ dvx) (hs2 : dvx ≤ 1/10)
    (hsafe : ∀ c : Int, (c : ℚ) < x + 1 → x < (c : ℚ) + 1 → W c = false)
    (hx' : x' = if dvx < 0 ∧ W (cInt (x + dvx)) = true
        then ((cInt (x + dvx) + 1 : Int) : ℚ)
        else if 0 < dvx ∧ W (cInt (x + dvx) + 1) = true
        then ((cInt (x + dvx) : Int) : ℚ)
        else x + dvx) :
    ∀ c : Int, (c : ℚ) < x' + 1 → x' < (c : ℚ) + 1 → W c = false := by
  have hfl := cInt_le_self (x + dvx) hnx
  have hfu := lt_cInt_add_one (x + dvx) hnx
  intro c hc1 hc2
  split_ifs at hx' with h1 h2
  · obtain ⟨hneg, -⟩ := h1
    subst hx'
    have e1 : (c : ℚ) < (cInt (x + dvx) : ℚ) + 2 := by push_cast at hc1; linarith
    have e2 : (cInt (x + dvx) : ℚ) < (c : ℚ) := by push_cast at hc2; linarith
    have i1 : c < cInt (x + dvx) + 2 := by exact_mod_cast e1
    have i2 : cInt (x + dvx) < c := by exact_mod_cast e2
    have hc : c = cInt (x + dvx) + 1 := by omega
    subst hc
    exact hsafe _ (by push_cast; linarith) (by push_cast; linarith)
  · obtain ⟨hpos, -⟩ := h2
    subst hx'
    have e1 : (c : ℚ) < (cInt (x + dvx) : ℚ) + 1 := by push_cast at hc1; linarith
    have e2 : (cInt (x + dvx) : ℚ) < (c : ℚ) + 1 := by push_cast at hc2; linarith
    have i1 : c < cInt (x + dvx) + 1 := by exact_mod_cast e1
    have i2 : cInt (x + dvx) < c + 1 := by exact_mod_cast e2
    have hc : c = cInt (x + dvx) := by omega
    subst hc
    exact hsafe _ (by push_cast; linarith) (by push_cast; linarith)
  · subst hx'
    by_cases hold : (c : ℚ) < x + 1 ∧ x < (c : ℚ) + 1
    · exact hsafe c hold.1 hold.2
    push_neg at hold
    by_cases hx1 : (c : ℚ) < x + 1
    · have hleft : (c : ℚ) + 1 ≤ x := hold hx1
      have hdneg : dvx < 0 := by linarith
      have e1 : (cInt (x + dvx) : ℚ) < (c : ℚ) + 1 := by linarith
      have e2 : (c : ℚ) < (cInt (x + dvx) : ℚ) + 1 := by linarith
      have i1 : cInt (x + dvx) < c + 1 := by exact_mod_cast e1
      have i2 : c < cInt (x + dvx) + 1 := by exact_mod_cast e2
      have hc : c = cInt (x + dvx) := by omega
      by_cases hW : W c = true
      · exact absurd ⟨hdneg, hc ▸ hW⟩ h1
      · simpa using hW
    · push_neg at hx1
      have hdpos : 0 < dvx := by linarith
      have e1 : (c : ℚ) < (cInt (x + dvx) : ℚ) + 2 := by linarith
      have e2 : (cInt (x + dvx) : ℚ) < (c : ℚ) := by linarith
      have i1 : c < cInt (x + dvx) + 2 := by exact_mod_cast e1
      have i2 : cInt (x + dvx) < c := by exact_mod_cast e2
      have hc : c = cInt (x + dvx) + 1 := by omega
      by_cases hW : W c = true
      · exact absurd ⟨hdpos, hc ▸ hW⟩ h2
      · simpa using hW

/-- C10: the horizontal resolution of `sub_step` is a single-cell probe
in the direction of motion; at sub-step speeds up to half the maximum
speed it never leaves the agent's unit-wide body overlapping a wall
tile, and a probe that hits a wall zeroes the horizontal velocity and
snaps the position to the boundary of the blocking cell. -/
theorem C10_horizontal_probe_safe (m : Maze) (ag : AgentSt) (dvx : ℚ)
    (hnx : 0 ≤ ag.x + dvx)
    (hsp : -(MAX_SPEED / 2) ≤ dvx ∧ dvx ≤ MAX_SPEED / 2)
    (hsafe : bodySafe m ag.x ag.y) :
    bodySafe m (subStepH m ag dvx).x ag.y ∧
    (dvx < 0 → is_wall (m.get (cInt (ag.x + dvx)) (cInt ag.y)) = true →
      (subStepH m ag dvx).vx = 0 ∧
      (subStepH m ag dvx).x = ((cInt (ag.x + dvx) + 1 : Int) : ℚ)) ∧
    (0 < dvx → is_wall (m.get (cInt (ag.x + dvx) + 1) (cInt ag.y)) = true →
      (subStepH m ag dvx).vx = 0 ∧
      (subStepH m ag dvx).x = ((cInt (ag.x + dvx) : Int) : ℚ)) := by
  obtain ⟨hs1, hs2⟩ := hsp
  rw [show MAX_SPEED / 2 = (1/10 : ℚ) by norm_num [MAX_SPEED]] at hs1 hs2
  refine ⟨?_, ?_, ?_⟩
  · refine probe_body_safe (fun c => is_wall (m.get c (cInt ag.y)))
      ag.x dvx _ hnx hs1 hs2 hsafe ?_
    unfold subStepH
    dsimp only
    split_ifs <;> rfl
  · intro hneg hwall
    unfold subStepH
    dsimp only
    rw [if_pos ⟨hneg, hwall⟩]
    exact ⟨rfl, rfl⟩
  · intro hpos hwall
    unfold subStepH
    dsimp only
    rw [if_neg (by rintro ⟨h, -⟩; linarith), if_pos ⟨hpos, hwall⟩]
    exact ⟨rfl, rfl⟩

/-- Concrete run of C10: the agent at `x = 2` in the corridor, probing
right into the wall column, is stopped with `vx = 0` exactly at the cell
boundary. -/
theorem C10_horizontal_probe_safe_witness :
    ((0 : ℚ) ≤ c10agent.x + 1/10 ∧
     (-(MAX_SPEED / 2) ≤ (1/10 : ℚ) ∧ (1/10 : ℚ) ≤ MAX_SPEED / 2) ∧
     bodySafe c10maze c10agent.x c10agent.y) ∧
    (bodySafe c10maze (subStepH c10maze c10agent (1/10)).x c10agent.y ∧
     ((1/10 : ℚ) < 0 →
        is_wall (c10maze.get (cInt (c10agent.x + 1/10))
          (cInt c10agent.y)) = true →
        (subStepH c10maze c10agent (1/10)).vx = 0 ∧
        (subStepH c10maze c10agent (1/10)).x =
          ((cInt (c10agent.x + 1/10) + 1 : Int) : ℚ)) ∧
     (0 < (1/10 : ℚ) →
        is_wall (c10maze.get (cInt (c10agent.x + 1/10) + 1)
          (cInt c10agent.y)) = true →
        (subStepH c10maze c10agent (1/10)).vx = 0 ∧
        (subStepH c10maze c10agent (1/10)).x =
          ((cInt (c10agent.x + 1/10) : Int) : ℚ))) := by
  have hnx : (0 : ℚ) ≤ c10agent.x + 1/10 := by norm_num [c10agent]
  have hsp : -(MAX_SPEED / 2) ≤ (1/10 : ℚ) ∧ (1/10 : ℚ) ≤ MAX_SPEED / 2 := by
    norm_num [MAX_SPEED]
  have hsafe : bodySafe c10maze c10agent.x c10agent.y := by
    intro c h1 h2
    have hx : c10agent.x = (2 : ℚ) := rfl
    rw [hx] at h1 h2
    have i1 : c < 3 := by exact_mod_cast (by linarith : (c : ℚ) < 3)
    have i2 : 1 < c := by exact_mod_cast (by linarith : (1 : ℚ) < (c : ℚ))
    have hc : c = 2 := by omega
    subst hc
    decide
  exact ⟨⟨hnx, hsp, hsafe⟩,
    C10_horizontal_probe_safe c10maze c10agent (1/10) hnx hsp hsafe⟩

/-- Concrete run of C9's simulation half: one sub-step of the corridor
agent keeps the border solid and writes nothing out of grid. -/
theorem C9_border_solid_no_oob_writes_witness :
    (borderSolid c10sim.maze ∧ c10sim.maze.oobWrite = false) ∧
    (borderSolid (subStep {} c10sim 0 0).maze ∧
      (subStep {} c10sim 0 0).maze.oobWrite = false) := by
  have hb : borderSolid c10sim.maze := by
    intro x y hin hedge
    have hw : c10sim.maze.w = (4 : Int) := rfl
    have hh : c10sim.maze.h = (3 : Int) := rfl
    unfold Maze.inGrid at hin
    rw [hw, hh] at hin hedge
    simp only [Bool.and_eq_true, decide_eq_true_eq] at hin
    obtain ⟨⟨⟨hx1, hx2⟩, hy1⟩, hy2⟩ := hin
    interval_cases x <;> interval_cases y <;> first | decide | omega
  exact ⟨⟨hb, rfl⟩,
    (C9_border_solid_no_oob_writes (fun _ => 0) 0).2 {} c10sim 0 0 hb rfl⟩
